import Mathlib

/-!
# Verification of the schedule block layout engine (`src/algorithm/Renderer.cpp`)

This file shallowly embeds the layout pipeline of the renderer:

* `intervalScheduling` / `intervalScheduling2` — stage S1, room assignment;
* `constructAdjList` — stage S2, conflict graph (left/right adjacency + matrix);
* `condenseAdjList` — stage S3, transitive reduction (`cleftN` / `crightN`);
* `dfsWidthExpansion` — stage S4, DFS width seeding;
* `DFSFindFixedNumerical` and the S5/S6 fixed detection scans;
* the S6 LP refinement loop and the S7 MILP formulation, with the external
  GLPK solver modelled abstractly by its contract (spec §6.2/§7): on a
  feasible problem it returns an optimal feasible point, on an infeasible
  problem the layout of that component is left unchanged (treated as no-op).

Numeric fields (`left`, `width`) are modelled with exact rationals `ℚ` in
place of IEEE doubles; `startMin`/`endMin` and the tolerances are modelled
with `ℤ` in place of 16/32-bit machine integers (no computation overflows
those ranges in any statement below). `blocks[i]` is modelled as a total
function `ℕ → Blk` together with the count `n`; `idx` of a block is its
position `i`, exactly as the source assigns `block.idx = i` and never
changes it. The fields `left`/`width` are not initialized by the source
(they are overwritten before use on every path except an infeasible-MILP
run); the model gives them initial value 0, the content of fresh zeroed
memory.
-/

namespace Renderer

/-- DOUBLE_EPS from the source, `1e-8`, as an exact rational. -/
def DOUBLE_EPS : ℚ := 1 / 100000000

/-- One schedule block. Mirrors `struct ScheduleBlock`; adjacency vectors
hold block indices (the source holds pointers into the `blocks` array, and
block `idx` identifies a block uniquely). -/
structure Blk where
  isFixed : Bool
  visited : Bool
  startMin : ℤ
  endMin : ℤ
  duration : ℤ
  depth : ℕ
  pathDepth : ℕ
  left : ℚ
  width : ℚ
  leftN : List ℕ
  rightN : List ℕ
  cleftN : List ℕ
  crightN : List ℕ
  deriving Repr, DecidableEq

/-- Global engine state: the `blocks` array (as a total function off its
`n`-element prefix), and the boolean conflict `matrix` (`matrix i j = true`
iff block `j` is in the `leftN` of block `i`). -/
structure RState where
  n : ℕ
  blk : ℕ → Blk
  matrix : ℕ → ℕ → Bool

/-- Functional update of one block. -/
def setB (st : RState) (i : ℕ) (b : Blk) : RState :=
  { st with blk := fun j => if j = i then b else st.blk j }

/-- Pointwise modification of one block. -/
def modB (st : RState) (i : ℕ) (f : Blk → Blk) : RState :=
  setB st i (f (st.blk i))

@[simp] theorem setB_n (st : RState) (i b) : (setB st i b).n = st.n := rfl

@[simp] theorem setB_matrix (st : RState) (i b) : (setB st i b).matrix = st.matrix := rfl

@[simp] theorem setB_blk_same (st : RState) (i b) : (setB st i b).blk i = b := by
  simp [setB]

theorem setB_blk_other (st : RState) (i b) {j} (h : j ≠ i) :
    (setB st i b).blk j = st.blk j := by
  simp [setB, h]

@[simp] theorem modB_n (st : RState) (i f) : (modB st i f).n = st.n := rfl

@[simp] theorem modB_matrix (st : RState) (i f) : (modB st i f).matrix = st.matrix := rfl

@[simp] theorem modB_blk_same (st : RState) (i f) : (modB st i f).blk i = f (st.blk i) := by
  simp [modB]

theorem modB_blk_other (st : RState) (i f) {j} (h : j ≠ i) :
    (modB st i f).blk j = st.blk j := by
  simp [modB, setB, h]

/-- Two blocks conflict: `max(a.startMin, b.startMin) + dfsTolerance <
min(a.endMin, b.endMin)` (spec §3.3). -/
def Conflict (tol : ℤ) (a b : Blk) : Prop :=
  max a.startMin b.startMin + tol < min a.endMin b.endMin

instance (tol : ℤ) (a b : Blk) : Decidable (Conflict tol a b) :=
  inferInstanceAs (Decidable (_ < _))

theorem Conflict.symm {tol : ℤ} {a b : Blk} (h : Conflict tol a b) : Conflict tol b a := by
  unfold Conflict at *; omega

/-- Engine options (`setOptions`). `ISMethod`, `LPModel` keep their integer
selectors (any value other than the designated one selects the default
branch, as in the source); `applyDFS`/`MILP` are used as booleans by the
source (`if (applyDFS)`). -/
structure Opts where
  isTolerance : ℤ
  ISMethod : ℤ
  applyDFS : Bool
  dfsTolerance : ℤ
  LPIters : ℕ
  LPModel : ℤ
  MILP : Bool

/-- Input: one `{startMin, endMin}` pair per block. -/
abbrev Input := List (ℤ × ℤ)

/-- Valid input as the claims define it: every block has `startMin < endMin`. -/
def ValidInput (inp : Input) : Prop := ∀ p ∈ inp, p.1 < p.2

instance (inp : Input) : Decidable (ValidInput inp) :=
  inferInstanceAs (Decidable (∀ p ∈ inp, p.1 < p.2))

/-- The per-block setup loop of `compute`: flags cleared, times copied,
`duration = endMin − startMin`, `depth = 0`, adjacency cleared. `left`,
`width`, `pathDepth` are modelled as 0 (see the file comment). -/
def initBlk (p : ℤ × ℤ) : Blk :=
  { isFixed := false, visited := false, startMin := p.1, endMin := p.2,
    duration := p.2 - p.1, depth := 0, pathDepth := 0, left := 0, width := 0,
    leftN := [], rightN := [], cleftN := [], crightN := [] }

/-- State after the setup section of `compute` (matrix zeroed). -/
def initState (inp : Input) : RState :=
  { n := inp.length,
    blk := fun i => initBlk (inp.getD i (0, 0)),
    matrix := fun _ _ => false }

/-! ## Sort orders

`blocksReordered` is sorted with `std::sort`, whose result on ties is any
permutation consistent with the strict weak order of the comparator. The
embedding therefore passes the traversal order as an explicit list of block
indices, constrained by the predicates below: a permutation of
`range n` that is pairwise consistent with the comparator of
`sortByStartTime` (start ascending, ties by duration descending), resp. of
the stage-S4 sort (depth descending). -/

/-- `x` may come before `y` under the `sortByStartTime` comparator:
the negation of `y <sort x`. -/
def startLE (x y : Blk) : Prop :=
  x.startMin < y.startMin ∨ (x.startMin = y.startMin ∧ y.duration ≤ x.duration)

instance (x y : Blk) : Decidable (startLE x y) := by
  unfold startLE; infer_instance

/-- A valid result of `sortByStartTime` on state `st`. -/
def IsStartOrder (st : RState) (ord : List ℕ) : Prop :=
  ord.Perm (List.range st.n) ∧
    ord.Pairwise (fun i j => startLE (st.blk i) (st.blk j))

instance (st : RState) (ord : List ℕ) : Decidable (IsStartOrder st ord) :=
  instDecidableAnd

/-- A valid result of the stage-S4 sort (depth descending). -/
def IsDepthOrder (st : RState) (ord : List ℕ) : Prop :=
  ord.Perm (List.range st.n) ∧
    ord.Pairwise (fun i j => (st.blk j).depth ≤ (st.blk i).depth)

instance (st : RState) (ord : List ℕ) : Decidable (IsDepthOrder st ord) :=
  instDecidableAnd

/-! ## Stage S1 — interval scheduling -/

/-- The inner room scan of `intervalScheduling`: traverse the occupied-room
buffer (list of indices of each room's last block), find the eligible room
(`prevBlock.endMin ≤ block.startMin + isTolerance`) of minimal depth,
keeping the first room in buffer order among equals (the source updates
only on a strict `<`). Returns the position in the buffer, or `none`. -/
def pickRoom (st : RState) (tol : ℤ) (bStart : ℤ) : List ℕ → ℕ → Option (ℕ × ℕ)
  | [], _ => none
  | r :: rest, k =>
      let cand := pickRoom st tol bStart rest (k + 1)
      if (st.blk r).endMin ≤ bStart + tol then
        match cand with
        | none => some (k, (st.blk r).depth)
        | some (k', d') => if (st.blk r).depth < d' then some (k, (st.blk r).depth)
                           else some (k', d')
      else cand

/-- Main loop of `intervalScheduling` (method 1), over the tail of the sort
order. State: the occupied-rooms buffer (indices of last blocks) and
`numRooms`. -/
def is1Loop (tol : ℤ) : RState → List ℕ → List ℕ → ℕ → RState × ℕ
  | st, [], _, numRooms => (st, numRooms)
  | st, b :: rest, buf, numRooms =>
      match pickRoom st tol (st.blk b).startMin buf 0 with
      | none =>
          let st' := modB st b (fun blk => { blk with depth := numRooms + 1 })
          is1Loop tol st' rest (buf ++ [b]) (numRooms + 1)
      | some (k, _) =>
          let st' := modB st b (fun blk => { blk with depth := (st.blk (buf.getD k 0)).depth })
          is1Loop tol st' rest (buf.set k b) numRooms

/-- `intervalScheduling` (method 1): modified interval partitioning, O(n²),
preferring the eligible room with the lowest depth index. Takes the sorted
traversal order; returns the updated state and `total`. The first block
keeps its initial depth 0 (the source never assigns it). -/
def intervalScheduling (tol : ℤ) (st : RState) (ord : List ℕ) : RState × ℕ :=
  match ord with
  | [] => (st, 0)
  | b0 :: rest =>
      let (st', numRooms) := is1Loop tol st rest [b0] 0
      (st', numRooms + 1)

/-- Top of the method-2 min-heap: the queue element minimal in the strict
weak order of the comparator (endMin ascending, ties by depth ascending).
Among equal keys the earliest queue element is kept; the source's heap
never holds two elements with equal (endMin, depth) keys, because depths
present in the heap are distinct, so this choice is exact. -/
def qtop (st : RState) : List ℕ → ℕ → ℕ
  | [], q => q
  | r :: rest, q =>
      let cur :=
        if (st.blk r).endMin < (st.blk q).endMin ∨
           ((st.blk r).endMin = (st.blk q).endMin ∧ (st.blk r).depth < (st.blk q).depth)
        then r else q
      qtop st rest cur

/-- Main loop of `intervalScheduling2` (method 2). The queue is the list of
last blocks of open rooms. -/
def is2Loop (tol : ℤ) : RState → List ℕ → List ℕ → ℕ → RState × ℕ
  | st, [], _, numRooms => (st, numRooms)
  | st, b :: rest, q :: qrest, numRooms =>
      let top := qtop st qrest q
      if (st.blk b).startMin < (st.blk top).endMin + tol then
        -- conflict with every open room: open a new room
        let st' := modB st b (fun blk => { blk with depth := numRooms + 1 })
        is2Loop tol st' rest (b :: q :: qrest) (numRooms + 1)
      else
        let st' := modB st b (fun blk => { blk with depth := (st.blk top).depth })
        is2Loop tol st' rest (b :: (q :: qrest).erase top) numRooms
  | st, _ :: _, [], numRooms => (st, numRooms)  -- unreachable: queue is never empty

/-- `intervalScheduling2` (method 2): classical priority-queue interval
partitioning. A new room is opened when `top.endMin + tolerance >
block.startMin`. -/
def intervalScheduling2 (tol : ℤ) (st : RState) (ord : List ℕ) : RState × ℕ :=
  match ord with
  | [] => (st, 0)
  | b0 :: rest =>
      let (st', numRooms) := is2Loop tol st rest [b0] 0
      (st', numRooms + 1)

/-- Stage S1 dispatch in `compute`: `ISMethod == 1 ? intervalScheduling() :
intervalScheduling2()`. -/
def stageS1 (o : Opts) (st : RState) (ord : List ℕ) : RState × ℕ :=
  if o.ISMethod = 1 then intervalScheduling o.isTolerance st ord
  else intervalScheduling2 o.isTolerance st ord

/-! ## The conflict-graph clique number

Used by claim C3: the maximum number of pairwise-conflicting blocks. -/

/-- All pairwise-conflicting sublists of `range n`. -/
def cliqueLists (st : RState) (tol : ℤ) : List (List ℕ) :=
  (List.range st.n).sublists.filter
    (fun l => decide (l.Pairwise (fun i j => Conflict tol (st.blk i) (st.blk j))))

/-- Maximum clique size of the conflict graph. -/
def cliqueNum (st : RState) (tol : ℤ) : ℕ :=
  (cliqueLists st tol).foldl (fun m l => max m l.length) 0

/-! ## Stage S2 — conflict graph (`constructAdjList`) -/

/-- Record one conflicting pair, `bi` earlier than `bj` in the sorted scan:
if `bi.depth < bj.depth` then `matrix[bj, bi] := 1`, `bj.leftN += bi`,
`bi.rightN += bj`; otherwise the mirror image. -/
def pairAdd (st : RState) (bi bj : ℕ) : RState :=
  if (st.blk bi).depth < (st.blk bj).depth then
    let st1 : RState :=
      { st with matrix := fun p q => if p = bj ∧ q = bi then true else st.matrix p q }
    modB (modB st1 bj (fun b => { b with leftN := b.leftN ++ [bi] }))
      bi (fun b => { b with rightN := b.rightN ++ [bj] })
  else
    let st1 : RState :=
      { st with matrix := fun p q => if p = bi ∧ q = bj then true else st.matrix p q }
    modB (modB st1 bj (fun b => { b with rightN := b.rightN ++ [bi] }))
      bi (fun b => { b with leftN := b.leftN ++ [bj] })

/-- Inner scan of `constructAdjList`: for fixed `bi`, walk the later blocks
in sort order and stop (`break`) at the first one with
`bj.startMin + dfsTolerance ≥ bi.endMin`. -/
def adjInner (tol : ℤ) : RState → ℕ → List ℕ → RState
  | st, _, [] => st
  | st, bi, bj :: rest =>
      if (st.blk bi).endMin ≤ (st.blk bj).startMin + tol then st
      else adjInner tol (pairAdd st bi bj) bi rest

/-- Outer scan of `constructAdjList` over the sorted order. -/
def adjOuter (tol : ℤ) : RState → List ℕ → RState
  | st, [] => st
  | st, bi :: rest => adjOuter tol (adjInner tol st bi rest) rest

/-- Stage S2: `constructAdjList` (assumes `ord` sorted by start time). -/
def constructAdjList (tol : ℤ) (st : RState) (ord : List ℕ) : RState :=
  adjOuter tol st ord

/-! ## Stage S3 — transitive reduction (`condenseAdjList`) -/

/-- Stage S3: for every block, `v1 ∈ leftN` survives into `cleftN` iff no
`v ∈ leftN` has `matrix[v, v1]`; `v1 ∈ rightN` survives into `crightN` iff
no `v ∈ rightN` has `matrix[v1, v]`. The source loop writes only `cleftN`
and `crightN` while reading only `leftN`, `rightN` and `matrix`, so the
sequential loop equals this simultaneous update. -/
def condenseAdjList (st : RState) : RState :=
  { st with blk := fun i =>
      if i < st.n then
        let b := st.blk i
        { b with
          cleftN := b.leftN.filter (fun v1 => !(b.leftN.any (fun v => st.matrix v v1))),
          crightN := b.rightN.filter (fun v1 => !(b.rightN.any (fun v => st.matrix v1 v))) }
      else st.blk i }

/-! ## Stage S4 — DFS width seeding (`dfsWidthExpansion`) -/


/-- Number of not-yet-visited blocks; termination measure for the DFS loops. -/
def unvisitedCount (st : RState) : ℕ :=
  ((Finset.range st.n).filter (fun i => (st.blk i).visited = false)).card

/-- Marking a block visited (with any other field changes) strictly decreases
`unvisitedCount` when the block was unvisited. -/
theorem unvisitedCount_mark_lt {st : RState} {u : ℕ} {f : Blk → Blk}
    (hu : u < st.n) (hv : (st.blk u).visited = false)
    (hf : ((modB st u f).blk u).visited = true) :
    unvisitedCount (modB st u f) < unvisitedCount st := by
  unfold unvisitedCount
  have hn : (modB st u f).n = st.n := rfl
  rw [hn]
  apply Finset.card_lt_card
  constructor
  · intro j hj
    simp only [Finset.mem_filter, Finset.mem_range] at hj ⊢
    refine ⟨hj.1, ?_⟩
    rcases eq_or_ne j u with h | h
    · subst h; rw [hf] at hj; exact absurd hj.2 (by simp)
    · rw [modB_blk_other st u f h] at hj; exact hj.2
  · intro hsub
    have hmem : u ∈ (Finset.range st.n).filter (fun i => (st.blk i).visited = false) := by
      simp only [Finset.mem_filter, Finset.mem_range]; exact ⟨hu, hv⟩
    have hmem2 := hsub hmem
    simp only [Finset.mem_filter] at hmem2
    rw [hf] at hmem2
    exact absurd hmem2.2 (by simp)

/-- Marking step of the stage-S4 DFS: set `visited` and `pathDepth`
(the body of the pop in `depthFirstSearchRec`). -/
def markSeed (st : RState) (i : ℕ) (m : ℕ) : RState :=
  modB st i (fun b => { b with visited := true, pathDepth := m })

theorem unvisitedCount_markSeed_lt {st : RState} {u : ℕ} (m : ℕ)
    (hu : u < st.n) (hv : (st.blk u).visited = false) :
    unvisitedCount (markSeed st u m) < unvisitedCount st :=
  unvisitedCount_mark_lt hu hv (by simp [markSeed])

@[simp] theorem markSeed_n (st : RState) (i m) : (markSeed st i m).n = st.n := rfl

/-- Combined size of all `cleftN` lists; with the stack size it bounds the
number of loop iterations of the stage-S4 DFS. -/
def cleftSizeSum (st : RState) : ℕ :=
  ((List.range st.n).map (fun i => ((st.blk i).cleftN).length)).sum

/-- The explicit-stack loop of `depthFirstSearchRec`. The head of `stack` is
the top (most recently pushed); popping an unvisited node marks it, sets its
`pathDepth` to `m` and pushes its unvisited `cleftN` neighbors (in reverse,
because the source pushes them in order onto a LIFO stack). The source
performs the same marking and pushing for an already-visited popped node;
re-marking is the identity there (same `m` within one call), and the pushed
list is empty, because every unvisited neighbor entry pushed at the node's
first pop lies above any older duplicate entry of the node in the LIFO
stack and has therefore already been popped and marked; so the model skips
such pops directly. A popped index outside the array (impossible in the
source, which pushes only pointers into `blocks`) is treated the same way.
The fuel argument only bounds the number of iterations: each unvisited pop
consumes one stack entry and pushes at most its `cleftN` length, and each
node is unvisited-popped at most once, so
`stack.length + cleftSizeSum st + 1` iterations always suffice (see
`seedLoop_visits` and `seedLoop_closed`). -/
def seedLoop : ℕ → RState → List ℕ → ℕ → RState
  | 0, st, _, _ => st
  | _ + 1, st, [], _ => st
  | fuel + 1, st, u :: rest, m =>
      if u < st.n ∧ (st.blk u).visited = false then
        seedLoop fuel (markSeed st u m)
          ((((st.blk u).cleftN.filter
              (fun v => !((markSeed st u m).blk v).visited)).reverse) ++ rest) m
      else seedLoop fuel st rest m

/-- The root loop of `dfsWidthExpansion`: over the depth-descending order,
start a DFS with `maxDepth = node.depth + 1` at each unvisited node. -/
def seedRoots (st : RState) : List ℕ → RState
  | [] => st
  | i :: rest =>
      if (st.blk i).visited then seedRoots st rest
      else seedRoots (seedLoop (cleftSizeSum st + 2) st [i] ((st.blk i).depth + 1)) rest

/-- The final loop of `dfsWidthExpansion`:
`left = depth / pathDepth`, `width = 1 / pathDepth` for every block. -/
def applyWidths (st : RState) : RState :=
  { st with blk := fun i =>
      if i < st.n then
        let b := st.blk i
        { b with left := (b.depth : ℚ) / (b.pathDepth : ℚ),
                 width := 1 / (b.pathDepth : ℚ) }
      else st.blk i }

/-- Stage S4 (`dfsWidthExpansion`), given a depth-descending order. -/
def dfsWidthExpansion (st : RState) (ordD : List ℕ) : RState :=
  applyWidths (seedRoots st ordD)

/-- The loop after stage S4 in `compute`: clear every `visited` flag. -/
def clearVisited (st : RState) : RState :=
  { st with blk := fun i =>
      if i < st.n then { st.blk i with visited := false } else st.blk i }

/-- `computeInitialWidth`: `left = depth / total`, `width = 1 / total`. -/
def computeInitialWidth (st : RState) (total : ℕ) : RState :=
  { st with blk := fun i =>
      if i < st.n then
        { st.blk i with left := ((st.blk i).depth : ℚ) / (total : ℚ),
                        width := 1 / (total : ℚ) }
      else st.blk i }


/-! ## Stage S5 — numerical fixed detection (`DFSFindFixedNumerical`)

The recursion depth of `DFSFindFixedNumerical` is bounded by the number of
blocks: every call site (top level and recursive) guards on the node being
unvisited, and the function marks its node visited on entry, so the nodes
on any call path are pairwise distinct. The model therefore carries fuel
`n + 1`, which the source recursion never exhausts. -/

/-- The neighbor fold inside `DFSFindFixedNumerical`, with the recursive
call passed as `dfs` (the one-level-less `dfsFix`; the functions are mutually
recursive in the source, unfolded here into fuel recursion over `dfsFix`
with an inner list recursion). `sl` is the cached `startLeft` (the function
never modifies any `left`/`width`, so the cache equals the live value). The
fold evaluates every neighbor (`flag = DFS(adj) || flag` in the source). -/
def dfsFixFold (dfs : RState → ℕ → RState × Bool) :
    RState → ℚ → List ℕ → Bool → RState × Bool
  | st, _, [], flag => (st, flag)
  | st, sl, adj :: rest, flag =>
      if |sl - (st.blk adj).left - (st.blk adj).width| < DOUBLE_EPS then
        if (st.blk adj).visited then
          dfsFixFold dfs st sl rest ((st.blk adj).isFixed || flag)
        else
          let r := dfs st adj
          dfsFixFold dfs r.1 sl rest (r.2 || flag)
      else dfsFixFold dfs st sl rest flag

/-- `DFSFindFixedNumerical`: mark visited; a block with `left == 0` exactly
is fixed; otherwise fold the flag over the `cleftN` neighbors abutting the
left edge (within `DOUBLE_EPS`), recursing into unvisited ones. -/
def dfsFix : ℕ → RState → ℕ → RState × Bool
  | 0, st, _ => (st, false)
  | fuel+1, st, i =>
      let st1 := modB st i (fun b => { b with visited := true })
      if (st1.blk i).left = 0 then
        (modB st1 i (fun b => { b with isFixed := true }), true)
      else
        let r := dfsFixFold (fun s j => dfsFix fuel s j) st1
          ((st1.blk i).left) ((st1.blk i).cleftN) false
        (modB r.1 i (fun b => { b with isFixed := r.2 }), r.2)

/-- The stage-S5 scan in `compute`: for every non-visited block whose right
edge is within `DOUBLE_EPS` of 1, run the fixed-detection DFS. -/
def detectInitialLoop : RState → List ℕ → RState
  | st, [] => st
  | st, i :: rest =>
      if (st.blk i).visited then detectInitialLoop st rest
      else if |(st.blk i).left + (st.blk i).width - 1| < DOUBLE_EPS then
        detectInitialLoop (dfsFix (st.n + 1) st i).1 rest
      else detectInitialLoop st rest

/-- Stage S5 over all blocks in index order. -/
def detectInitialAll (st : RState) : RState :=
  detectInitialLoop st (List.range st.n)

/-- The in-loop fixed detection (step 3 of the S6 iteration): additionally
triggers when the block's right edge abuts the `left` of a fixed
`rightN` neighbor (first such neighbor, then `break`). -/
def detectIterLoop : RState → List ℕ → RState
  | st, [] => st
  | st, i :: rest =>
      if (st.blk i).visited then detectIterLoop st rest
      else
        if |(st.blk i).left + (st.blk i).width - 1| < DOUBLE_EPS then
          detectIterLoop (dfsFix (st.n + 1) st i).1 rest
        else
          match (st.blk i).rightN.find? (fun nb =>
              (st.blk nb).isFixed &&
                decide (|(st.blk i).left + (st.blk i).width - (st.blk nb).left|
                  < DOUBLE_EPS)) with
          | some _ => detectIterLoop (dfsFix (st.n + 1) st i).1 rest
          | none => detectIterLoop st rest

/-- Step 3 of an S6 iteration over all blocks. -/
def detectIterAll (st : RState) : RState :=
  detectIterLoop st (List.range st.n)

/-- The `visited = isFixed` reset loop of the S6 iteration. -/
def setVisitedFixed (st : RState) : RState :=
  { st with blk := fun i =>
      if i < st.n then { st.blk i with visited := (st.blk i).isFixed }
      else st.blk i }

/-- `getFixedCount`: count the fixed blocks, setting `visited = isFixed`. -/
def getFixedCount (st : RState) : ℕ × RState :=
  (((Finset.range st.n).filter (fun i => (st.blk i).isFixed = true)).card,
   setVisitedFixed st)

/-! ## Stage S6 — BFS over the condensed graph and the LP models -/

/-- The queue loop of `BFS`: `buf` is the growing `blockBuffer`, `qIdx` the
read cursor; unvisited `cleftN`/`crightN` neighbors of the dequeued node
are marked and appended. Fuel `n + 1` covers the at most `n` dequeues (the
buffer holds pairwise distinct marked nodes). -/
def bfsLoop : ℕ → RState → List ℕ → ℕ → List ℕ × RState
  | 0, st, buf, _ => (buf, st)
  | fuel+1, st, buf, qIdx =>
      if qIdx < buf.length then
        let node := buf.getD qIdx 0
        let step := fun (acc : List ℕ × RState) (v : ℕ) =>
          if (acc.2.blk v).visited then acc
          else (acc.1 ++ [v], modB acc.2 v (fun b => { b with visited := true }))
        let acc1 := ((st.blk node).cleftN ++ (st.blk node).crightN).foldl step (buf, st)
        bfsLoop fuel acc1.2 acc1.1 (qIdx + 1)
      else (buf, st)

/-- `BFS(start)`: collect the connected component of non-visited blocks
containing `start` (over the undirected condensed graph), marking them. -/
def BFS (st : RState) (start : ℕ) : List ℕ × RState :=
  bfsLoop (st.n + 1) (modB st start (fun b => { b with visited := true }))
    [start] 0

/-- `std::max` on rationals, as the source uses it. -/
def rmax (a b : ℚ) : ℚ := if a ≤ b then b else a

/-- `std::min` on rationals. -/
def rmin (a b : ℚ) : ℚ := if b ≤ a then b else a

theorem le_rmax_left (a b : ℚ) : a ≤ rmax a b := by
  unfold rmax; split <;> simp_all
theorem le_rmax_right (a b : ℚ) : b ≤ rmax a b := by
  unfold rmax; split
  · exact le_refl b
  · exact le_of_not_le (by assumption)
theorem rmax_le {a b c : ℚ} (h1 : a ≤ c) (h2 : b ≤ c) : rmax a b ≤ c := by
  unfold rmax; split <;> assumption
theorem rmin_le_left (a b : ℚ) : rmin a b ≤ a := by
  unfold rmin; split <;> simp_all
theorem rmin_le_right (a b : ℚ) : rmin a b ≤ b := by
  unfold rmin; split
  · exact le_refl b
  · exact le_of_not_le (by assumption)
theorem le_rmin {a b c : ℚ} (h1 : c ≤ a) (h2 : c ≤ b) : c ≤ rmin a b := by
  unfold rmin; split <;> assumption

/-- `maxLeftFixed` accumulated in `buildLPModel1`/`buildLPModel2`:
maximum of `left + width` over the fixed `cleftN` neighbors, from 0. -/
def maxLeftFixed (st : RState) (i : ℕ) : ℚ :=
  (st.blk i).cleftN.foldl
    (fun acc v => if (st.blk v).isFixed then rmax acc ((st.blk v).left + (st.blk v).width)
                  else acc) 0

/-- `minRightFixed`: minimum of `left` over the fixed `crightN` neighbors,
from 1. -/
def minRightFixed (st : RState) (i : ℕ) : ℚ :=
  (st.blk i).crightN.foldl
    (fun acc v => if (st.blk v).isFixed then rmin acc (st.blk v).left else acc) 1

/-- The constraint system built by `buildLPModel1` for one component (the
rows and column bounds of the first solve; the second, deviation-minimizing
solve keeps all of these rows and bounds, so its solution satisfies them as
well): for each block `i` of the component, `l i ≥ l v + w v` for every
non-fixed `v ∈ cleftN i`, `l i + w i ≤ minRightFixed i`,
`l i ≥ maxLeftFixed i`, and `w i ≥` the current width of `i`. -/
def Feasible1 (st : RState) (comp : List ℕ) (l w : ℕ → ℚ) : Prop :=
  ∀ i ∈ comp,
    (∀ v ∈ (st.blk i).cleftN, (st.blk v).isFixed = false → l v + w v ≤ l i) ∧
    l i + w i ≤ minRightFixed st i ∧
    maxLeftFixed st i ≤ l i ∧
    (st.blk i).width ≤ w i

/-- The constraint system built by `buildLPModel2`: a single shared width
`W` with `0 ≤ W ≤ 1`, and per block `l i ≥ l v + W` for non-fixed
`v ∈ cleftN i`, `l i + W ≤ minRightFixed i`, `l i ≥ maxLeftFixed i`. -/
def Feasible2 (st : RState) (comp : List ℕ) (l : ℕ → ℚ) (W : ℚ) : Prop :=
  (∀ i ∈ comp,
    (∀ v ∈ (st.blk i).cleftN, (st.blk v).isFixed = false → l v + W ≤ l i) ∧
    l i + W ≤ minRightFixed st i ∧
    maxLeftFixed st i ≤ l i) ∧
  0 ≤ W ∧ W ≤ 1

/-- Primal write-back of `buildLPModel1`. -/
def writeback1 (st : RState) (comp : List ℕ) (l w : ℕ → ℚ) : RState :=
  comp.foldl (fun s i => modB s i (fun b => { b with left := l i, width := w i })) st

/-- Primal write-back of `buildLPModel2` (every component block gets `W`). -/
def writeback2 (st : RState) (comp : List ℕ) (l : ℕ → ℚ) (W : ℚ) : RState :=
  comp.foldl (fun s i => modB s i (fun b => { b with left := l i, width := W })) st

/-- One `buildLPModel` call, with the GLPK simplex modelled by its contract
(spec §6.2, §7): `LPModel == 2` selects model 2, anything else model 1 (the
source's `LPModel == 2 ? buildLPModel2 : buildLPModel1`). On a feasible
system the write-back values satisfy the constraints (for model 2 the
shared width is the optimum, which a simplex solve of `max W` returns); an
infeasible system leaves the component untouched (solver failure treated as
no-op for that component). -/
inductive SolveLP (lpm : ℤ) (st : RState) (comp : List ℕ) : RState → Prop
  | one (h2 : lpm ≠ 2) (l w : ℕ → ℚ) (hf : Feasible1 st comp l w) :
      SolveLP lpm st comp (writeback1 st comp l w)
  | two (h2 : lpm = 2) (l : ℕ → ℚ) (W : ℚ) (hf : Feasible2 st comp l W)
      (hopt : ∀ l' W', Feasible2 st comp l' W' → W' ≤ W) :
      SolveLP lpm st comp (writeback2 st comp l W)
  | oneFail (h2 : lpm ≠ 2) (hinf : ¬ ∃ l w, Feasible1 st comp l w) :
      SolveLP lpm st comp st
  | twoFail (h2 : lpm = 2) (hinf : ¬ ∃ l W, Feasible2 st comp l W) :
      SolveLP lpm st comp st

/-- The per-iteration component scan (step 1 of an S6 iteration): for each
block index `i` in array order, if unvisited, `buildLPModel(BFS(block))`. -/
inductive Pass (o : Opts) : ℕ → RState → RState → Prop
  | done (i : ℕ) (st : RState) (h : st.n ≤ i) : Pass o i st st
  | skip (i : ℕ) (st st' : RState) (h : i < st.n) (hv : (st.blk i).visited = true)
      (hrest : Pass o (i+1) st st') : Pass o i st st'
  | solve (i : ℕ) (st st1 st' : RState) (h : i < st.n)
      (hv : (st.blk i).visited = false)
      (hs : SolveLP o.LPModel (BFS st i).2 (BFS st i).1 st1)
      (hrest : Pass o (i+1) st1 st') : Pass o i st st'

/-- Steps 2–4 of an S6 iteration after the component scan: reset
`visited = isFixed`, rerun fixed detection, and recount. -/
def iterTail (st : RState) : ℕ × RState :=
  getFixedCount (detectIterAll (setVisitedFixed st))

/-- The S6 refinement loop: up to `LPIters` iterations, stopping when the
fixed count did not increase. `pfc` is `prevFixedCount`. -/
inductive LPLoop (o : Opts) : ℕ → ℕ → RState → RState → Prop
  | fuelout (pfc : ℕ) (st : RState) : LPLoop o 0 pfc st st
  | conv (k pfc : ℕ) (st stA : RState) (hp : Pass o 0 st stA)
      (hfc : (iterTail stA).1 = pfc) :
      LPLoop o (k+1) pfc st (iterTail stA).2
  | cont (k pfc : ℕ) (st stA stF : RState) (hp : Pass o 0 st stA)
      (hfc : (iterTail stA).1 ≠ pfc)
      (hrest : LPLoop o k (iterTail stA).1 (iterTail stA).2 stF) :
      LPLoop o (k+1) pfc st stF

/-! ## Stage S7 — the MILP formulation (`buildMILPModel`) -/

/-- Inner pair scan of `buildMILPModel` (same break as stage S2). -/
def milpPairsInner (tol : ℤ) (st : RState) (bi : ℕ) : List ℕ → List (ℕ × ℕ)
  | [] => []
  | bj :: rest =>
      if (st.blk bi).endMin ≤ (st.blk bj).startMin + tol then []
      else (bi, bj) :: milpPairsInner tol st bi rest

/-- All pairs receiving big-M disjunctive rows in `buildMILPModel`. -/
def milpPairs (tol : ℤ) (st : RState) : List ℕ → List (ℕ × ℕ)
  | [] => []
  | bi :: rest => milpPairsInner tol st bi rest ++ milpPairs tol st rest

/-- The MILP constraint system: per scanned pair `(i, j)` a binary `y` with
`l i + w i − l j − 10·y ≤ 0` and `l j + w j − l i + 10·y ≤ 10`
(big-M = 10); per block `l i + w i ≤ 1`, `l i ≥ 0` and `w i ≥ 1/total`
(`GLP_LO` bounds: no upper bound is active). -/
def FeasibleM (st : RState) (prs : List (ℕ × ℕ)) (total : ℕ)
    (l w : ℕ → ℚ) (y : ℕ × ℕ → ℚ) : Prop :=
  (∀ p ∈ prs, (y p = 0 ∨ y p = 1) ∧
      l p.1 + w p.1 - l p.2 - 10 * y p ≤ 0 ∧
      l p.2 + w p.2 - l p.1 + 10 * y p ≤ 10) ∧
  (∀ i < st.n, l i + w i ≤ 1 ∧ 0 ≤ l i ∧ 1 / (total : ℚ) ≤ w i)

/-- MIP write-back of `buildMILPModel` (over `blocks` in index order). -/
def writebackM (st : RState) (l w : ℕ → ℚ) : RState :=
  { st with blk := fun i =>
      if i < st.n then { st.blk i with left := l i, width := w i }
      else st.blk i }

/-- One `buildMILPModel` call, with `glp_intopt` modelled by its contract:
an integer-feasible point is written back (the branch-and-bound incumbent;
under the 10 s time budget it need not be optimal); with no feasible point
the layout is unchanged. -/
inductive SolveMILP (st : RState) (prs : List (ℕ × ℕ)) (total : ℕ) :
    RState → Prop
  | success (l w : ℕ → ℚ) (y : ℕ × ℕ → ℚ) (hf : FeasibleM st prs total l w y) :
      SolveMILP st prs total (writebackM st l w)
  | failure (hinf : ¬ ∃ l w y, FeasibleM st prs total l w y) :
      SolveMILP st prs total st

/-! ## `compute` -/

/-- State and room total after stage S1 (the sort of `ord` included). -/
def afterS1 (o : Opts) (inp : Input) (ord : List ℕ) : RState × ℕ :=
  stageS1 o (initState inp) ord

/-- State after stages S2 and S3. -/
def preSeed (o : Opts) (inp : Input) (ord : List ℕ) : RState :=
  condenseAdjList (constructAdjList o.dfsTolerance (afterS1 o inp ord).1 ord)

/-- State after stage S4 with `applyDFS` on (visited flags then cleared). -/
def seedDfs (o : Opts) (inp : Input) (ord ordD : List ℕ) : RState :=
  clearVisited (dfsWidthExpansion (preSeed o inp ord) ordD)

/-- State after the `applyDFS`-off seeding. -/
def seedPlain (o : Opts) (inp : Input) (ord : List ℕ) : RState :=
  computeInitialWidth (preSeed o inp ord) (afterS1 o inp ord).2

/-- Stage S5 plus the initial `getFixedCount`: `(prevFixedCount, state)`. -/
def preLoopOf (st : RState) : ℕ × RState :=
  getFixedCount (detectInitialAll st)

/-- The whole `compute` call as a relation between the input and the final
state (nondeterminism: the `std::sort` tie order and the LP/MILP solver).
The branches mirror the source: the MILP path (bypassing S2–S6), the
`total ≤ 1` short-circuit, and the LP path with or without `applyDFS`.
`computeResult` only accumulates the sums `r_sum`/`r_sumSq` and does not
touch any block, so it is omitted from the final state. -/
inductive ComputeRel (o : Opts) (inp : Input) : RState → Prop
  | milp (ord : List ℕ) (st' : RState)
      (hord : IsStartOrder (initState inp) ord) (hm : o.MILP = true)
      (hs : SolveMILP (afterS1 o inp ord).1
        (milpPairs o.dfsTolerance (afterS1 o inp ord).1 ord)
        (afterS1 o inp ord).2 st') :
      ComputeRel o inp st'
  | short (ord : List ℕ)
      (hord : IsStartOrder (initState inp) ord) (hm : o.MILP = false)
      (ht : (afterS1 o inp ord).2 ≤ 1) :
      ComputeRel o inp
        (computeInitialWidth (afterS1 o inp ord).1 (afterS1 o inp ord).2)
  | lpDfs (ord ordD : List ℕ) (st' : RState)
      (hord : IsStartOrder (initState inp) ord) (hm : o.MILP = false)
      (ht : 2 ≤ (afterS1 o inp ord).2) (ha : o.applyDFS = true)
      (hordD : IsDepthOrder (preSeed o inp ord) ordD)
      (hl : LPLoop o o.LPIters (preLoopOf (seedDfs o inp ord ordD)).1
        (preLoopOf (seedDfs o inp ord ordD)).2 st') :
      ComputeRel o inp st'
  | lpPlain (ord : List ℕ) (st' : RState)
      (hord : IsStartOrder (initState inp) ord) (hm : o.MILP = false)
      (ht : 2 ≤ (afterS1 o inp ord).2) (ha : o.applyDFS = false)
      (hl : LPLoop o o.LPIters (preLoopOf (seedPlain o inp ord)).1
        (preLoopOf (seedPlain o inp ord)).2 st') :
      ComputeRel o inp st'


/-! ## Stage S1 depth bounds -/

/-- Invariant of the method-1 loop: if every block's depth is at most
`numRooms`, then after the loop every block's depth is at most the returned
room count, which is at least `numRooms`. -/
theorem is1Loop_depth (tol : ℤ) :
    ∀ (rest : List ℕ) (st : RState) (buf : List ℕ) (numRooms : ℕ),
      (∀ i, (st.blk i).depth ≤ numRooms) →
      numRooms ≤ (is1Loop tol st rest buf numRooms).2 ∧
      ∀ i, ((is1Loop tol st rest buf numRooms).1.blk i).depth
        ≤ (is1Loop tol st rest buf numRooms).2 := by
  intro rest
  induction rest with
  | nil => intro st buf numRooms h; exact ⟨le_refl _, h⟩
  | cons b t ih =>
      intro st buf numRooms h
      rcases hp : pickRoom st tol (st.blk b).startMin buf 0 with _ | ⟨k, d⟩
      · have h' : ∀ i,
            ((modB st b (fun blk => { blk with depth := numRooms + 1 })).blk i).depth
              ≤ numRooms + 1 := by
          intro i
          by_cases hib : i = b
          · subst hib; simp
          · rw [modB_blk_other _ _ _ hib]; exact le_trans (h i) (Nat.le_succ _)
        have hrec := ih (modB st b (fun blk => { blk with depth := numRooms + 1 }))
          (buf ++ [b]) (numRooms + 1) h'
        simp only [is1Loop, hp]
        exact ⟨le_trans (Nat.le_succ _) hrec.1, hrec.2⟩
      · have h' : ∀ i,
            ((modB st b (fun blk =>
              { blk with depth := (st.blk (buf.getD k 0)).depth })).blk i).depth
              ≤ numRooms := by
          intro i
          by_cases hib : i = b
          · subst hib; simp; exact h _
          · rw [modB_blk_other _ _ _ hib]; exact h i
        have hrec := ih (modB st b (fun blk =>
          { blk with depth := (st.blk (buf.getD k 0)).depth })) (buf.set k b) numRooms h'
        simp only [is1Loop, hp]
        exact hrec

/-- Invariant of the method-2 loop, as for method 1. -/
theorem is2Loop_depth (tol : ℤ) :
    ∀ (rest : List ℕ) (st : RState) (queue : List ℕ) (numRooms : ℕ),
      (∀ i, (st.blk i).depth ≤ numRooms) →
      numRooms ≤ (is2Loop tol st rest queue numRooms).2 ∧
      ∀ i, ((is2Loop tol st rest queue numRooms).1.blk i).depth
        ≤ (is2Loop tol st rest queue numRooms).2 := by
  intro rest
  induction rest with
  | nil => intro st queue numRooms h; exact ⟨le_refl _, h⟩
  | cons b t ih =>
      intro st queue numRooms h
      match queue with
      | [] => exact ⟨le_refl _, h⟩
      | q :: qrest =>
          by_cases hc :
            (st.blk b).startMin < (st.blk (qtop st qrest q)).endMin + tol
          · have h' : ∀ i,
                ((modB st b (fun blk => { blk with depth := numRooms + 1 })).blk i).depth
                  ≤ numRooms + 1 := by
              intro i
              by_cases hib : i = b
              · subst hib; simp
              · rw [modB_blk_other _ _ _ hib]; exact le_trans (h i) (Nat.le_succ _)
            have hrec := ih (modB st b (fun blk => { blk with depth := numRooms + 1 }))
              (b :: q :: qrest) (numRooms + 1) h'
            simp only [is2Loop, if_pos hc]
            exact ⟨le_trans (Nat.le_succ _) hrec.1, hrec.2⟩
          · have h' : ∀ i,
                ((modB st b (fun blk =>
                  { blk with depth := (st.blk (qtop st qrest q)).depth })).blk i).depth
                  ≤ numRooms := by
              intro i
              by_cases hib : i = b
              · subst hib; simp; exact h _
              · rw [modB_blk_other _ _ _ hib]; exact h i
            have hrec := ih (modB st b (fun blk =>
              { blk with depth := (st.blk (qtop st qrest q)).depth }))
              (b :: (q :: qrest).erase (qtop st qrest q)) numRooms h'
            simp only [is2Loop, if_neg hc]
            exact hrec

/-- On a non-empty order, stage S1 (either method) returns `total ≥ 1` and
every block's depth is strictly below `total`. -/
theorem stageS1_depth_lt (o : Opts) (st : RState) (ord : List ℕ)
    (h0 : ∀ i, (st.blk i).depth = 0) (hne : ord ≠ []) :
    1 ≤ (stageS1 o st ord).2 ∧
    ∀ i, ((stageS1 o st ord).1.blk i).depth < (stageS1 o st ord).2 := by
  match ord with
  | [] => exact absurd rfl hne
  | b0 :: rest =>
      have hz : ∀ i, (st.blk i).depth ≤ 0 := fun i => le_of_eq (h0 i)
      unfold stageS1
      by_cases hm : o.ISMethod = 1
      · simp only [hm, if_pos]
        have := is1Loop_depth o.isTolerance rest st [b0] 0 hz
        simp only [intervalScheduling]
        exact ⟨Nat.succ_le_succ (Nat.zero_le _),
          fun i => Nat.lt_succ_of_le (this.2 i)⟩
      · simp only [hm, if_neg, if_false]
        have := is2Loop_depth o.isTolerance rest st [b0] 0 hz
        simp only [intervalScheduling2]
        exact ⟨Nat.succ_le_succ (Nat.zero_le _),
          fun i => Nat.lt_succ_of_le (this.2 i)⟩

/-- All blocks of `initState` have depth 0. -/
theorem initState_depth (inp : Input) : ∀ i, ((initState inp).blk i).depth = 0 :=
  fun _ => rfl

/-- A start order of a non-empty input is non-empty. -/
theorem ord_ne_nil {st : RState} {ord : List ℕ} (h : IsStartOrder st ord)
    (hn : st.n ≠ 0) : ord ≠ [] := by
  intro hnil
  subst hnil
  have := h.1.length_eq
  simp only [List.length_nil, List.length_range] at this
  exact hn this.symm

/-! ## Claim C4 -/

/-- C4, counterexample: on the single-block input `[(0,60)]` both methods
return `total = 1` while the block's depth is 0, not in the claimed range
`[1, total]`. -/
theorem C4_counterexample :
    IsStartOrder (initState [((0:ℤ),(60:ℤ))]) [0] ∧
    (intervalScheduling 0 (initState [((0:ℤ),(60:ℤ))]) [0]).2 = 1 ∧
    ¬ (1 ≤ ((intervalScheduling 0 (initState [((0:ℤ),(60:ℤ))]) [0]).1.blk 0).depth) ∧
    (intervalScheduling2 0 (initState [((0:ℤ),(60:ℤ))]) [0]).2 = 1 ∧
    ¬ (1 ≤ ((intervalScheduling2 0 (initState [((0:ℤ),(60:ℤ))]) [0]).1.blk 0).depth) := by
  decide

/-- C4 (amended): after stage S1 (either method, selected by `ISMethod`) on
a non-empty input, `total ≥ 1` and every block's depth lies in
`[0, total − 1]`; in particular the first block in sort order keeps
depth 0. -/
theorem C4_amended (o : Opts) (inp : Input) (ord : List ℕ)
    (hord : IsStartOrder (initState inp) ord) (hne : inp ≠ []) :
    1 ≤ (stageS1 o (initState inp) ord).2 ∧
    ∀ i, ((stageS1 o (initState inp) ord).1.blk i).depth
      ≤ (stageS1 o (initState inp) ord).2 - 1 := by
  have hn : (initState inp).n ≠ 0 := by
    simp only [initState]
    exact fun h => hne (List.length_eq_zero.1 h)
  have h := stageS1_depth_lt o (initState inp) ord (initState_depth inp)
    (ord_ne_nil hord hn)
  exact ⟨h.1, fun i => Nat.le_sub_one_of_lt (h.2 i)⟩

/-- Witness for `C4_amended` at the two-block input `[(0,60),(30,90)]`. -/
theorem C4_witness :
    (IsStartOrder (initState [((0:ℤ),(60:ℤ)), ((30:ℤ),(90:ℤ))]) [0, 1] ∧
      [((0:ℤ),(60:ℤ)), ((30:ℤ),(90:ℤ))] ≠ []) ∧
    (1 ≤ (stageS1 ⟨0, 1, true, 0, 100, 1, false⟩
        (initState [((0:ℤ),(60:ℤ)), ((30:ℤ),(90:ℤ))]) [0, 1]).2 ∧
      ∀ i, ((stageS1 ⟨0, 1, true, 0, 100, 1, false⟩
        (initState [((0:ℤ),(60:ℤ)), ((30:ℤ),(90:ℤ))]) [0, 1]).1.blk i).depth
        ≤ (stageS1 ⟨0, 1, true, 0, 100, 1, false⟩
          (initState [((0:ℤ),(60:ℤ)), ((30:ℤ),(90:ℤ))]) [0, 1]).2 - 1) :=
  ⟨⟨by decide, by decide⟩,
    C4_amended ⟨0, 1, true, 0, 100, 1, false⟩ _ [0, 1] (by decide) (by decide)⟩

/-! ## Claim C3, counterexample -/

/-- C3, counterexample: with `isTolerance = dfsTolerance = 30` on the input
`[(0,60),(60,120)]`, method 2 opens 2 rooms while the conflict graph has
maximum clique size 1 (and method 1 returns 1): the claimed equality of the
S1 room count with the clique number, and the claimed agreement of the two
methods, both fail. -/
theorem C3_counterexample :
    IsStartOrder (initState [((0:ℤ),(60:ℤ)), ((60:ℤ),(120:ℤ))]) [0, 1] ∧
    (intervalScheduling2 30 (initState [((0:ℤ),(60:ℤ)), ((60:ℤ),(120:ℤ))]) [0, 1]).2 = 2 ∧
    cliqueNum (initState [((0:ℤ),(60:ℤ)), ((60:ℤ),(120:ℤ))]) 30 = 1 ∧
    (intervalScheduling 30 (initState [((0:ℤ),(60:ℤ)), ((60:ℤ),(120:ℤ))]) [0, 1]).2 = 1 := by
  decide


/-! ## Enumerating permutations

`std::sort` leaves the order of tied elements unspecified, so counterexample
proofs must cover every traversal order the sort predicates admit. The
enumeration below is structurally recursive (so closed instances evaluate
inside `decide`), with a completeness lemma. -/

/-- All ways of inserting `x` into a list. -/
def insertAll (x : ℕ) : List ℕ → List (List ℕ)
  | [] => [[x]]
  | y :: t => (x :: y :: t) :: (insertAll x t).map (fun l => y :: l)

/-- All permutations of a list. -/
def permsOf : List ℕ → List (List ℕ)
  | [] => [[]]
  | x :: t => (permsOf t).flatMap (insertAll x)

theorem insertAll_mem (x : ℕ) : ∀ (l₁ l₂ : List ℕ),
    (l₁ ++ x :: l₂) ∈ insertAll x (l₁ ++ l₂)
  | [], [] => by simp [insertAll]
  | [], y :: t => by simp [insertAll]
  | y :: l₁, l₂ => by
      simp only [List.cons_append, insertAll, List.mem_cons]
      exact Or.inr (List.mem_map_of_mem _ (insertAll_mem x l₁ l₂))

/-- Completeness: every permutation of `m` occurs in `permsOf m`. -/
theorem mem_permsOf : ∀ {m l : List ℕ}, l.Perm m → l ∈ permsOf m := by
  intro m
  induction m with
  | nil =>
      intro l h
      rw [List.perm_nil.1 h]
      simp [permsOf]
  | cons x t ih =>
      intro l h
      have hx : x ∈ l := h.mem_iff.2 (List.mem_cons_self x t)
      obtain ⟨l₁, l₂, rfl⟩ := List.append_of_mem hx
      have hperm : (l₁ ++ l₂).Perm t := (List.perm_middle.symm.trans h).cons_inv
      simp only [permsOf, List.mem_flatMap]
      exact ⟨l₁ ++ l₂, ih hperm, insertAll_mem x l₁ l₂⟩

/-! ## Claim C1, counterexample -/

/-- Options of the C1 counterexample: `isTolerance = 100` exceeds
`dfsTolerance = 0`. -/
def oC1 : Opts := ⟨100, 1, true, 0, 100, 1, false⟩

/-- Input of the C1 counterexample. -/
def inpC1 : Input := [((0:ℤ),(60:ℤ)), ((30:ℤ),(90:ℤ))]

unseal Rat.mul Rat.add Rat.inv Rat.sub in
/-- C1, counterexample: on the valid input `[(0,60),(30,90)]` with
`isTolerance = 100 > dfsTolerance = 0`, stage S1 packs both blocks into one
room, the `total ≤ 1` short-circuit assigns both the layout
`left = 0, width = 1`, and the two blocks conflict — their horizontal
intervals coincide, overlapping by far more than `DOUBLE_EPS`. -/
theorem C1_counterexample :
    ValidInput inpC1 ∧
    (∃ st, ComputeRel oC1 inpC1 st) ∧
    (∀ st, ComputeRel oC1 inpC1 st →
      Conflict oC1.dfsTolerance (st.blk 0) (st.blk 1) ∧
      rmax (st.blk 0).left (st.blk 1).left + DOUBLE_EPS
        < rmin ((st.blk 0).left + (st.blk 0).width)
            ((st.blk 1).left + (st.blk 1).width)) := by
  refine ⟨by decide, ⟨_, ComputeRel.short [0, 1] (by decide) (by decide) (by decide)⟩, ?_⟩
  intro st h
  have hpin : ∀ l ∈ permsOf (List.range (initState inpC1).n),
      IsStartOrder (initState inpC1) l → l = [0, 1] := by decide
  cases h with
  | milp ord st' hord hm hs => exact absurd hm (by decide)
  | short ord hord hm ht =>
      have hord' := hpin ord (mem_permsOf hord.1) hord
      subst hord'
      exact ⟨by decide, by decide⟩
  | lpDfs ord ordD st' hord hm ht ha hordD hl =>
      have hord' := hpin ord (mem_permsOf hord.1) hord
      subst hord'
      exact absurd ht (by decide)
  | lpPlain ord st' hord hm ht ha hl => exact absurd ha (by decide)


/-! ## Field preservation through the pipeline stages

Generic lemmas: a block projection `P` that ignores the fields a stage
writes is unchanged by that stage. -/

theorem pairAdd_blk_cases (st : RState) (bi bj i : ℕ) :
    (pairAdd st bi bj).blk i = st.blk i ∨
    ∃ x y, (pairAdd st bi bj).blk i = { st.blk i with leftN := x, rightN := y } := by
  by_cases hd : (st.blk bi).depth < (st.blk bj).depth <;>
    simp only [pairAdd, hd, if_pos, if_neg, not_false_iff, if_true, if_false]
  · by_cases hib : i = bi
    · subst hib
      simp only [modB_blk_same]
      by_cases hjb : i = bj
      · subst hjb; simp only [modB_blk_same]; exact Or.inr ⟨_, _, rfl⟩
      · simp only [modB_blk_other _ _ _ hjb]; exact Or.inr ⟨_, _, rfl⟩
    · simp only [modB_blk_other _ _ _ hib]
      by_cases hjb : i = bj
      · subst hjb; simp only [modB_blk_same]; exact Or.inr ⟨_, _, rfl⟩
      · simp only [modB_blk_other _ _ _ hjb]; exact Or.inl trivial
  · by_cases hib : i = bi
    · subst hib
      simp only [modB_blk_same]
      by_cases hjb : i = bj
      · subst hjb; simp only [modB_blk_same]; exact Or.inr ⟨_, _, rfl⟩
      · simp only [modB_blk_other _ _ _ hjb]; exact Or.inr ⟨_, _, rfl⟩
    · simp only [modB_blk_other _ _ _ hib]
      by_cases hjb : i = bj
      · subst hjb; simp only [modB_blk_same]; exact Or.inr ⟨_, _, rfl⟩
      · simp only [modB_blk_other _ _ _ hjb]; exact Or.inl trivial

theorem pairAdd_blkP {α} (P : Blk → α)
    (hLR : ∀ b x y, P { b with leftN := x, rightN := y } = P b)
    (st : RState) (bi bj i : ℕ) :
    P ((pairAdd st bi bj).blk i) = P (st.blk i) := by
  rcases pairAdd_blk_cases st bi bj i with h | ⟨x, y, h⟩
  · rw [h]
  · rw [h]; exact hLR _ _ _

theorem adjInner_blkP {α} (P : Blk → α)
    (hLR : ∀ b x y, P { b with leftN := x, rightN := y } = P b)
    (tol : ℤ) :
    ∀ (js : List ℕ) (st : RState) (bi i : ℕ),
      P ((adjInner tol st bi js).blk i) = P (st.blk i) := by
  intro js
  induction js with
  | nil => intro st bi i; rfl
  | cons bj rest ih =>
      intro st bi i
      unfold adjInner
      split
      · rfl
      · rw [ih, pairAdd_blkP P hLR]

theorem adjOuter_blkP {α} (P : Blk → α)
    (hLR : ∀ b x y, P { b with leftN := x, rightN := y } = P b)
    (tol : ℤ) :
    ∀ (ord : List ℕ) (st : RState) (i : ℕ),
      P ((adjOuter tol st ord).blk i) = P (st.blk i) := by
  intro ord
  induction ord with
  | nil => intro st i; rfl
  | cons bi rest ih =>
      intro st i
      unfold adjOuter
      rw [ih, adjInner_blkP P hLR]

theorem is1Loop_blkP {α} (P : Blk → α)
    (hD : ∀ b d, P { b with depth := d } = P b)
    (tol : ℤ) :
    ∀ (rest : List ℕ) (st : RState) (buf : List ℕ) (numRooms i : ℕ),
      P (((is1Loop tol st rest buf numRooms).1).blk i) = P (st.blk i) := by
  intro rest
  induction rest with
  | nil => intro st buf numRooms i; rfl
  | cons b t ih =>
      intro st buf numRooms i
      rcases hp : pickRoom st tol (st.blk b).startMin buf 0 with _ | ⟨k, d⟩ <;>
        simp only [is1Loop, hp] <;> rw [ih] <;>
        · by_cases hib : i = b
          · subst hib; rw [modB_blk_same, hD]
          · rw [modB_blk_other _ _ _ hib]

theorem is2Loop_blkP {α} (P : Blk → α)
    (hD : ∀ b d, P { b with depth := d } = P b)
    (tol : ℤ) :
    ∀ (rest : List ℕ) (st : RState) (queue : List ℕ) (numRooms i : ℕ),
      P (((is2Loop tol st rest queue numRooms).1).blk i) = P (st.blk i) := by
  intro rest
  induction rest with
  | nil => intro st queue numRooms i; rfl
  | cons b t ih =>
      intro st queue numRooms i
      match queue with
      | [] => rfl
      | q :: qrest =>
          by_cases hc : (st.blk b).startMin < (st.blk (qtop st qrest q)).endMin + tol <;>
            simp only [is2Loop, hc, if_pos, if_neg, not_false_iff, if_false] <;> rw [ih] <;>
            · by_cases hib : i = b
              · subst hib; rw [modB_blk_same, hD]
              · rw [modB_blk_other _ _ _ hib]

theorem stageS1_blkP {α} (P : Blk → α)
    (hD : ∀ b d, P { b with depth := d } = P b)
    (o : Opts) (st : RState) (ord : List ℕ) (i : ℕ) :
    P (((stageS1 o st ord).1).blk i) = P (st.blk i) := by
  unfold stageS1
  split <;>
  · match ord with
    | [] => rfl
    | b0 :: rest =>
        first
        | exact is1Loop_blkP P hD o.isTolerance rest st [b0] 0 i
        | exact is2Loop_blkP P hD o.isTolerance rest st [b0] 0 i

theorem condense_blkP {α} (P : Blk → α)
    (hC : ∀ b x y, P { b with cleftN := x, crightN := y } = P b)
    (st : RState) (i : ℕ) :
    P ((condenseAdjList st).blk i) = P (st.blk i) := by
  unfold condenseAdjList
  by_cases h : i < st.n
  · dsimp only
    rw [if_pos h]
    exact hC _ _ _
  · dsimp only
    rw [if_neg h]

@[simp] theorem pairAdd_n (st : RState) (bi bj : ℕ) : (pairAdd st bi bj).n = st.n := by
  unfold pairAdd; split <;> rfl

theorem adjInner_n (tol : ℤ) :
    ∀ (js : List ℕ) (st : RState) (bi : ℕ), (adjInner tol st bi js).n = st.n := by
  intro js
  induction js with
  | nil => intro st bi; rfl
  | cons bj rest ih =>
      intro st bi
      unfold adjInner
      split
      · rfl
      · rw [ih]; simp

theorem adjOuter_n (tol : ℤ) :
    ∀ (ord : List ℕ) (st : RState), (adjOuter tol st ord).n = st.n := by
  intro ord
  induction ord with
  | nil => intro st; rfl
  | cons bi rest ih => intro st; unfold adjOuter; rw [ih, adjInner_n]

theorem is1Loop_n (tol : ℤ) :
    ∀ (rest : List ℕ) (st : RState) (buf : List ℕ) (numRooms : ℕ),
      ((is1Loop tol st rest buf numRooms).1).n = st.n := by
  intro rest
  induction rest with
  | nil => intro st buf numRooms; rfl
  | cons b t ih =>
      intro st buf numRooms
      rcases hp : pickRoom st tol (st.blk b).startMin buf 0 with _ | ⟨k, d⟩ <;>
        simp only [is1Loop, hp] <;> rw [ih] <;> rfl

theorem is2Loop_n (tol : ℤ) :
    ∀ (rest : List ℕ) (st : RState) (queue : List ℕ) (numRooms : ℕ),
      ((is2Loop tol st rest queue numRooms).1).n = st.n := by
  intro rest
  induction rest with
  | nil => intro st queue numRooms; rfl
  | cons b t ih =>
      intro st queue numRooms
      match queue with
      | [] => rfl
      | q :: qrest =>
          by_cases hc : (st.blk b).startMin < (st.blk (qtop st qrest q)).endMin + tol <;>
            simp only [is2Loop, hc, if_pos, if_neg, not_false_iff, if_false] <;> rw [ih] <;> rfl

theorem stageS1_n (o : Opts) (st : RState) (ord : List ℕ) :
    ((stageS1 o st ord).1).n = st.n := by
  unfold stageS1
  split <;>
  · match ord with
    | [] => rfl
    | b0 :: rest =>
        first
        | exact is1Loop_n o.isTolerance rest st [b0] 0
        | exact is2Loop_n o.isTolerance rest st [b0] 0

@[simp] theorem condense_n (st : RState) : (condenseAdjList st).n = st.n := rfl


/-! ## Stage S2 characterization -/

/-- Effect of one scanned pair `(e, l)` (`e` earlier in sort order): `b` is
appended to `leftN a` iff `e.depth < l.depth` puts `e` under `l`, or
otherwise `l` under `e`. The matrix entry `(a, b)` is set for the same
pairs. -/
def PairPut (st : RState) (e l a b : ℕ) : Prop :=
  ((st.blk e).depth < (st.blk l).depth ∧ a = l ∧ b = e) ∨
  (¬ (st.blk e).depth < (st.blk l).depth ∧ a = e ∧ b = l)

theorem pairAdd_mem_leftN (st : RState) (bi bj a b : ℕ) :
    b ∈ ((pairAdd st bi bj).blk a).leftN ↔
      b ∈ (st.blk a).leftN ∨ PairPut st bi bj a b := by
  by_cases hd : (st.blk bi).depth < (st.blk bj).depth <;>
    simp only [pairAdd, hd, if_pos, if_neg, not_false_iff, if_true, if_false]
  · have hne : bi ≠ bj := by
      intro he; rw [he] at hd; exact lt_irrefl _ hd
    by_cases hab : a = bi
    · subst hab
      simp only [modB_blk_same, modB_blk_other _ _ _ hne]
      simp [PairPut, hd, hne]
    · by_cases hajb : a = bj
      · subst hajb
        simp only [modB_blk_other _ _ _ hab, modB_blk_same]
        simp [PairPut, hd, (Ne.symm hne)] <;> tauto
      · simp only [modB_blk_other _ _ _ hab, modB_blk_other _ _ _ hajb]
        simp [PairPut, hd, hab, hajb]
  · by_cases hab : a = bi
    · subst hab
      by_cases hajb : a = bj
      · subst hajb
        simp only [modB_blk_same]
        simp [PairPut, hd] <;> tauto
      · simp only [modB_blk_same, modB_blk_other _ _ _ hajb]
        simp [PairPut, hd, hajb] <;> tauto
    · by_cases hajb : a = bj
      · subst hajb
        simp only [modB_blk_other _ _ _ hab, modB_blk_same]
        simp [PairPut, hd, hab] <;> tauto
      · simp only [modB_blk_other _ _ _ hab, modB_blk_other _ _ _ hajb]
        simp [PairPut, hd, hab, hajb]

theorem pairAdd_mem_rightN (st : RState) (bi bj a b : ℕ) :
    b ∈ ((pairAdd st bi bj).blk a).rightN ↔
      b ∈ (st.blk a).rightN ∨ PairPut st bi bj b a := by
  by_cases hd : (st.blk bi).depth < (st.blk bj).depth <;>
    simp only [pairAdd, hd, if_pos, if_neg, not_false_iff, if_true, if_false]
  · have hne : bi ≠ bj := by
      intro he; rw [he] at hd; exact lt_irrefl _ hd
    by_cases hab : a = bi
    · subst hab
      simp only [modB_blk_same, modB_blk_other _ _ _ hne]
      simp [PairPut, hd, hne] <;> tauto
    · by_cases hajb : a = bj
      · subst hajb
        simp only [modB_blk_other _ _ _ hab, modB_blk_same]
        simp [PairPut, hd, Ne.symm hne]
      · simp only [modB_blk_other _ _ _ hab, modB_blk_other _ _ _ hajb]
        simp [PairPut, hd, hab, hajb]
  · by_cases hab : a = bi
    · subst hab
      by_cases hajb : a = bj
      · subst hajb
        simp only [modB_blk_same]
        simp [PairPut, hd] <;> tauto
      · simp only [modB_blk_same, modB_blk_other _ _ _ hajb]
        simp [PairPut, hd, hajb] <;> tauto
    · by_cases hajb : a = bj
      · subst hajb
        simp only [modB_blk_other _ _ _ hab, modB_blk_same]
        simp [PairPut, hd, hab] <;> tauto
      · simp only [modB_blk_other _ _ _ hab, modB_blk_other _ _ _ hajb]
        simp [PairPut, hd, hab, hajb]

theorem pairAdd_matrix (st : RState) (bi bj p q : ℕ) :
    (pairAdd st bi bj).matrix p q = true ↔
      st.matrix p q = true ∨ PairPut st bi bj p q := by
  by_cases hd : (st.blk bi).depth < (st.blk bj).depth <;>
    simp only [pairAdd, hd, if_pos, if_neg, not_false_iff, if_true, if_false] <;>
    simp only [modB_matrix, setB_matrix, modB, setB] <;>
    by_cases hp : p = bj <;> by_cases hq : q = bi <;>
    by_cases hp2 : p = bi <;> by_cases hq2 : q = bj <;>
    simp [PairPut, hd, hp, hq, hp2, hq2] <;> tauto


/-- `milpPairsInner` depends only on start/end times, which `pairAdd`
preserves. -/
theorem milpPairsInner_congr (tol : ℤ) {st st' : RState}
    (h : ∀ i, (st'.blk i).startMin = (st.blk i).startMin ∧
              (st'.blk i).endMin = (st.blk i).endMin) :
    ∀ (js : List ℕ) (bi : ℕ),
      milpPairsInner tol st' bi js = milpPairsInner tol st bi js := by
  intro js
  induction js with
  | nil => intro bi; rfl
  | cons bj rest ih =>
      intro bi
      unfold milpPairsInner
      rw [(h bi).2, (h bj).1]
      split
      · rfl
      · rw [ih]

theorem milpPairs_congr (tol : ℤ) {st st' : RState}
    (h : ∀ i, (st'.blk i).startMin = (st.blk i).startMin ∧
              (st'.blk i).endMin = (st.blk i).endMin) :
    ∀ ord : List ℕ, milpPairs tol st' ord = milpPairs tol st ord := by
  intro ord
  induction ord with
  | nil => rfl
  | cons bi rest ih =>
      unfold milpPairs
      rw [ih, milpPairsInner_congr tol h]

theorem PairPut_congr {st st' : RState}
    (h : ∀ i, (st'.blk i).depth = (st.blk i).depth) (e l a b : ℕ) :
    PairPut st' e l a b ↔ PairPut st e l a b := by
  unfold PairPut
  rw [h e, h l]

/-- Start/end/depth are preserved by `pairAdd`. -/
theorem pairAdd_sed (st : RState) (bi bj i : ℕ) :
    ((pairAdd st bi bj).blk i).startMin = (st.blk i).startMin ∧
    ((pairAdd st bi bj).blk i).endMin = (st.blk i).endMin ∧
    ((pairAdd st bi bj).blk i).depth = (st.blk i).depth := by
  refine ⟨?_, ?_, ?_⟩ <;>
    first
    | exact pairAdd_blkP (fun b => b.startMin) (fun _ _ _ => rfl) st bi bj i
    | exact pairAdd_blkP (fun b => b.endMin) (fun _ _ _ => rfl) st bi bj i
    | exact pairAdd_blkP (fun b => b.depth) (fun _ _ _ => rfl) st bi bj i

/-- Membership in `leftN` after the inner S2 scan for `bi`. -/
theorem adjInner_mem_leftN (tol : ℤ) :
    ∀ (js : List ℕ) (st : RState) (bi a b : ℕ),
      (b ∈ ((adjInner tol st bi js).blk a).leftN ↔
        b ∈ (st.blk a).leftN ∨
          ∃ l, (bi, l) ∈ milpPairsInner tol st bi js ∧ PairPut st bi l a b) := by
  intro js
  induction js with
  | nil =>
      intro st bi a b
      simp [adjInner, milpPairsInner]
  | cons bj rest ih =>
      intro st bi a b
      unfold adjInner milpPairsInner
      by_cases hbrk : (st.blk bi).endMin ≤ (st.blk bj).startMin + tol
      · simp [hbrk]
      · simp only [hbrk, if_neg, not_false_iff, if_false]
        rw [ih (pairAdd st bi bj) bi a b]
        rw [milpPairsInner_congr tol (fun i => ⟨(pairAdd_sed st bi bj i).1,
          (pairAdd_sed st bi bj i).2.1⟩)]
        rw [pairAdd_mem_leftN]
        constructor
        · rintro ((hmem | hput) | ⟨l, hl, hp⟩)
          · exact Or.inl hmem
          · exact Or.inr ⟨bj, by simp, hput⟩
          · exact Or.inr ⟨l, by simp [hl], (PairPut_congr
              (fun i => (pairAdd_sed st bi bj i).2.2) bi l a b).1 hp⟩
        · rintro (hmem | ⟨l, hl, hp⟩)
          · exact Or.inl (Or.inl hmem)
          · rcases List.mem_cons.1 hl with heq | hl'
            · have : l = bj := by
                have := congrArg Prod.snd heq
                simpa using this
              subst this
              exact Or.inl (Or.inr hp)
            · exact Or.inr ⟨l, hl', (PairPut_congr
                (fun i => (pairAdd_sed st bi bj i).2.2) bi l a b).2 hp⟩

theorem milpPairsInner_fst (tol : ℤ) (st : RState) :
    ∀ (js : List ℕ) (bi p1 p2 : ℕ),
      (p1, p2) ∈ milpPairsInner tol st bi js → p1 = bi := by
  intro js
  induction js with
  | nil => intro bi p1 p2 h; cases h
  | cons x t ihx =>
      intro bi p1 p2 h
      unfold milpPairsInner at h
      split at h
      · cases h
      · rcases List.mem_cons.1 h with he | hm
        · exact congrArg Prod.fst he
        · exact ihx bi p1 p2 hm

/-- Membership in `leftN` after the full S2 scan. -/
theorem adjOuter_mem_leftN (tol : ℤ) :
    ∀ (ord : List ℕ) (st : RState) (a b : ℕ),
      (b ∈ ((adjOuter tol st ord).blk a).leftN ↔
        b ∈ (st.blk a).leftN ∨
          ∃ p ∈ milpPairs tol st ord, PairPut st p.1 p.2 a b) := by
  intro ord
  induction ord with
  | nil =>
      intro st a b
      simp [adjOuter, milpPairs]
  | cons bi rest ih =>
      intro st a b
      unfold adjOuter milpPairs
      rw [ih (adjInner tol st bi rest) a b]
      have hsed : ∀ i, ((adjInner tol st bi rest).blk i).startMin = (st.blk i).startMin ∧
          ((adjInner tol st bi rest).blk i).endMin = (st.blk i).endMin :=
        fun i => ⟨adjInner_blkP (fun b => b.startMin) (fun _ _ _ => rfl) tol rest st bi i,
          adjInner_blkP (fun b => b.endMin) (fun _ _ _ => rfl) tol rest st bi i⟩
      have hd : ∀ i, ((adjInner tol st bi rest).blk i).depth = (st.blk i).depth :=
        fun i => adjInner_blkP (fun b => b.depth) (fun _ _ _ => rfl) tol rest st bi i
      rw [milpPairs_congr tol hsed, adjInner_mem_leftN]
      constructor
      · rintro ((hmem | ⟨l, hl, hp⟩) | ⟨p, hmem2, hp⟩)
        · exact Or.inl hmem
        · exact Or.inr ⟨(bi, l), List.mem_append_left _ hl, hp⟩
        · exact Or.inr ⟨p, List.mem_append_right _ hmem2,
            (PairPut_congr hd p.1 p.2 a b).1 hp⟩
      · rintro (hmem | ⟨p, hp2, hp⟩)
        · exact Or.inl (Or.inl hmem)
        · obtain ⟨p1, p2⟩ := p
          rcases List.mem_append.1 hp2 with h1 | h2
          · have hfst : p1 = bi := milpPairsInner_fst tol st rest bi p1 p2 h1
            subst hfst
            exact Or.inl (Or.inr ⟨p2, h1, hp⟩)
          · exact Or.inr ⟨(p1, p2), h2, (PairPut_congr hd p1 p2 a b).2 hp⟩


/-- Membership in `rightN` after the inner S2 scan (mirror image). -/
theorem adjInner_mem_rightN (tol : ℤ) :
    ∀ (js : List ℕ) (st : RState) (bi a b : ℕ),
      (b ∈ ((adjInner tol st bi js).blk a).rightN ↔
        b ∈ (st.blk a).rightN ∨
          ∃ l, (bi, l) ∈ milpPairsInner tol st bi js ∧ PairPut st bi l b a) := by
  intro js
  induction js with
  | nil =>
      intro st bi a b
      simp [adjInner, milpPairsInner]
  | cons bj rest ih =>
      intro st bi a b
      unfold adjInner milpPairsInner
      by_cases hbrk : (st.blk bi).endMin ≤ (st.blk bj).startMin + tol
      · simp [hbrk]
      · simp only [hbrk, if_neg, not_false_iff, if_false]
        rw [ih (pairAdd st bi bj) bi a b]
        rw [milpPairsInner_congr tol (fun i => ⟨(pairAdd_sed st bi bj i).1,
          (pairAdd_sed st bi bj i).2.1⟩)]
        rw [pairAdd_mem_rightN]
        constructor
        · rintro ((hmem | hput) | ⟨l, hl, hp⟩)
          · exact Or.inl hmem
          · exact Or.inr ⟨bj, by simp, hput⟩
          · exact Or.inr ⟨l, by simp [hl], (PairPut_congr
              (fun i => (pairAdd_sed st bi bj i).2.2) bi l b a).1 hp⟩
        · rintro (hmem | ⟨l, hl, hp⟩)
          · exact Or.inl (Or.inl hmem)
          · rcases List.mem_cons.1 hl with heq | hl'
            · have : l = bj := by
                have := congrArg Prod.snd heq
                simpa using this
              subst this
              exact Or.inl (Or.inr hp)
            · exact Or.inr ⟨l, hl', (PairPut_congr
                (fun i => (pairAdd_sed st bi bj i).2.2) bi l b a).2 hp⟩

/-- Membership in `rightN` after the full S2 scan. -/
theorem adjOuter_mem_rightN (tol : ℤ) :
    ∀ (ord : List ℕ) (st : RState) (a b : ℕ),
      (b ∈ ((adjOuter tol st ord).blk a).rightN ↔
        b ∈ (st.blk a).rightN ∨
          ∃ p ∈ milpPairs tol st ord, PairPut st p.1 p.2 b a) := by
  intro ord
  induction ord with
  | nil =>
      intro st a b
      simp [adjOuter, milpPairs]
  | cons bi rest ih =>
      intro st a b
      unfold adjOuter milpPairs
      rw [ih (adjInner tol st bi rest) a b]
      have hsed : ∀ i, ((adjInner tol st bi rest).blk i).startMin = (st.blk i).startMin ∧
          ((adjInner tol st bi rest).blk i).endMin = (st.blk i).endMin :=
        fun i => ⟨adjInner_blkP (fun b => b.startMin) (fun _ _ _ => rfl) tol rest st bi i,
          adjInner_blkP (fun b => b.endMin) (fun _ _ _ => rfl) tol rest st bi i⟩
      have hd : ∀ i, ((adjInner tol st bi rest).blk i).depth = (st.blk i).depth :=
        fun i => adjInner_blkP (fun b => b.depth) (fun _ _ _ => rfl) tol rest st bi i
      rw [milpPairs_congr tol hsed, adjInner_mem_rightN]
      constructor
      · rintro ((hmem | ⟨l, hl, hp⟩) | ⟨p, hmem2, hp⟩)
        · exact Or.inl hmem
        · exact Or.inr ⟨(bi, l), List.mem_append_left _ hl, hp⟩
        · exact Or.inr ⟨p, List.mem_append_right _ hmem2,
            (PairPut_congr hd p.1 p.2 b a).1 hp⟩
      · rintro (hmem | ⟨p, hp2, hp⟩)
        · exact Or.inl (Or.inl hmem)
        · obtain ⟨p1, p2⟩ := p
          rcases List.mem_append.1 hp2 with h1 | h2
          · have hfst : p1 = bi := milpPairsInner_fst tol st rest bi p1 p2 h1
            subst hfst
            exact Or.inl (Or.inr ⟨p2, h1, hp⟩)
          · exact Or.inr ⟨(p1, p2), h2, (PairPut_congr hd p1 p2 b a).2 hp⟩

/-- The matrix after the inner S2 scan. -/
theorem adjInner_matrix (tol : ℤ) :
    ∀ (js : List ℕ) (st : RState) (bi p q : ℕ),
      ((adjInner tol st bi js).matrix p q = true ↔
        st.matrix p q = true ∨
          ∃ l, (bi, l) ∈ milpPairsInner tol st bi js ∧ PairPut st bi l p q) := by
  intro js
  induction js with
  | nil =>
      intro st bi p q
      simp [adjInner, milpPairsInner]
  | cons bj rest ih =>
      intro st bi p q
      unfold adjInner milpPairsInner
      by_cases hbrk : (st.blk bi).endMin ≤ (st.blk bj).startMin + tol
      · simp [hbrk]
      · simp only [hbrk, if_neg, not_false_iff, if_false]
        rw [ih (pairAdd st bi bj) bi p q]
        rw [milpPairsInner_congr tol (fun i => ⟨(pairAdd_sed st bi bj i).1,
          (pairAdd_sed st bi bj i).2.1⟩)]
        rw [pairAdd_matrix]
        constructor
        · rintro ((hmem | hput) | ⟨l, hl, hp⟩)
          · exact Or.inl hmem
          · exact Or.inr ⟨bj, by simp, hput⟩
          · exact Or.inr ⟨l, by simp [hl], (PairPut_congr
              (fun i => (pairAdd_sed st bi bj i).2.2) bi l p q).1 hp⟩
        · rintro (hmem | ⟨l, hl, hp⟩)
          · exact Or.inl (Or.inl hmem)
          · rcases List.mem_cons.1 hl with heq | hl'
            · have : l = bj := by
                have := congrArg Prod.snd heq
                simpa using this
              subst this
              exact Or.inl (Or.inr hp)
            · exact Or.inr ⟨l, hl', (PairPut_congr
                (fun i => (pairAdd_sed st bi bj i).2.2) bi l p q).2 hp⟩

/-- The matrix after the full S2 scan. -/
theorem adjOuter_matrix (tol : ℤ) :
    ∀ (ord : List ℕ) (st : RState) (p q : ℕ),
      ((adjOuter tol st ord).matrix p q = true ↔
        st.matrix p q = true ∨
          ∃ pr ∈ milpPairs tol st ord, PairPut st pr.1 pr.2 p q) := by
  intro ord
  induction ord with
  | nil =>
      intro st p q
      simp [adjOuter, milpPairs]
  | cons bi rest ih =>
      intro st p q
      unfold adjOuter milpPairs
      rw [ih (adjInner tol st bi rest) p q]
      have hsed : ∀ i, ((adjInner tol st bi rest).blk i).startMin = (st.blk i).startMin ∧
          ((adjInner tol st bi rest).blk i).endMin = (st.blk i).endMin :=
        fun i => ⟨adjInner_blkP (fun b => b.startMin) (fun _ _ _ => rfl) tol rest st bi i,
          adjInner_blkP (fun b => b.endMin) (fun _ _ _ => rfl) tol rest st bi i⟩
      have hd : ∀ i, ((adjInner tol st bi rest).blk i).depth = (st.blk i).depth :=
        fun i => adjInner_blkP (fun b => b.depth) (fun _ _ _ => rfl) tol rest st bi i
      rw [milpPairs_congr tol hsed, adjInner_matrix]
      constructor
      · rintro ((hmem | ⟨l, hl, hp⟩) | ⟨pr, hmem2, hp⟩)
        · exact Or.inl hmem
        · exact Or.inr ⟨(bi, l), List.mem_append_left _ hl, hp⟩
        · exact Or.inr ⟨pr, List.mem_append_right _ hmem2,
            (PairPut_congr hd pr.1 pr.2 p q).1 hp⟩
      · rintro (hmem | ⟨pr, hp2, hp⟩)
        · exact Or.inl (Or.inl hmem)
        · obtain ⟨p1, p2⟩ := pr
          rcases List.mem_append.1 hp2 with h1 | h2
          · have hfst : p1 = bi := milpPairsInner_fst tol st rest bi p1 p2 h1
            subst hfst
            exact Or.inl (Or.inr ⟨p2, h1, hp⟩)
          · exact Or.inr ⟨(p1, p2), h2, (PairPut_congr hd p1 p2 p q).2 hp⟩


/-- A pair sublist of a cons. -/
theorem pair_sublist_cons {e l bi : ℕ} {rest : List ℕ} :
    [e, l].Sublist (bi :: rest) ↔ (e = bi ∧ l ∈ rest) ∨ [e, l].Sublist rest := by
  constructor
  · intro h
    cases h with
    | cons _ h' => exact Or.inr h'
    | cons₂ _ h' => exact Or.inl ⟨rfl, List.singleton_sublist.1 h'⟩
  · rintro (⟨rfl, hl⟩ | h)
    · exact List.Sublist.cons₂ _ (List.singleton_sublist.2 hl)
    · exact List.Sublist.cons _ h

/-- Under a start-sorted suffix, the inner scan with its `break` records
exactly the pairs `(bi, l)` with `l` in the suffix and
`l.startMin + tol < bi.endMin` (one-sided: only `bi`'s end is compared). -/
theorem milpPairsInner_mem_iff (tol : ℤ) (st : RState) :
    ∀ (js : List ℕ) (bi : ℕ),
      js.Pairwise (fun i j => (st.blk i).startMin ≤ (st.blk j).startMin) →
      ∀ l, ((bi, l) ∈ milpPairsInner tol st bi js ↔
        l ∈ js ∧ (st.blk l).startMin + tol < (st.blk bi).endMin) := by
  intro js
  induction js with
  | nil => intro bi _ l; simp [milpPairsInner]
  | cons bj t ih =>
      intro bi hsort l
      unfold milpPairsInner
      by_cases hbrk : (st.blk bi).endMin ≤ (st.blk bj).startMin + tol
      · simp only [hbrk, if_pos]
        constructor
        · intro h; cases h
        · rintro ⟨hl, hlink⟩
          exfalso
          rcases List.mem_cons.1 hl with rfl | hl'
          · omega
          · have := (List.pairwise_cons.1 hsort).1 l hl'
            omega
      · simp only [hbrk, if_neg, not_false_iff, if_false]
        rw [List.mem_cons]
        rw [ih bi (List.pairwise_cons.1 hsort).2 l]
        constructor
        · rintro (heq | ⟨hl, hlink⟩)
          · have : l = bj := by
              have := congrArg Prod.snd heq
              simpa using this
            subst this
            exact ⟨List.mem_cons_self _ _, by omega⟩
          · exact ⟨List.mem_cons_of_mem _ hl, hlink⟩
        · rintro ⟨hl, hlink⟩
          rcases List.mem_cons.1 hl with rfl | hl'
          · exact Or.inl rfl
          · exact Or.inr ⟨hl', hlink⟩

/-- The scan relation recorded by the S2/S7 pair scan: `e` before `l` in
the sort order and `l.startMin + tol < e.endMin`. -/
def ScanLink (st : RState) (tol : ℤ) (ord : List ℕ) (e l : ℕ) : Prop :=
  [e, l].Sublist ord ∧ (st.blk l).startMin + tol < (st.blk e).endMin

/-- Under a start-sorted order, the recorded pairs are exactly the
`ScanLink` pairs. -/
theorem milpPairs_mem_iff (tol : ℤ) (st : RState) :
    ∀ (ord : List ℕ),
      ord.Pairwise (fun i j => (st.blk i).startMin ≤ (st.blk j).startMin) →
      ∀ e l, ((e, l) ∈ milpPairs tol st ord ↔ ScanLink st tol ord e l) := by
  intro ord
  induction ord with
  | nil =>
      intro _ e l
      constructor
      · intro h; cases h
      · rintro ⟨hsub, _⟩
        cases hsub
  | cons bi rest ih =>
      intro hsort e l
      unfold milpPairs ScanLink
      rw [List.mem_append, pair_sublist_cons]
      constructor
      · rintro (h1 | h2)
        · have hfst := milpPairsInner_fst tol st rest bi e l h1
          subst hfst
          have := (milpPairsInner_mem_iff tol st rest e
            (List.pairwise_cons.1 hsort).2 l).1 h1
          exact ⟨Or.inl ⟨rfl, this.1⟩, this.2⟩
        · have := (ih (List.pairwise_cons.1 hsort).2 e l).1 h2
          exact ⟨Or.inr this.1, this.2⟩
      · rintro ⟨(⟨rfl, hl⟩ | hsub), hlink⟩
        · exact Or.inl ((milpPairsInner_mem_iff tol st rest e
            (List.pairwise_cons.1 hsort).2 l).2 ⟨hl, hlink⟩)
        · exact Or.inr ((ih (List.pairwise_cons.1 hsort).2 e l).2 ⟨hsub, hlink⟩)

/-- Full characterization of stage S2 from an empty adjacency state. -/
theorem constructAdjList_char (tol : ℤ) (st0 : RState) (ord : List ℕ)
    (hL0 : ∀ i, (st0.blk i).leftN = []) (hR0 : ∀ i, (st0.blk i).rightN = [])
    (hM0 : ∀ p q, st0.matrix p q = false)
    (hsort : ord.Pairwise (fun i j => (st0.blk i).startMin ≤ (st0.blk j).startMin))
    (a b : ℕ) :
    (b ∈ ((constructAdjList tol st0 ord).blk a).leftN ↔
      ∃ e l, ScanLink st0 tol ord e l ∧ PairPut st0 e l a b) ∧
    (b ∈ ((constructAdjList tol st0 ord).blk a).rightN ↔
      ∃ e l, ScanLink st0 tol ord e l ∧ PairPut st0 e l b a) ∧
    ((constructAdjList tol st0 ord).matrix a b = true ↔
      ∃ e l, ScanLink st0 tol ord e l ∧ PairPut st0 e l a b) := by
  unfold constructAdjList
  refine ⟨?_, ?_, ?_⟩
  · rw [adjOuter_mem_leftN, hL0]
    simp only [List.not_mem_nil, false_or]
    constructor
    · rintro ⟨⟨e, l⟩, hmem, hput⟩
      exact ⟨e, l, (milpPairs_mem_iff tol st0 ord hsort e l).1 hmem, hput⟩
    · rintro ⟨e, l, hsl, hput⟩
      exact ⟨(e, l), (milpPairs_mem_iff tol st0 ord hsort e l).2 hsl, hput⟩
  · rw [adjOuter_mem_rightN, hR0]
    simp only [List.not_mem_nil, false_or]
    constructor
    · rintro ⟨⟨e, l⟩, hmem, hput⟩
      exact ⟨e, l, (milpPairs_mem_iff tol st0 ord hsort e l).1 hmem, hput⟩
    · rintro ⟨e, l, hsl, hput⟩
      exact ⟨(e, l), (milpPairs_mem_iff tol st0 ord hsort e l).2 hsl, hput⟩
  · rw [adjOuter_matrix, hM0]
    simp only [Bool.false_eq_true, false_or]
    constructor
    · rintro ⟨⟨e, l⟩, hmem, hput⟩
      exact ⟨e, l, (milpPairs_mem_iff tol st0 ord hsort e l).1 hmem, hput⟩
    · rintro ⟨e, l, hsl, hput⟩
      exact ⟨(e, l), (milpPairs_mem_iff tol st0 ord hsort e l).2 hsl, hput⟩

/-- The matrix is untouched by the stage-S1 loops. -/
theorem is1Loop_matrix (tol : ℤ) :
    ∀ (rest : List ℕ) (st : RState) (buf : List ℕ) (numRooms : ℕ),
      ((is1Loop tol st rest buf numRooms).1).matrix = st.matrix := by
  intro rest
  induction rest with
  | nil => intro st buf numRooms; rfl
  | cons b t ih =>
      intro st buf numRooms
      rcases hp : pickRoom st tol (st.blk b).startMin buf 0 with _ | ⟨k, d⟩ <;>
        simp only [is1Loop, hp] <;> rw [ih] <;> rfl

theorem is2Loop_matrix (tol : ℤ) :
    ∀ (rest : List ℕ) (st : RState) (queue : List ℕ) (numRooms : ℕ),
      ((is2Loop tol st rest queue numRooms).1).matrix = st.matrix := by
  intro rest
  induction rest with
  | nil => intro st queue numRooms; rfl
  | cons b t ih =>
      intro st queue numRooms
      match queue with
      | [] => rfl
      | q :: qrest =>
          by_cases hc : (st.blk b).startMin < (st.blk (qtop st qrest q)).endMin + tol <;>
            simp only [is2Loop, hc, if_pos, if_neg, not_false_iff, if_false] <;>
            rw [ih] <;> rfl

theorem stageS1_matrix (o : Opts) (st : RState) (ord : List ℕ) :
    ((stageS1 o st ord).1).matrix = st.matrix := by
  unfold stageS1
  split <;>
  · match ord with
    | [] => rfl
    | b0 :: rest =>
        first
        | exact is1Loop_matrix o.isTolerance rest st [b0] 0
        | exact is2Loop_matrix o.isTolerance rest st [b0] 0


/-- After stage S1, adjacency lists are still empty. -/
theorem afterS1_adjEmpty (o : Opts) (inp : Input) (ord : List ℕ) (i : ℕ) :
    ((afterS1 o inp ord).1.blk i).leftN = [] ∧
    ((afterS1 o inp ord).1.blk i).rightN = [] ∧
    ((afterS1 o inp ord).1.blk i).cleftN = [] ∧
    ((afterS1 o inp ord).1.blk i).crightN = [] :=
  ⟨(stageS1_blkP (fun b => b.leftN) (fun _ _ => rfl) o (initState inp) ord i).trans rfl,
   (stageS1_blkP (fun b => b.rightN) (fun _ _ => rfl) o (initState inp) ord i).trans rfl,
   (stageS1_blkP (fun b => b.cleftN) (fun _ _ => rfl) o (initState inp) ord i).trans rfl,
   (stageS1_blkP (fun b => b.crightN) (fun _ _ => rfl) o (initState inp) ord i).trans rfl⟩

/-- After stage S1, the matrix is still all-false. -/
theorem afterS1_matrix (o : Opts) (inp : Input) (ord : List ℕ) (p q : ℕ) :
    (afterS1 o inp ord).1.matrix p q = false := by
  show ((stageS1 o (initState inp) ord).1).matrix p q = false
  rw [stageS1_matrix]
  rfl

/-- Stage S1 does not change start or end times. -/
theorem afterS1_se (o : Opts) (inp : Input) (ord : List ℕ) (i : ℕ) :
    ((afterS1 o inp ord).1.blk i).startMin = ((initState inp).blk i).startMin ∧
    ((afterS1 o inp ord).1.blk i).endMin = ((initState inp).blk i).endMin :=
  ⟨stageS1_blkP (fun b => b.startMin) (fun _ _ => rfl) o (initState inp) ord i,
   stageS1_blkP (fun b => b.endMin) (fun _ _ => rfl) o (initState inp) ord i⟩

/-- A valid start order is start-sorted on the post-S1 state. -/
theorem afterS1_sorted (o : Opts) {inp : Input} {ord : List ℕ}
    (hord : IsStartOrder (initState inp) ord) :
    ord.Pairwise (fun i j => ((afterS1 o inp ord).1.blk i).startMin
      ≤ ((afterS1 o inp ord).1.blk j).startMin) := by
  refine hord.2.imp ?_
  intro i j hij
  rw [(afterS1_se o inp ord i).1, (afterS1_se o inp ord j).1]
  rcases hij with hlt | ⟨heq, _⟩
  · exact le_of_lt hlt
  · exact le_of_eq heq

/-! ## Claim C5 -/

/-- C5, counterexample: with `dfsTolerance = 10` on the valid input
`[(0,60),(30,35)]` (second block shorter than the tolerance), the S2 scan
records the pair — block 0 enters `leftN` of block 1 — even though the two
blocks do not conflict: `max(start) + 10 = 40` is not `< min(end) = 35`.
The claimed equivalence `j ∈ a.leftN ⇔ j.depth < a.depth ∧ conflict(a,j)`
fails. -/
theorem C5_counterexample :
    ValidInput [((0:ℤ),(60:ℤ)), ((30:ℤ),(35:ℤ))] ∧
    IsStartOrder (initState [((0:ℤ),(60:ℤ)), ((30:ℤ),(35:ℤ))]) [0, 1] ∧
    0 ∈ ((constructAdjList 10
      (afterS1 ⟨0, 1, true, 10, 100, 1, false⟩ [((0:ℤ),(60:ℤ)), ((30:ℤ),(35:ℤ))] [0, 1]).1
      [0, 1]).blk 1).leftN ∧
    ((afterS1 ⟨0, 1, true, 10, 100, 1, false⟩ [((0:ℤ),(60:ℤ)), ((30:ℤ),(35:ℤ))] [0, 1]).1.blk 0).depth
      < ((afterS1 ⟨0, 1, true, 10, 100, 1, false⟩ [((0:ℤ),(60:ℤ)), ((30:ℤ),(35:ℤ))] [0, 1]).1.blk 1).depth ∧
    ¬ Conflict 10
      ((constructAdjList 10
        (afterS1 ⟨0, 1, true, 10, 100, 1, false⟩ [((0:ℤ),(60:ℤ)), ((30:ℤ),(35:ℤ))] [0, 1]).1
        [0, 1]).blk 1)
      ((constructAdjList 10
        (afterS1 ⟨0, 1, true, 10, 100, 1, false⟩ [((0:ℤ),(60:ℤ)), ((30:ℤ),(35:ℤ))] [0, 1]).1
        [0, 1]).blk 0) := by
  decide

/-- The three stage-S2 adjacency characterizations: mirror, matrix, scan. -/
theorem stS2_adj_iff (o : Opts) (inp : Input) (ord : List ℕ)
    (hord : IsStartOrder (initState inp) ord) (a b : ℕ) :
    (b ∈ ((constructAdjList o.dfsTolerance (afterS1 o inp ord).1 ord).blk a).leftN ↔
      a ∈ ((constructAdjList o.dfsTolerance (afterS1 o inp ord).1 ord).blk b).rightN) ∧
    ((constructAdjList o.dfsTolerance (afterS1 o inp ord).1 ord).matrix a b = true ↔
      b ∈ ((constructAdjList o.dfsTolerance (afterS1 o inp ord).1 ord).blk a).leftN) ∧
    (b ∈ ((constructAdjList o.dfsTolerance (afterS1 o inp ord).1 ord).blk a).leftN ↔
      ∃ e l, ScanLink (afterS1 o inp ord).1 o.dfsTolerance ord e l ∧
        PairPut (afterS1 o inp ord).1 e l a b) := by
  have hchar := fun x y => constructAdjList_char o.dfsTolerance (afterS1 o inp ord).1 ord
    (fun i => (afterS1_adjEmpty o inp ord i).1)
    (fun i => (afterS1_adjEmpty o inp ord i).2.1)
    (afterS1_matrix o inp ord)
    (afterS1_sorted o hord) x y
  refine ⟨?_, ?_, (hchar a b).1⟩
  · rw [(hchar a b).1, (hchar b a).2.1]
  · rw [(hchar a b).2.2, (hchar a b).1]

/-- C5 (amended): after stage S2 run on a start-sorted order,
`j ∈ a.leftN ⇔ a ∈ j.rightN`, the matrix records exactly the `leftN`
relation, and `j ∈ a.leftN` iff the scan recorded the pair — i.e. some
`(e, l)` with `e` before `l` in sort order and
`l.startMin + dfsTolerance < e.endMin` (strict: the scan tests the break
before recording, so the first later block failing this is never linked;
and only the earlier block's end is compared, so a recorded pair is weaker
than a conflicting one) — with `j` the lower-depth member; on equal depths
the later block enters the earlier one's `leftN`. -/
theorem C5_amended (o : Opts) (inp : Input) (ord : List ℕ)
    (hord : IsStartOrder (initState inp) ord) (a b : ℕ) :
    (b ∈ ((constructAdjList o.dfsTolerance (afterS1 o inp ord).1 ord).blk a).leftN ↔
      a ∈ ((constructAdjList o.dfsTolerance (afterS1 o inp ord).1 ord).blk b).rightN) ∧
    ((constructAdjList o.dfsTolerance (afterS1 o inp ord).1 ord).matrix a b = true ↔
      b ∈ ((constructAdjList o.dfsTolerance (afterS1 o inp ord).1 ord).blk a).leftN) ∧
    (b ∈ ((constructAdjList o.dfsTolerance (afterS1 o inp ord).1 ord).blk a).leftN ↔
      ∃ e l, ScanLink (afterS1 o inp ord).1 o.dfsTolerance ord e l ∧
        PairPut (afterS1 o inp ord).1 e l a b) :=
  stS2_adj_iff o inp ord hord a b

/-- Witness for `C5_amended` at `[(0,60),(30,90)]`, `a = 1`, `b = 0`. -/
theorem C5_witness :
    IsStartOrder (initState [((0:ℤ),(60:ℤ)), ((30:ℤ),(90:ℤ))]) [0, 1] ∧
    ((0 ∈ ((constructAdjList (0:ℤ)
        (afterS1 ⟨0, 1, true, 0, 100, 1, false⟩ [((0:ℤ),(60:ℤ)), ((30:ℤ),(90:ℤ))] [0, 1]).1
        [0, 1]).blk 1).leftN ↔
      1 ∈ ((constructAdjList (0:ℤ)
        (afterS1 ⟨0, 1, true, 0, 100, 1, false⟩ [((0:ℤ),(60:ℤ)), ((30:ℤ),(90:ℤ))] [0, 1]).1
        [0, 1]).blk 0).rightN) ∧
    ((constructAdjList (0:ℤ)
        (afterS1 ⟨0, 1, true, 0, 100, 1, false⟩ [((0:ℤ),(60:ℤ)), ((30:ℤ),(90:ℤ))] [0, 1]).1
        [0, 1]).matrix 1 0 = true ↔
      0 ∈ ((constructAdjList (0:ℤ)
        (afterS1 ⟨0, 1, true, 0, 100, 1, false⟩ [((0:ℤ),(60:ℤ)), ((30:ℤ),(90:ℤ))] [0, 1]).1
        [0, 1]).blk 1).leftN) ∧
    (0 ∈ ((constructAdjList (0:ℤ)
        (afterS1 ⟨0, 1, true, 0, 100, 1, false⟩ [((0:ℤ),(60:ℤ)), ((30:ℤ),(90:ℤ))] [0, 1]).1
        [0, 1]).blk 1).leftN ↔
      ∃ e l, ScanLink (afterS1 ⟨0, 1, true, 0, 100, 1, false⟩
          [((0:ℤ),(60:ℤ)), ((30:ℤ),(90:ℤ))] [0, 1]).1 (0:ℤ) [0, 1] e l ∧
        PairPut (afterS1 ⟨0, 1, true, 0, 100, 1, false⟩
          [((0:ℤ),(60:ℤ)), ((30:ℤ),(90:ℤ))] [0, 1]).1 e l 1 0)) :=
  ⟨by decide,
    C5_amended ⟨0, 1, true, 0, 100, 1, false⟩ [((0:ℤ),(60:ℤ)), ((30:ℤ),(90:ℤ))] [0, 1]
      (by decide) 1 0⟩


/-- Membership in `cleftN` after stage S3 (for a block of the array). -/
theorem condense_mem_cleftN (st : RState) {a : ℕ} (ha : a < st.n) (v : ℕ) :
    v ∈ ((condenseAdjList st).blk a).cleftN ↔
      v ∈ (st.blk a).leftN ∧ ∀ w ∈ (st.blk a).leftN, st.matrix w v = false := by
  unfold condenseAdjList
  dsimp only
  rw [if_pos ha]
  show v ∈ (st.blk a).leftN.filter _ ↔ _
  rw [List.mem_filter]
  simp only [Bool.not_eq_true', List.any_eq_false, decide_eq_true_eq, Bool.not_eq_true]

/-- Membership in `crightN` after stage S3. -/
theorem condense_mem_crightN (st : RState) {a : ℕ} (ha : a < st.n) (v : ℕ) :
    v ∈ ((condenseAdjList st).blk a).crightN ↔
      v ∈ (st.blk a).rightN ∧ ∀ w ∈ (st.blk a).rightN, st.matrix v w = false := by
  unfold condenseAdjList
  dsimp only
  rw [if_pos ha]
  show v ∈ (st.blk a).rightN.filter _ ↔ _
  rw [List.mem_filter]
  simp only [Bool.not_eq_true', List.any_eq_false, decide_eq_true_eq, Bool.not_eq_true]

/-- Condensation keeps `leftN`, `rightN`, the matrix and all scalar fields. -/
theorem condense_keeps (st : RState) (i : ℕ) :
    ((condenseAdjList st).blk i).leftN = (st.blk i).leftN ∧
    ((condenseAdjList st).blk i).rightN = (st.blk i).rightN ∧
    (condenseAdjList st).matrix = st.matrix :=
  ⟨condense_blkP (fun b => b.leftN) (fun _ _ _ => rfl) st i,
   condense_blkP (fun b => b.rightN) (fun _ _ _ => rfl) st i, rfl⟩

/-! ## The post-S2/S3 pipeline state: basic structure -/

/-- The stage-S2 state of the pipeline, before condensation. -/
def stS2 (o : Opts) (inp : Input) (ord : List ℕ) : RState :=
  constructAdjList o.dfsTolerance (afterS1 o inp ord).1 ord

theorem preSeed_eq (o : Opts) (inp : Input) (ord : List ℕ) :
    preSeed o inp ord = condenseAdjList (stS2 o inp ord) := rfl

/-- An order that is a permutation of `range n` has no duplicates. -/
theorem ord_nodup {st : RState} {ord : List ℕ} (h : IsStartOrder st ord) :
    ord.Nodup :=
  h.1.nodup_iff.2 (List.nodup_range _)

/-- `leftN` membership is irreflexive after S2. -/
theorem leftN_irrefl (o : Opts) (inp : Input) (ord : List ℕ)
    (hord : IsStartOrder (initState inp) ord) (a : ℕ) :
    a ∉ ((stS2 o inp ord).blk a).leftN := by
  intro hmem
  obtain ⟨e, l, ⟨hsub, _⟩, hput⟩ := ((stS2_adj_iff o inp ord hord a a).2.2).1 hmem
  have hel : e = l := by
    rcases hput with ⟨_, h1, h2⟩ | ⟨_, h1, h2⟩ <;> omega
  subst hel
  have hcnt := hsub.count_le e
  have h1 := List.nodup_iff_count_le_one.1 (ord_nodup hord) e
  simp at hcnt
  omega

/-- `rightN` membership is irreflexive after S2. -/
theorem rightN_irrefl (o : Opts) (inp : Input) (ord : List ℕ)
    (hord : IsStartOrder (initState inp) ord) (a : ℕ) :
    a ∉ ((stS2 o inp ord).blk a).rightN := by
  intro hmem
  exact leftN_irrefl o inp ord hord a ((stS2_adj_iff o inp ord hord a a).1.mpr hmem)

/-- Members and owners of post-S2 adjacency lists lie in the array. -/
theorem mem_leftN_lt (o : Opts) (inp : Input) (ord : List ℕ)
    (hord : IsStartOrder (initState inp) ord) {a b : ℕ}
    (h : b ∈ ((stS2 o inp ord).blk a).leftN) :
    a < inp.length ∧ b < inp.length := by
  obtain ⟨e, l, ⟨hsub, _⟩, hput⟩ := ((stS2_adj_iff o inp ord hord a b).2.2).1 h
  have hsube : e ∈ ord := hsub.subset (List.mem_cons_self _ _)
  have hsubl : l ∈ ord := hsub.subset (by simp)
  have he : e < inp.length := by
    have := hord.1.subset hsube
    simpa [initState] using List.mem_range.1 this
  have hl : l < inp.length := by
    have := hord.1.subset hsubl
    simpa [initState] using List.mem_range.1 this
  rcases hput with ⟨_, rfl, rfl⟩ | ⟨_, rfl, rfl⟩ <;> exact ⟨by assumption, by assumption⟩

/-! ## Claim C6 -/

/-- C6: after stage S3, `cleftN(b)` consists exactly of the `v ∈ leftN(b)`
such that no other `w ∈ leftN(b)` has `v ∈ leftN(w)` (equivalently,
`matrix[w, v]` is false for every `w ∈ leftN(b)`), and symmetrically
`crightN(b)` of the `v ∈ rightN(b)` such that no other `w ∈ rightN(b)` has
`v ∈ rightN(w)`; in particular `cleftN(b) ⊆ leftN(b)` and
`crightN(b) ⊆ rightN(b)`. -/
theorem condense_char (o : Opts) (inp : Input) (ord : List ℕ)
    (hord : IsStartOrder (initState inp) ord) {b : ℕ} (hb : b < inp.length) (v : ℕ) :
    (v ∈ ((preSeed o inp ord).blk b).cleftN ↔
      v ∈ ((preSeed o inp ord).blk b).leftN ∧
        ∀ w ∈ ((preSeed o inp ord).blk b).leftN, w ≠ v →
          v ∉ ((preSeed o inp ord).blk w).leftN) ∧
    (v ∈ ((preSeed o inp ord).blk b).cleftN ↔
      v ∈ ((preSeed o inp ord).blk b).leftN ∧
        ∀ w ∈ ((preSeed o inp ord).blk b).leftN, (preSeed o inp ord).matrix w v = false) ∧
    (v ∈ ((preSeed o inp ord).blk b).crightN ↔
      v ∈ ((preSeed o inp ord).blk b).rightN ∧
        ∀ w ∈ ((preSeed o inp ord).blk b).rightN, w ≠ v →
          v ∉ ((preSeed o inp ord).blk w).rightN) ∧
    (v ∈ ((preSeed o inp ord).blk b).cleftN → v ∈ ((preSeed o inp ord).blk b).leftN) ∧
    (v ∈ ((preSeed o inp ord).blk b).crightN → v ∈ ((preSeed o inp ord).blk b).rightN) := by
  have hbn : b < (stS2 o inp ord).n := by
    show b < (adjOuter o.dfsTolerance (afterS1 o inp ord).1 ord).n
    rw [adjOuter_n]
    show b < ((stageS1 o (initState inp) ord).1).n
    rw [stageS1_n]
    exact hb
  have hL := fun i => (condense_keeps (stS2 o inp ord) i).1
  have hR := fun i => (condense_keeps (stS2 o inp ord) i).2.1
  have hM := (condense_keeps (stS2 o inp ord) b).2.2
  have hmat : ∀ w v', ((stS2 o inp ord).matrix w v' = true) ↔
      v' ∈ ((stS2 o inp ord).blk w).leftN := by
    intro w v'
    exact (stS2_adj_iff o inp ord hord w v').2.1
  rw [preSeed_eq]
  rw [condense_mem_cleftN (stS2 o inp ord) hbn v, condense_mem_crightN (stS2 o inp ord) hbn v]
  simp only [hL, hR, hM]
  refine ⟨?_, trivial, ?_, fun h => h.1, fun h => h.1⟩
  · constructor
    · rintro ⟨h1, h2⟩
      refine ⟨h1, fun w hw _ hvm => ?_⟩
      have := (hmat w v).2 hvm
      rw [h2 w hw] at this
      cases this
    · rintro ⟨h1, h2⟩
      refine ⟨h1, fun w hw => ?_⟩
      cases hq : (stS2 o inp ord).matrix w v
      · rfl
      · exfalso
        have hvm := (hmat w v).1 hq
        rcases eq_or_ne w v with rfl | hne
        · exact leftN_irrefl o inp ord hord w hvm
        · exact h2 w hw hne hvm
  · constructor
    · rintro ⟨h1, h2⟩
      refine ⟨h1, fun w hw hne hvm => ?_⟩
      have hwl : w ∈ ((stS2 o inp ord).blk v).leftN :=
        ((stS2_adj_iff o inp ord hord v w).1).2 hvm
      have := (hmat v w).2 hwl
      rw [h2 w hw] at this
      cases this
    · rintro ⟨h1, h2⟩
      refine ⟨h1, fun w hw => ?_⟩
      cases hq : (stS2 o inp ord).matrix v w
      · rfl
      · exfalso
        have hwl : w ∈ ((stS2 o inp ord).blk v).leftN := (hmat v w).1 hq
        have hwr : v ∈ ((stS2 o inp ord).blk w).rightN :=
          ((stS2_adj_iff o inp ord hord v w).1).1 hwl
        rcases eq_or_ne w v with rfl | hne
        · exact rightN_irrefl o inp ord hord w hwr
        · exact h2 w hw hne hwr

/-- C6: after condensation, `cleftN(b)` consists exactly of the
`v ∈ leftN(b)` such that no other `w ∈ leftN(b)` has `v ∈ leftN(w)` (the
matrix form: `matrix[w, v]` is false for every `w ∈ leftN(b)`), and
symmetrically for `crightN(b)` over `rightN`; in particular
`cleftN(b) ⊆ leftN(b)` and `crightN(b) ⊆ rightN(b)`. -/
theorem C6_theorem (o : Opts) (inp : Input) (ord : List ℕ)
    (hord : IsStartOrder (initState inp) ord) {b : ℕ} (hb : b < inp.length) (v : ℕ) :
    (v ∈ ((preSeed o inp ord).blk b).cleftN ↔
      v ∈ ((preSeed o inp ord).blk b).leftN ∧
        ∀ w ∈ ((preSeed o inp ord).blk b).leftN, w ≠ v →
          v ∉ ((preSeed o inp ord).blk w).leftN) ∧
    (v ∈ ((preSeed o inp ord).blk b).cleftN ↔
      v ∈ ((preSeed o inp ord).blk b).leftN ∧
        ∀ w ∈ ((preSeed o inp ord).blk b).leftN, (preSeed o inp ord).matrix w v = false) ∧
    (v ∈ ((preSeed o inp ord).blk b).crightN ↔
      v ∈ ((preSeed o inp ord).blk b).rightN ∧
        ∀ w ∈ ((preSeed o inp ord).blk b).rightN, w ≠ v →
          v ∉ ((preSeed o inp ord).blk w).rightN) ∧
    (v ∈ ((preSeed o inp ord).blk b).cleftN → v ∈ ((preSeed o inp ord).blk b).leftN) ∧
    (v ∈ ((preSeed o inp ord).blk b).crightN → v ∈ ((preSeed o inp ord).blk b).rightN) :=
  condense_char o inp ord hord hb v

/-- Witness for `C6_theorem` at `[(0,60),(30,90)]`, `b = 1`, `v = 0`. -/
theorem C6_witness :
    (IsStartOrder (initState [((0:ℤ),(60:ℤ)), ((30:ℤ),(90:ℤ))]) [0, 1] ∧
      (1 : ℕ) < ([((0:ℤ),(60:ℤ)), ((30:ℤ),(90:ℤ))] : Input).length) ∧
    (0 ∈ ((preSeed ⟨0, 1, true, 0, 100, 1, false⟩
        [((0:ℤ),(60:ℤ)), ((30:ℤ),(90:ℤ))] [0, 1]).blk 1).cleftN ↔
      0 ∈ ((preSeed ⟨0, 1, true, 0, 100, 1, false⟩
        [((0:ℤ),(60:ℤ)), ((30:ℤ),(90:ℤ))] [0, 1]).blk 1).leftN ∧
        ∀ w ∈ ((preSeed ⟨0, 1, true, 0, 100, 1, false⟩
          [((0:ℤ),(60:ℤ)), ((30:ℤ),(90:ℤ))] [0, 1]).blk 1).leftN, w ≠ 0 →
          0 ∉ ((preSeed ⟨0, 1, true, 0, 100, 1, false⟩
            [((0:ℤ),(60:ℤ)), ((30:ℤ),(90:ℤ))] [0, 1]).blk w).leftN) :=
  ⟨⟨by decide, by decide⟩,
    (C6_theorem ⟨0, 1, true, 0, 100, 1, false⟩ [((0:ℤ),(60:ℤ)), ((30:ℤ),(90:ℤ))] [0, 1]
      (by decide) (by decide) 0).1⟩


/-! ## Claim C7 -/

/-- Reachability along one or more `cleftN` links. -/
inductive CPath (st : RState) : ℕ → ℕ → Prop
  | base (i v : ℕ) : v ∈ (st.blk i).cleftN → CPath st i v
  | step (i w v : ℕ) : CPath st i w → v ∈ (st.blk w).cleftN → CPath st i v

theorem CPath_append {st : RState} {a w v : ℕ}
    (h1 : CPath st a w) (h2 : CPath st w v) : CPath st a v := by
  induction h2 with
  | base _ hm => exact CPath.step _ _ _ h1 hm
  | step _ _ _ hm ih => exact CPath.step _ _ _ ih hm

/-- Options of the C7/C8 counterexamples (all defaults, zero tolerances). -/
def oPlain : Opts := ⟨0, 1, true, 0, 100, 1, false⟩

/-- Input of the C7 counterexample. -/
def inpC7 : Input := [((0:ℤ),(10:ℤ)), ((5:ℤ),(100:ℤ)), ((12:ℤ),(70:ℤ)), ((50:ℤ),(60:ℤ))]

/-- C7, counterexample: on `[(0,10),(5,100),(12,70),(50,60)]` with zero
tolerances, block 0 is `cleftN`-reachable from block 3 (via block 1), but
block 0 is not in `leftN` of block 3 — they do not even overlap in time —
so the reachability closure of `cleftN` is strictly larger than `leftN`. -/
theorem C7_counterexample :
    ValidInput inpC7 ∧
    IsStartOrder (initState inpC7) [0, 1, 2, 3] ∧
    CPath (preSeed oPlain inpC7 [0, 1, 2, 3]) 3 0 ∧
    0 ∉ ((preSeed oPlain inpC7 [0, 1, 2, 3]).blk 3).leftN := by
  refine ⟨by decide, by decide, ?_, by decide⟩
  exact CPath.step 3 1 0 (CPath.base 3 1 (by decide)) (by decide)

/-- Position of `x` in a list (length of the list if absent). -/
def posOf (x : ℕ) : List ℕ → ℕ
  | [] => 0
  | y :: t => if y = x then 0 else posOf x t + 1

theorem posOf_lt_length {x : ℕ} : ∀ {ord : List ℕ}, x ∈ ord → posOf x ord < ord.length := by
  intro ord
  induction ord with
  | nil => intro h; cases h
  | cons y t ih =>
      intro h
      unfold posOf
      by_cases hyx : y = x
      · simp [hyx]
      · rw [if_neg hyx]
        have hxt : x ∈ t := by
          rcases List.mem_cons.1 h with h1 | h2
          · exact absurd h1.symm hyx
          · exact h2
        simpa using ih hxt

/-- In a duplicate-free order, the earlier member of a pair sublist has the
smaller position. -/
theorem pair_sublist_posOf {e l : ℕ} :
    ∀ {ord : List ℕ}, ord.Nodup → [e, l].Sublist ord →
      posOf e ord < posOf l ord := by
  intro ord
  induction ord with
  | nil => intro _ h; cases h
  | cons x t ih =>
      intro hnd hsub
      rcases pair_sublist_cons.1 hsub with ⟨rfl, hl⟩ | hsub'
      · have hlx : e ≠ l := by
          rintro rfl
          exact (List.nodup_cons.1 hnd).1 hl
        unfold posOf
        rw [if_pos rfl, if_neg hlx]
        exact Nat.succ_pos _
      · have het : e ∈ t := hsub'.subset (List.mem_cons_self _ _)
        have hlt : l ∈ t := hsub'.subset (by simp)
        have hex : x ≠ e := by
          rintro rfl
          exact (List.nodup_cons.1 hnd).1 het
        have hlx : x ≠ l := by
          rintro rfl
          exact (List.nodup_cons.1 hnd).1 hlt
        unfold posOf
        rw [if_neg hex, if_neg hlx]
        exact Nat.succ_lt_succ (ih (List.nodup_cons.1 hnd).2 hsub')

/-- Position-based measure along the scan order: lexicographic in
(depth, reverse position), packed into one natural number. -/
def scanMeasure (st : RState) (ord : List ℕ) (x : ℕ) : ℕ :=
  (st.blk x).depth * ord.length + (ord.length - 1 - posOf x ord)

/-- A `leftN` member has strictly smaller scan measure than its owner. -/
theorem leftN_scanMeasure_lt (o : Opts) (inp : Input) (ord : List ℕ)
    (hord : IsStartOrder (initState inp) ord) {a b : ℕ}
    (h : b ∈ ((stS2 o inp ord).blk a).leftN) :
    scanMeasure (stS2 o inp ord) ord b < scanMeasure (stS2 o inp ord) ord a := by
  obtain ⟨e, l, ⟨hsub, _⟩, hput⟩ := ((stS2_adj_iff o inp ord hord a b).2.2).1 h
  have hsube : e ∈ ord := hsub.subset (List.mem_cons_self _ _)
  have hsubl : l ∈ ord := hsub.subset (by simp)
  have hie : posOf e ord < ord.length := posOf_lt_length hsube
  have hil : posOf l ord < ord.length := posOf_lt_length hsubl
  have hidx : posOf e ord < posOf l ord :=
    pair_sublist_posOf (ord_nodup hord) hsub
  have hdep : ∀ i, ((stS2 o inp ord).blk i).depth = ((afterS1 o inp ord).1.blk i).depth :=
    fun i => adjOuter_blkP (fun b => b.depth) (fun _ _ _ => rfl) o.dfsTolerance ord
      (afterS1 o inp ord).1 i
  unfold scanMeasure
  rw [hdep a, hdep b]
  rcases hput with ⟨hd, ha1, hb1⟩ | ⟨hd, ha1, hb1⟩ <;> rw [ha1, hb1]
  · -- member is e (strictly lower depth), owner is l
    have h1 : ((afterS1 o inp ord).1.blk e).depth + 1
        ≤ ((afterS1 o inp ord).1.blk l).depth := hd
    have hmul : ((afterS1 o inp ord).1.blk e).depth * ord.length + ord.length
        ≤ ((afterS1 o inp ord).1.blk l).depth * ord.length := by
      calc ((afterS1 o inp ord).1.blk e).depth * ord.length + ord.length
          = (((afterS1 o inp ord).1.blk e).depth + 1) * ord.length := by ring
        _ ≤ ((afterS1 o inp ord).1.blk l).depth * ord.length :=
            Nat.mul_le_mul_right _ h1
    omega
  · -- member is l (later in scan), owner is e, depth l ≤ depth e
    rcases Nat.lt_or_ge ((afterS1 o inp ord).1.blk l).depth
      ((afterS1 o inp ord).1.blk e).depth with hlt | hge
    · have h1 : ((afterS1 o inp ord).1.blk l).depth + 1
          ≤ ((afterS1 o inp ord).1.blk e).depth := hlt
      have hmul : ((afterS1 o inp ord).1.blk l).depth * ord.length + ord.length
          ≤ ((afterS1 o inp ord).1.blk e).depth * ord.length := by
        calc ((afterS1 o inp ord).1.blk l).depth * ord.length + ord.length
            = (((afterS1 o inp ord).1.blk l).depth + 1) * ord.length := by ring
          _ ≤ ((afterS1 o inp ord).1.blk e).depth * ord.length :=
              Nat.mul_le_mul_right _ h1
      omega
    · have heq : ((afterS1 o inp ord).1.blk l).depth
          = ((afterS1 o inp ord).1.blk e).depth := by omega
      rw [heq]
      have hlt2 : ord.length - 1 - posOf l ord < ord.length - 1 - posOf e ord := by omega
      exact Nat.add_lt_add_left hlt2 _

/-- After condensation, `cleftN(b) ⊆ leftN(b)` and every member of
`leftN(b)` is reachable from `b` along one or more `cleftN` links. -/
theorem preSeed_adj (o : Opts) (inp : Input) (ord : List ℕ)
    (hord : IsStartOrder (initState inp) ord) :
    (∀ a v, v ∈ ((preSeed o inp ord).blk a).cleftN →
      v ∈ ((preSeed o inp ord).blk a).leftN) ∧
    ∀ a v, v ∈ ((preSeed o inp ord).blk a).leftN →
      CPath (preSeed o inp ord) a v := by
  have hL := fun i => (condense_keeps (stS2 o inp ord) i).1
  have hn2 : (stS2 o inp ord).n = inp.length := by
    show (adjOuter o.dfsTolerance (afterS1 o inp ord).1 ord).n = inp.length
    rw [adjOuter_n]
    show ((stageS1 o (initState inp) ord).1).n = inp.length
    rw [stageS1_n]
    rfl
  constructor
  · intro a v hv
    by_cases ha : a < inp.length
    · exact ((condense_char o inp ord hord ha v).2.1).1 hv |>.1
    · exfalso
      have hpre : ((preSeed o inp ord).blk a).cleftN = ((stS2 o inp ord).blk a).cleftN := by
        rw [preSeed_eq]
        unfold condenseAdjList
        dsimp only
        rw [if_neg (by rw [hn2]; exact ha)]
      rw [hpre] at hv
      have hcl : ((stS2 o inp ord).blk a).cleftN = [] :=
        (adjOuter_blkP (fun b => b.cleftN) (fun _ _ _ => rfl) o.dfsTolerance ord
          (afterS1 o inp ord).1 a).trans (afterS1_adjEmpty o inp ord a).2.2.1
      rw [hcl] at hv
      cases hv
  · have main : ∀ (k a v : ℕ),
        v ∈ ((stS2 o inp ord).blk a).leftN →
        scanMeasure (stS2 o inp ord) ord a - scanMeasure (stS2 o inp ord) ord v ≤ k →
        CPath (preSeed o inp ord) a v := by
      intro k
      induction k using Nat.strong_induction_on with
      | _ k ih =>
          intro a v hv hk
          have ha : a < inp.length := (mem_leftN_lt o inp ord hord hv).1
          by_cases hc : v ∈ ((preSeed o inp ord).blk a).cleftN
          · exact CPath.base _ _ hc
          · have hchar := (condense_char o inp ord hord ha v).1
            have hv' : v ∈ ((preSeed o inp ord).blk a).leftN := by
              rw [preSeed_eq, hL a]
              exact hv
            have hex : ∃ w ∈ ((preSeed o inp ord).blk a).leftN, w ≠ v ∧
                v ∈ ((preSeed o inp ord).blk w).leftN := by
              by_contra hno
              push_neg at hno
              exact hc (hchar.2 ⟨hv', fun w hw hne hvm => hno w hw hne hvm⟩)
            obtain ⟨w, hw, _, hvw⟩ := hex
            rw [preSeed_eq, hL] at hw hvw
            have hm1 := leftN_scanMeasure_lt o inp ord hord hw
            have hm2 := leftN_scanMeasure_lt o inp ord hord hvw
            have hm3 := leftN_scanMeasure_lt o inp ord hord hv
            have h1 : CPath (preSeed o inp ord) a w :=
              ih (scanMeasure (stS2 o inp ord) ord a - scanMeasure (stS2 o inp ord) ord w)
                (by omega) a w hw (le_refl _)
            have h2 : CPath (preSeed o inp ord) w v :=
              ih (scanMeasure (stS2 o inp ord) ord w - scanMeasure (stS2 o inp ord) ord v)
                (by omega) w v hvw (le_refl _)
            exact CPath_append h1 h2
    intro a v hv
    rw [preSeed_eq, hL] at hv
    exact main (scanMeasure (stS2 o inp ord) ord a - scanMeasure (stS2 o inp ord) ord v)
      a v hv (le_refl _)

/-- C7 (amended): `cleftN(b) ⊆ leftN(b)`, and every member of `leftN(b)` is
reachable from `b` along one or more `cleftN` links; the reverse inclusion
(every reachable block a member of `leftN(b)`) does not hold in general. -/
theorem C7_amended (o : Opts) (inp : Input) (ord : List ℕ)
    (hord : IsStartOrder (initState inp) ord) :
    (∀ a v, v ∈ ((preSeed o inp ord).blk a).cleftN →
      v ∈ ((preSeed o inp ord).blk a).leftN) ∧
    ∀ a v, v ∈ ((preSeed o inp ord).blk a).leftN →
      CPath (preSeed o inp ord) a v :=
  preSeed_adj o inp ord hord

/-- Witness for `C7_amended` at `[(0,60),(30,90)]`. -/
theorem C7_witness :
    IsStartOrder (initState [((0:ℤ),(60:ℤ)), ((30:ℤ),(90:ℤ))]) [0, 1] ∧
    ((∀ a v, v ∈ ((preSeed ⟨0, 1, true, 0, 100, 1, false⟩
        [((0:ℤ),(60:ℤ)), ((30:ℤ),(90:ℤ))] [0, 1]).blk a).cleftN →
      v ∈ ((preSeed ⟨0, 1, true, 0, 100, 1, false⟩
        [((0:ℤ),(60:ℤ)), ((30:ℤ),(90:ℤ))] [0, 1]).blk a).leftN) ∧
    ∀ a v, v ∈ ((preSeed ⟨0, 1, true, 0, 100, 1, false⟩
        [((0:ℤ),(60:ℤ)), ((30:ℤ),(90:ℤ))] [0, 1]).blk a).leftN →
      CPath (preSeed ⟨0, 1, true, 0, 100, 1, false⟩
        [((0:ℤ),(60:ℤ)), ((30:ℤ),(90:ℤ))] [0, 1]) a v) :=
  ⟨by decide,
    C7_amended ⟨0, 1, true, 0, 100, 1, false⟩ [((0:ℤ),(60:ℤ)), ((30:ℤ),(90:ℤ))] [0, 1]
      (by decide)⟩


/-! ## Stage S4 characterization (claim C8) -/

theorem seedLoop_zero (st : RState) (stack : List ℕ) (m : ℕ) :
    seedLoop 0 st stack m = st := rfl

theorem seedLoop_nil (fuel : ℕ) (st : RState) (m : ℕ) :
    seedLoop (fuel + 1) st [] m = st := rfl

theorem seedLoop_cons (fuel : ℕ) (st : RState) (u : ℕ) (rest : List ℕ) (m : ℕ) :
    seedLoop (fuel + 1) st (u :: rest) m =
      if u < st.n ∧ (st.blk u).visited = false then
        seedLoop fuel (markSeed st u m)
          ((((st.blk u).cleftN.filter
              (fun v => !((markSeed st u m).blk v).visited)).reverse) ++ rest) m
      else seedLoop fuel st rest m := rfl

theorem markSeed_cleftN (st : RState) (u m j : ℕ) :
    ((markSeed st u m).blk j).cleftN = (st.blk j).cleftN := by
  by_cases hj : j = u
  · subst hj; simp [markSeed]
  · simp only [markSeed]; rw [modB_blk_other st u _ hj]

/-- The stage-S4 DFS loop only turns `visited` on and sets the turned-on
blocks' `pathDepth` to `m`; every other field of every block is kept, and
a changed block was unvisited beforehand and lies in the array. -/
theorem seedLoop_blk (m : ℕ) :
    ∀ (fuel : ℕ) (st : RState) (stack : List ℕ) (j : ℕ),
      (seedLoop fuel st stack m).blk j = st.blk j ∨
      ((st.blk j).visited = false ∧ j < st.n ∧
        (seedLoop fuel st stack m).blk j =
          { st.blk j with visited := true, pathDepth := m }) := by
  intro fuel
  induction fuel with
  | zero => intro st stack j; exact Or.inl rfl
  | succ fuel ih =>
      intro st stack j
      match stack with
      | [] => exact Or.inl rfl
      | u :: rest =>
          rw [seedLoop_cons]
          by_cases hg : u < st.n ∧ (st.blk u).visited = false
          · rw [if_pos hg]
            rcases ih (markSeed st u m)
                ((((st.blk u).cleftN.filter
                    (fun v => !((markSeed st u m).blk v).visited)).reverse) ++ rest) j
              with h | ⟨hv, hjn, h⟩
            · rw [h]
              by_cases hj : j = u
              · subst hj
                right
                refine ⟨hg.2, hg.1, ?_⟩
                simp [markSeed]
              · left
                simp only [markSeed]
                exact modB_blk_other st u _ hj
            · by_cases hj : j = u
              · exfalso
                subst hj
                simp [markSeed] at hv
              · simp only [markSeed, modB_blk_other st u _ hj] at hv h
                exact Or.inr ⟨hv, by simpa using hjn, h⟩
          · rw [if_neg hg]
            exact ih st rest j

/-- A visited block stays visited through the DFS loop. -/
theorem seedLoop_mono (m fuel : ℕ) (st : RState) (stack : List ℕ) {j : ℕ}
    (h : (st.blk j).visited = true) :
    ((seedLoop fuel st stack m).blk j).visited = true := by
  rcases seedLoop_blk m fuel st stack j with h' | ⟨hv, _, _⟩
  · rw [h']; exact h
  · rw [h] at hv; exact absurd hv (by simp)

theorem seedLoop_depth (m fuel : ℕ) (st : RState) (stack : List ℕ) (j : ℕ) :
    ((seedLoop fuel st stack m).blk j).depth = (st.blk j).depth := by
  rcases seedLoop_blk m fuel st stack j with h' | ⟨_, _, h'⟩ <;> rw [h']

theorem seedLoop_cleftN (m fuel : ℕ) (st : RState) (stack : List ℕ) (j : ℕ) :
    ((seedLoop fuel st stack m).blk j).cleftN = (st.blk j).cleftN := by
  rcases seedLoop_blk m fuel st stack j with h' | ⟨_, _, h'⟩ <;> rw [h']

theorem seedLoop_n (m : ℕ) :
    ∀ (fuel : ℕ) (st : RState) (stack : List ℕ), (seedLoop fuel st stack m).n = st.n := by
  intro fuel
  induction fuel with
  | zero => intro st stack; rfl
  | succ fuel ih =>
      intro st stack
      match stack with
      | [] => rfl
      | u :: rest =>
          rw [seedLoop_cons]
          by_cases hg : u < st.n ∧ (st.blk u).visited = false
          · rw [if_pos hg, ih]; rfl
          · rw [if_neg hg, ih]

/-- The part of `cleftSizeSum` still chargeable: total `cleftN` length over
the unvisited blocks. Fuel-accounting measure for the DFS loop. -/
def unvisitedCleftSum (st : RState) : ℕ :=
  ∑ i ∈ (Finset.range st.n).filter (fun i => (st.blk i).visited = false),
    ((st.blk i).cleftN).length

theorem listSum_range (f : ℕ → ℕ) :
    ∀ n : ℕ, ((List.range n).map f).sum = ∑ i ∈ Finset.range n, f i := by
  intro n
  induction n with
  | zero => rfl
  | succ n ih =>
      rw [List.range_succ, List.map_append, List.sum_append, Finset.sum_range_succ, ih]
      simp

theorem unvisitedCleftSum_le (st : RState) : unvisitedCleftSum st ≤ cleftSizeSum st := by
  unfold unvisitedCleftSum cleftSizeSum
  rw [listSum_range]
  exact Finset.sum_le_sum_of_subset (Finset.filter_subset _ _)

/-- Marking an unvisited block removes exactly its `cleftN` length from the
unvisited charge. -/
theorem markSeed_ucs (st : RState) {u : ℕ} (m : ℕ) (hu : u < st.n)
    (hv : (st.blk u).visited = false) :
    unvisitedCleftSum (markSeed st u m) + ((st.blk u).cleftN).length
      = unvisitedCleftSum st := by
  unfold unvisitedCleftSum
  have hn : (markSeed st u m).n = st.n := rfl
  rw [hn]
  have hset : (Finset.range st.n).filter
        (fun i => ((markSeed st u m).blk i).visited = false)
      = ((Finset.range st.n).filter (fun i => (st.blk i).visited = false)).erase u := by
    ext i
    simp only [Finset.mem_erase, Finset.mem_filter, Finset.mem_range]
    constructor
    · rintro ⟨hi, hvi⟩
      by_cases hiu : i = u
      · subst hiu; simp [markSeed] at hvi
      · simp only [markSeed, modB_blk_other st u _ hiu] at hvi
        exact ⟨hiu, hi, hvi⟩
    · rintro ⟨hiu, hi, hvi⟩
      refine ⟨hi, ?_⟩
      simp only [markSeed]
      rw [modB_blk_other st u _ hiu]
      exact hvi
  rw [hset]
  have hu' : u ∈ (Finset.range st.n).filter (fun i => (st.blk i).visited = false) := by
    simp only [Finset.mem_filter, Finset.mem_range]; exact ⟨hu, hv⟩
  have hcongr :
      (∑ i ∈ ((Finset.range st.n).filter (fun i => (st.blk i).visited = false)).erase u,
        (((markSeed st u m).blk i).cleftN).length)
      = ∑ i ∈ ((Finset.range st.n).filter (fun i => (st.blk i).visited = false)).erase u,
        ((st.blk i).cleftN).length :=
    Finset.sum_congr rfl (fun i hi => by
      have hiu : i ≠ u := (Finset.mem_erase.1 hi).1
      simp only [markSeed]
      rw [modB_blk_other st u _ hiu])
  rw [hcongr]
  exact Finset.sum_erase_add _ _ hu'

/-- With enough fuel, every in-array stack entry ends up visited. -/
theorem seedLoop_visits (m : ℕ) :
    ∀ (fuel : ℕ) (st : RState) (stack : List ℕ),
      stack.length + unvisitedCleftSum st ≤ fuel →
      ∀ u ∈ stack, u < st.n → ((seedLoop fuel st stack m).blk u).visited = true := by
  intro fuel
  induction fuel with
  | zero =>
      intro st stack hfuel u hu _
      have hlen : stack.length = 0 := by omega
      rw [List.length_eq_zero] at hlen
      subst hlen
      exact absurd hu (List.not_mem_nil u)
  | succ fuel ih =>
      intro st stack hfuel u hu hun
      match stack with
      | [] => exact absurd hu (List.not_mem_nil u)
      | u₀ :: rest =>
          rw [seedLoop_cons]
          by_cases hg : u₀ < st.n ∧ (st.blk u₀).visited = false
          · rw [if_pos hg]
            have hucs := markSeed_ucs st m hg.1 hg.2
            have hflt := List.length_filter_le
              (fun v => !((markSeed st u₀ m).blk v).visited) (st.blk u₀).cleftN
            have hfuel' :
                ((((st.blk u₀).cleftN.filter
                    (fun v => !((markSeed st u₀ m).blk v).visited)).reverse) ++ rest).length
                  + unvisitedCleftSum (markSeed st u₀ m) ≤ fuel := by
              rw [List.length_append, List.length_reverse]
              simp only [List.length_cons] at hfuel
              omega
            rcases List.mem_cons.1 hu with h | h
            · subst h
              exact seedLoop_mono m fuel (markSeed st u m) _ (by simp [markSeed])
            · exact ih (markSeed st u₀ m) _ hfuel' u
                (List.mem_append.2 (Or.inr h)) hun
          · rw [if_neg hg]
            have hfuel' : rest.length + unvisitedCleftSum st ≤ fuel := by
              simp only [List.length_cons] at hfuel
              omega
            rcases List.mem_cons.1 hu with h | h
            · subst h
              have hvt : (st.blk u).visited = true := by
                by_contra hc
                exact hg ⟨hun, by simpa using hc⟩
              exact seedLoop_mono m fuel st rest hvt
            · exact ih st rest hfuel' u h hun

/-- With enough fuel and in-array `cleftN` lists, every block marked by the
DFS loop has all its `cleftN` neighbors visited in the final state. -/
theorem seedLoop_closed (m : ℕ) :
    ∀ (fuel : ℕ) (st : RState) (stack : List ℕ),
      stack.length + unvisitedCleftSum st ≤ fuel →
      (∀ w v, v ∈ (st.blk w).cleftN → v < st.n) →
      ∀ w, ((seedLoop fuel st stack m).blk w).visited = true →
        (st.blk w).visited = true ∨
        ∀ v ∈ (st.blk w).cleftN, ((seedLoop fuel st stack m).blk v).visited = true := by
  intro fuel
  induction fuel with
  | zero => intro st stack _ _ w hw; exact Or.inl hw
  | succ fuel ih =>
      intro st stack hfuel hwf w hw
      match stack with
      | [] => exact Or.inl hw
      | u₀ :: rest =>
          rw [seedLoop_cons] at hw ⊢
          by_cases hg : u₀ < st.n ∧ (st.blk u₀).visited = false
          · rw [if_pos hg] at hw ⊢
            have hucs := markSeed_ucs st m hg.1 hg.2
            have hflt := List.length_filter_le
              (fun v => !((markSeed st u₀ m).blk v).visited) (st.blk u₀).cleftN
            have hfuel' :
                ((((st.blk u₀).cleftN.filter
                    (fun v => !((markSeed st u₀ m).blk v).visited)).reverse) ++ rest).length
                  + unvisitedCleftSum (markSeed st u₀ m) ≤ fuel := by
              rw [List.length_append, List.length_reverse]
              simp only [List.length_cons] at hfuel
              omega
            have hwf' : ∀ w' v, v ∈ ((markSeed st u₀ m).blk w').cleftN →
                v < (markSeed st u₀ m).n := by
              intro w' v hv
              rw [markSeed_cleftN] at hv
              exact hwf w' v hv
            by_cases hwv : (st.blk w).visited = true
            · exact Or.inl hwv
            · right
              intro v hv
              by_cases hwu : w = u₀
              · subst hwu
                by_cases hv' : ((markSeed st w m).blk v).visited = true
                · exact seedLoop_mono m fuel (markSeed st w m) _ hv'
                · have hvn : v < st.n := hwf w v hv
                  have hmem : v ∈ (((st.blk w).cleftN.filter
                      (fun v => !((markSeed st w m).blk v).visited)).reverse) ++ rest := by
                    refine List.mem_append.2 (Or.inl ?_)
                    rw [List.mem_reverse, List.mem_filter]
                    exact ⟨hv, by simpa using hv'⟩
                  exact seedLoop_visits m fuel (markSeed st w m) _ hfuel' v hmem hvn
              · have hwb : (markSeed st u₀ m).blk w = st.blk w := by
                  simp only [markSeed]
                  exact modB_blk_other st u₀ _ hwu
                rcases ih (markSeed st u₀ m) _ hfuel' hwf' w hw with hl | hr
                · rw [hwb] at hl
                  exact absurd hl hwv
                · rw [hwb] at hr
                  exact hr v hv
          · rw [if_neg hg] at hw ⊢
            have hfuel' : rest.length + unvisitedCleftSum st ≤ fuel := by
              simp only [List.length_cons] at hfuel
              omega
            exact ih st rest hfuel' hwf w hw



theorem seedRoots_nil (st : RState) : seedRoots st [] = st := rfl

theorem seedRoots_cons (st : RState) (r : ℕ) (rest : List ℕ) :
    seedRoots st (r :: rest) =
      if (st.blk r).visited then seedRoots st rest
      else seedRoots
        (seedLoop (cleftSizeSum st + 2) st [r] ((st.blk r).depth + 1)) rest := rfl

theorem seedRoots_n : ∀ (rest : List ℕ) (st : RState), (seedRoots st rest).n = st.n := by
  intro rest
  induction rest with
  | nil => intro st; rfl
  | cons r rest' ih =>
      intro st
      rw [seedRoots_cons]
      split
      · exact ih st
      · rw [ih, seedLoop_n]

/-- After stage S2, every `cleftN` list is still empty (S2 writes only
`leftN`, `rightN` and the matrix). -/
theorem stS2_cleftN (o : Opts) (inp : Input) (ord : List ℕ) (i : ℕ) :
    ((stS2 o inp ord).blk i).cleftN = [] :=
  calc ((stS2 o inp ord).blk i).cleftN
      = (((afterS1 o inp ord).1).blk i).cleftN :=
        adjOuter_blkP (fun b => b.cleftN) (fun _ _ _ => rfl) o.dfsTolerance ord _ i
    _ = ((initState inp).blk i).cleftN :=
        stageS1_blkP (fun b => b.cleftN) (fun _ _ => rfl) o (initState inp) ord i
    _ = [] := rfl

/-- All `visited` flags are still clear when stage S4 starts. -/
theorem preSeed_visited (o : Opts) (inp : Input) (ord : List ℕ) (i : ℕ) :
    ((preSeed o inp ord).blk i).visited = false :=
  calc ((preSeed o inp ord).blk i).visited
      = ((stS2 o inp ord).blk i).visited :=
        condense_blkP (fun b => b.visited) (fun _ _ _ => rfl) _ i
    _ = (((afterS1 o inp ord).1).blk i).visited :=
        adjOuter_blkP (fun b => b.visited) (fun _ _ _ => rfl) o.dfsTolerance ord _ i
    _ = ((initState inp).blk i).visited :=
        stageS1_blkP (fun b => b.visited) (fun _ _ => rfl) o (initState inp) ord i
    _ = false := rfl

theorem preSeed_n (o : Opts) (inp : Input) (ord : List ℕ) :
    (preSeed o inp ord).n = inp.length :=
  calc (preSeed o inp ord).n
      = (stS2 o inp ord).n := condense_n _
    _ = ((afterS1 o inp ord).1).n := adjOuter_n o.dfsTolerance ord _
    _ = (initState inp).n := stageS1_n o (initState inp) ord
    _ = inp.length := rfl

/-- Stage-S3 `cleftN` members lie in the array. -/
theorem preSeed_cleftN_lt (o : Opts) (inp : Input) (ord : List ℕ)
    (hord : IsStartOrder (initState inp) ord) :
    ∀ w v, v ∈ ((preSeed o inp ord).blk w).cleftN → v < (preSeed o inp ord).n := by
  intro w v hv
  rw [preSeed_n]
  rw [preSeed_eq] at hv
  by_cases hw : w < (stS2 o inp ord).n
  · have := (condense_mem_cleftN (stS2 o inp ord) hw v).1 hv
    exact (mem_leftN_lt o inp ord hord this.1).2
  · have hkeep : ((condenseAdjList (stS2 o inp ord)).blk w).cleftN
        = ((stS2 o inp ord).blk w).cleftN := by
      unfold condenseAdjList
      dsimp only
      rw [if_neg hw]
    rw [hkeep, stS2_cleftN] at hv
    exact absurd hv (List.not_mem_nil v)

/-- The root loop of stage S4, characterized. Under the invariants — in-array
`cleftN` lists and roots, depth-descending root list covering every unvisited
block, and visited blocks already closed (all `cleftN` neighbors visited with
pathDepth at least the owner's) with `pathDepth` dominating every remaining
root's depth + 1 — the loop (1) changes a block only by marking it visited
with `pathDepth = depth r + 1` for some root `r` whose depth dominates the
block's, (2) visits every in-array block, and (3) closes every visited block:
its `cleftN` neighbors are visited with `pathDepth` at least the owner's. -/
theorem seedRoots_spec :
    ∀ (rest : List ℕ) (st : RState),
      (∀ w v, v ∈ (st.blk w).cleftN → v < st.n) →
      (∀ r ∈ rest, r < st.n) →
      rest.Pairwise (fun a b => (st.blk b).depth ≤ (st.blk a).depth) →
      (∀ j, j < st.n → (st.blk j).visited = false → j ∈ rest) →
      (∀ w, (st.blk w).visited = true →
        ∀ v ∈ (st.blk w).cleftN, (st.blk v).visited = true ∧
          (st.blk w).pathDepth ≤ (st.blk v).pathDepth) →
      (∀ w, (st.blk w).visited = true → ∀ r ∈ rest,
        (st.blk r).depth + 1 ≤ (st.blk w).pathDepth) →
      (∀ j, (seedRoots st rest).blk j = st.blk j ∨
          ∃ r ∈ rest, (st.blk j).visited = false ∧ j < st.n ∧
            (st.blk j).depth ≤ (st.blk r).depth ∧
            (seedRoots st rest).blk j =
              { st.blk j with visited := true, pathDepth := (st.blk r).depth + 1 }) ∧
      (∀ j, j < st.n → ((seedRoots st rest).blk j).visited = true) ∧
      (∀ w, ((seedRoots st rest).blk w).visited = true →
        ∀ v ∈ (st.blk w).cleftN, ((seedRoots st rest).blk v).visited = true ∧
          ((seedRoots st rest).blk w).pathDepth ≤ ((seedRoots st rest).blk v).pathDepth) := by
  intro rest
  induction rest with
  | nil =>
      intro st _ _ _ hcov hK _
      refine ⟨fun j => Or.inl rfl, ?_, ?_⟩
      · intro j hj
        by_contra hc
        have hf : (st.blk j).visited = false := by simpa using hc
        exact absurd (hcov j hj hf) (List.not_mem_nil j)
      · intro w hw v hv
        exact hK w hw v hv
  | cons r rest' ih =>
      intro st hwf hlt hdesc hcov hK hpdge
      rw [seedRoots_cons]
      by_cases hvr : (st.blk r).visited = true
      · rw [if_pos hvr]
        have hcov' : ∀ j, j < st.n → (st.blk j).visited = false → j ∈ rest' := by
          intro j hj hf
          rcases List.mem_cons.1 (hcov j hj hf) with h | h
          · subst h; rw [hvr] at hf; exact absurd hf (by simp)
          · exact h
        have hpdge' : ∀ w, (st.blk w).visited = true → ∀ r' ∈ rest',
            (st.blk r').depth + 1 ≤ (st.blk w).pathDepth :=
          fun w hw r' hr' => hpdge w hw r' (List.mem_cons.2 (Or.inr hr'))
        obtain ⟨ih1, ih2, ih3⟩ := ih st hwf
          (fun r' hr' => hlt r' (List.mem_cons.2 (Or.inr hr')))
          (List.pairwise_cons.1 hdesc).2 hcov' hK hpdge'
        refine ⟨?_, ih2, ih3⟩
        intro j
        rcases ih1 j with h | ⟨r', hr', h⟩
        · exact Or.inl h
        · exact Or.inr ⟨r', List.mem_cons.2 (Or.inr hr'), h⟩
      · rw [if_neg hvr]
        have hvr' : (st.blk r).visited = false := by simpa using hvr
        have hrn : r < st.n := hlt r (List.mem_cons_self r rest')
        have hfuel : ([r] : List ℕ).length + unvisitedCleftSum st ≤ cleftSizeSum st + 2 := by
          have := unvisitedCleftSum_le st
          simp only [List.length_cons, List.length_nil]
          omega
        set m := (st.blk r).depth + 1 with hm
        set st₁ := seedLoop (cleftSizeSum st + 2) st [r] m with hst₁
        have hblk : ∀ j, st₁.blk j = st.blk j ∨
            ((st.blk j).visited = false ∧ j < st.n ∧
              st₁.blk j = { st.blk j with visited := true, pathDepth := m }) :=
          fun j => seedLoop_blk m (cleftSizeSum st + 2) st [r] j
        have hn₁ : st₁.n = st.n := seedLoop_n m (cleftSizeSum st + 2) st [r]
        have hdep₁ : ∀ j, (st₁.blk j).depth = (st.blk j).depth :=
          fun j => seedLoop_depth m (cleftSizeSum st + 2) st [r] j
        have hcl₁ : ∀ j, (st₁.blk j).cleftN = (st.blk j).cleftN :=
          fun j => seedLoop_cleftN m (cleftSizeSum st + 2) st [r] j
        have hmono : ∀ j, (st.blk j).visited = true → (st₁.blk j).visited = true :=
          fun j hj => seedLoop_mono m (cleftSizeSum st + 2) st [r] hj
        have hunv₁ : ∀ j, (st₁.blk j).visited = false → (st.blk j).visited = false := by
          intro j hj
          by_contra hc
          rw [hmono j (by simpa using hc)] at hj
          exact absurd hj (by simp)
        have hrvis : (st₁.blk r).visited = true :=
          seedLoop_visits m (cleftSizeSum st + 2) st [r] hfuel r
            (List.mem_cons_self r []) hrn
        have hwf₁ : ∀ w v, v ∈ (st₁.blk w).cleftN → v < st₁.n := by
          intro w v hv
          rw [hcl₁] at hv
          rw [hn₁]
          exact hwf w v hv
        have hlt₁ : ∀ r' ∈ rest', r' < st₁.n := by
          intro r' hr'
          rw [hn₁]
          exact hlt r' (List.mem_cons.2 (Or.inr hr'))
        have hdesc₁ : rest'.Pairwise (fun a b => (st₁.blk b).depth ≤ (st₁.blk a).depth) := by
          refine ((List.pairwise_cons.1 hdesc).2).imp ?_
          intro a b h
          rw [hdep₁, hdep₁]
          exact h
        have hcov₁ : ∀ j, j < st₁.n → (st₁.blk j).visited = false → j ∈ rest' := by
          intro j hj hf
          have hf0 : (st.blk j).visited = false := hunv₁ j hf
          rcases List.mem_cons.1 (hcov j (by rw [hn₁] at hj; exact hj) hf0) with h | h
          · subst h; rw [hrvis] at hf; exact absurd hf (by simp)
          · exact h
        have hK₁ : ∀ w, (st₁.blk w).visited = true →
            ∀ v ∈ (st₁.blk w).cleftN, (st₁.blk v).visited = true ∧
              (st₁.blk w).pathDepth ≤ (st₁.blk v).pathDepth := by
          intro w hw v hv
          rw [hcl₁] at hv
          by_cases hwv : (st.blk w).visited = true
          · have hwb : st₁.blk w = st.blk w := by
              rcases hblk w with h | ⟨hf, _, _⟩
              · exact h
              · rw [hwv] at hf; exact absurd hf (by simp)
            obtain ⟨hvv, hpd⟩ := hK w hwv v hv
            have hvb : st₁.blk v = st.blk v := by
              rcases hblk v with h | ⟨hf, _, _⟩
              · exact h
              · rw [hvv] at hf; exact absurd hf (by simp)
            rw [hwb, hvb]
            exact ⟨hvv, hpd⟩
          · have hwf0 : (st.blk w).visited = false := by simpa using hwv
            have hwm : st₁.blk w = { st.blk w with visited := true, pathDepth := m } := by
              rcases hblk w with h | ⟨_, _, h⟩
              · rw [h] at hw; rw [hwf0] at hw; exact absurd hw (by simp)
              · exact h
            rcases seedLoop_closed m (cleftSizeSum st + 2) st [r] hfuel hwf w hw
              with h | hclose
            · exact absurd h hwv
            · have hvv : (st₁.blk v).visited = true := hclose v hv
              refine ⟨hvv, ?_⟩
              rw [hwm]
              rcases hblk v with h | ⟨_, _, h⟩
              · rw [h] at hvv ⊢
                exact hpdge v hvv r (List.mem_cons_self r rest')
              · rw [h]
        have hpdge₁ : ∀ w, (st₁.blk w).visited = true → ∀ r' ∈ rest',
            (st₁.blk r').depth + 1 ≤ (st₁.blk w).pathDepth := by
          intro w hw r' hr'
          rw [hdep₁]
          by_cases hwv : (st.blk w).visited = true
          · have hwb : st₁.blk w = st.blk w := by
              rcases hblk w with h | ⟨hf, _, _⟩
              · exact h
              · rw [hwv] at hf; exact absurd hf (by simp)
            rw [hwb]
            exact hpdge w hwv r' (List.mem_cons.2 (Or.inr hr'))
          · have hwf0 : (st.blk w).visited = false := by simpa using hwv
            have hwm : st₁.blk w = { st.blk w with visited := true, pathDepth := m } := by
              rcases hblk w with h | ⟨_, _, h⟩
              · rw [h] at hw; rw [hwf0] at hw; exact absurd hw (by simp)
              · exact h
            rw [hwm]
            have hle : (st.blk r').depth ≤ (st.blk r).depth :=
              (List.pairwise_cons.1 hdesc).1 r' hr'
            show (st.blk r').depth + 1 ≤ m
            omega
        obtain ⟨ih1, ih2, ih3⟩ := ih st₁ hwf₁ hlt₁ hdesc₁ hcov₁ hK₁ hpdge₁
        refine ⟨?_, ?_, ?_⟩
        · intro j
          rcases ih1 j with h | ⟨r', hr', hv₁, hjn₁, hd₁, hform₁⟩
          · rw [h]
            rcases hblk j with h' | ⟨hf, hjn, h'⟩
            · exact Or.inl h'
            · refine Or.inr ⟨r, List.mem_cons_self r rest', hf, hjn, ?_, h'⟩
              rcases List.mem_cons.1 (hcov j hjn hf) with hj | hj
              · subst hj; exact le_refl _
              · exact (List.pairwise_cons.1 hdesc).1 j hj
          · have hv0 : (st.blk j).visited = false := hunv₁ j hv₁
            have hjb : st₁.blk j = st.blk j := by
              rcases hblk j with h | ⟨_, _, h⟩
              · exact h
              · rw [h] at hv₁; exact absurd hv₁ (by simp)
            refine Or.inr ⟨r', List.mem_cons.2 (Or.inr hr'), hv0, by rw [hn₁] at hjn₁; exact hjn₁, ?_, ?_⟩
            · rw [hjb, hdep₁] at hd₁; exact hd₁
            · rw [hjb, hdep₁] at hform₁; exact hform₁
        · intro j hj
          exact ih2 j (by rw [hn₁]; exact hj)
        · intro w hw v hv
          have hv₁ : v ∈ (st₁.blk w).cleftN := by rw [hcl₁]; exact hv
          exact ih3 w hw v hv₁



theorem applyWidths_blk (st : RState) {i : ℕ} (hi : i < st.n) :
    (applyWidths st).blk i =
      { st.blk i with left := ((st.blk i).depth : ℚ) / ((st.blk i).pathDepth : ℚ),
                      width := 1 / ((st.blk i).pathDepth : ℚ) } := by
  unfold applyWidths
  dsimp only
  rw [if_pos hi]

theorem clearVisited_blk (st : RState) {i : ℕ} (hi : i < st.n) :
    (clearVisited st).blk i = { st.blk i with visited := false } := by
  unfold clearVisited
  dsimp only
  rw [if_pos hi]

/-- The stage-S4 output per block, in terms of the seeding result. -/
theorem seedDfs_blk (o : Opts) (inp : Input) (ord ordD : List ℕ) {i : ℕ}
    (hi : i < (preSeed o inp ord).n) :
    (seedDfs o inp ord ordD).blk i =
      { (seedRoots (preSeed o inp ord) ordD).blk i with
          left := (((seedRoots (preSeed o inp ord) ordD).blk i).depth : ℚ)
                  / (((seedRoots (preSeed o inp ord) ordD).blk i).pathDepth : ℚ),
          width := 1 / (((seedRoots (preSeed o inp ord) ordD).blk i).pathDepth : ℚ),
          visited := false } := by
  have hn : (seedRoots (preSeed o inp ord) ordD).n = (preSeed o inp ord).n :=
    seedRoots_n ordD (preSeed o inp ord)
  have hi' : i < (seedRoots (preSeed o inp ord) ordD).n := by rw [hn]; exact hi
  show (clearVisited (applyWidths (seedRoots (preSeed o inp ord) ordD))).blk i = _
  rw [clearVisited_blk _ (show i < (applyWidths (seedRoots (preSeed o inp ord) ordD)).n
        from hi'),
      applyWidths_blk _ hi']

/-- The input of claim C8's counterexample. -/
def inpC8 : Input := [((0:ℤ),(100:ℤ)), ((5:ℤ),(50:ℤ)), ((10:ℤ),(30:ℤ)), ((60:ℤ),(90:ℤ))]

/-- C8 counterexample: on the four blocks (0,100), (5,50), (10,30), (60,90)
with all tolerances 0 and `applyDFS` on, S1 returns total 3 and, for every
valid depth-descending order, block 3 (depth 1) is still unvisited when the
root loop reaches it — it gets `pathDepth = depth 3 + 1 = 2` — and block 0
lies in `cleftN(3)` (so it is reachable from block 3 along `cleftN` edges),
yet block 0 keeps `pathDepth = 3` from the earlier depth-2 root instead of
receiving `pathDepth = 2` as the claim demands. -/
theorem C8_counterexample :
    ValidInput inpC8 ∧ IsStartOrder (initState inpC8) [0,1,2,3] ∧
    oPlain.applyDFS = true ∧ 2 ≤ (afterS1 oPlain inpC8 [0,1,2,3]).2 ∧
    ∀ ordD, IsDepthOrder (preSeed oPlain inpC8 [0,1,2,3]) ordD →
      ((preSeed oPlain inpC8 [0,1,2,3]).blk 3).depth + 1 = 2 ∧
      0 ∈ ((preSeed oPlain inpC8 [0,1,2,3]).blk 3).cleftN ∧
      ((seedDfs oPlain inpC8 [0,1,2,3] ordD).blk 3).pathDepth = 2 ∧
      ((seedDfs oPlain inpC8 [0,1,2,3] ordD).blk 0).pathDepth = 3 := by
  refine ⟨by decide, by decide, rfl, by decide, ?_⟩
  intro ordD h
  have hmem : ordD ∈ permsOf (List.range 4) := mem_permsOf h.1
  have hpin : ∀ l ∈ permsOf (List.range 4),
      IsDepthOrder (preSeed oPlain inpC8 [0,1,2,3]) l → l = [2,1,3,0] ∨ l = [2,3,1,0] := by decide
  rcases hpin ordD hmem h with rfl | rfl
  · exact ⟨by decide, by decide, by decide, by decide⟩
  · exact ⟨by decide, by decide, by decide, by decide⟩

/-- Full description of the stage-S4 output (see `C8_amended`): per in-array
block, the root existential for `pathDepth`, the `depth + 1` lower bound,
monotonicity along `cleftN` edges, the `left`/`width` formulas, the cleared
`visited` flag, and the unchanged `depth`. -/
theorem seedDfs_spec (o : Opts) (inp : Input) (ord ordD : List ℕ)
    (hord : IsStartOrder (initState inp) ord)
    (hordD : IsDepthOrder (preSeed o inp ord) ordD) :
    ∀ i, i < (preSeed o inp ord).n →
      (∃ r ∈ ordD,
        ((preSeed o inp ord).blk i).depth ≤ ((preSeed o inp ord).blk r).depth ∧
        ((seedDfs o inp ord ordD).blk i).pathDepth
          = ((preSeed o inp ord).blk r).depth + 1) ∧
      ((preSeed o inp ord).blk i).depth + 1
        ≤ ((seedDfs o inp ord ordD).blk i).pathDepth ∧
      (∀ v ∈ ((preSeed o inp ord).blk i).cleftN,
        ((seedDfs o inp ord ordD).blk i).pathDepth
          ≤ ((seedDfs o inp ord ordD).blk v).pathDepth) ∧
      ((seedDfs o inp ord ordD).blk i).left =
        (((preSeed o inp ord).blk i).depth : ℚ)
          / (((seedDfs o inp ord ordD).blk i).pathDepth : ℚ) ∧
      ((seedDfs o inp ord ordD).blk i).width =
        1 / (((seedDfs o inp ord ordD).blk i).pathDepth : ℚ) ∧
      ((seedDfs o inp ord ordD).blk i).visited = false ∧
      ((seedDfs o inp ord ordD).blk i).depth = ((preSeed o inp ord).blk i).depth := by
  intro i hi
  obtain ⟨h1, h2, h3⟩ := seedRoots_spec ordD (preSeed o inp ord)
    (preSeed_cleftN_lt o inp ord hord)
    (fun r hr => List.mem_range.1 (hordD.1.subset hr))
    hordD.2
    (fun j hj _ => hordD.1.symm.subset (List.mem_range.2 hj))
    (fun w hw => by rw [preSeed_visited] at hw; exact absurd hw (by simp))
    (fun w hw => by rw [preSeed_visited] at hw; exact absurd hw (by simp))
  have hvisR : ((seedRoots (preSeed o inp ord) ordD).blk i).visited = true := h2 i hi
  rcases h1 i with hsame | ⟨r, hr, hunv, hilt, hdle, hform⟩
  · rw [hsame, preSeed_visited] at hvisR
    exact absurd hvisR (by simp)
  · have hDf := seedDfs_blk o inp ord ordD hi
    have hpdR : ((seedRoots (preSeed o inp ord) ordD).blk i).pathDepth
        = ((preSeed o inp ord).blk r).depth + 1 := by rw [hform]
    have hdepR : ((seedRoots (preSeed o inp ord) ordD).blk i).depth
        = ((preSeed o inp ord).blk i).depth := by rw [hform]
    have hpdF : ((seedDfs o inp ord ordD).blk i).pathDepth
        = ((seedRoots (preSeed o inp ord) ordD).blk i).pathDepth := by rw [hDf]
    have hdepF : ((seedDfs o inp ord ordD).blk i).depth
        = ((seedRoots (preSeed o inp ord) ordD).blk i).depth := by rw [hDf]
    have e1 : ((seedDfs o inp ord ordD).blk i).left =
        (((seedRoots (preSeed o inp ord) ordD).blk i).depth : ℚ)
          / (((seedRoots (preSeed o inp ord) ordD).blk i).pathDepth : ℚ) := by rw [hDf]
    have e2 : ((seedDfs o inp ord ordD).blk i).width =
        1 / (((seedRoots (preSeed o inp ord) ordD).blk i).pathDepth : ℚ) := by rw [hDf]
    have e4 : ((seedDfs o inp ord ordD).blk i).visited = false := by rw [hDf]
    refine ⟨⟨r, hr, hdle, by rw [hpdF, hpdR]⟩, ?_, ?_, ?_, ?_, e4, ?_⟩
    · rw [hpdF, hpdR]
      omega
    · intro v hv
      have hvn : v < (preSeed o inp ord).n := preSeed_cleftN_lt o inp ord hord i v hv
      have hDfv := seedDfs_blk o inp ord ordD hvn
      have hpdFv : ((seedDfs o inp ord ordD).blk v).pathDepth
          = ((seedRoots (preSeed o inp ord) ordD).blk v).pathDepth := by rw [hDfv]
      rw [hpdF, hpdFv]
      exact (h3 i hvisR v hv).2
    · rw [e1, hpdF, hdepR]
    · rw [e2, hpdF]
    · rw [hdepF, hdepR]

/-- C8 (amended): with `applyDFS` on and `total > 1`, stage S4 processes the
blocks in descending depth order, and each still-unvisited block `s` starts
a traversal that marks `pathDepth = s.depth + 1` only on the blocks it
reaches through not-yet-visited blocks; blocks visited by an earlier (no
shallower) root keep that root's value. Consequently every block's
`pathDepth` equals `r.depth + 1` for some root `r` with `r.depth ≥` the
block's depth (in particular `pathDepth ≥ depth + 1`), `pathDepth` is
monotone along `cleftN` edges, every block ends with
`left = depth / pathDepth` and `width = 1 / pathDepth`, the `visited` flags
are all cleared afterwards, and `depth` is unchanged. -/
theorem C8_amended (o : Opts) (inp : Input) (ord ordD : List ℕ)
    (hord : IsStartOrder (initState inp) ord)
    (ht : 2 ≤ (afterS1 o inp ord).2)
    (ha : o.applyDFS = true)
    (hordD : IsDepthOrder (preSeed o inp ord) ordD) :
    ∀ i, i < (preSeed o inp ord).n →
      (∃ r ∈ ordD,
        ((preSeed o inp ord).blk i).depth ≤ ((preSeed o inp ord).blk r).depth ∧
        ((seedDfs o inp ord ordD).blk i).pathDepth
          = ((preSeed o inp ord).blk r).depth + 1) ∧
      ((preSeed o inp ord).blk i).depth + 1
        ≤ ((seedDfs o inp ord ordD).blk i).pathDepth ∧
      (∀ v ∈ ((preSeed o inp ord).blk i).cleftN,
        ((seedDfs o inp ord ordD).blk i).pathDepth
          ≤ ((seedDfs o inp ord ordD).blk v).pathDepth) ∧
      ((seedDfs o inp ord ordD).blk i).left =
        (((preSeed o inp ord).blk i).depth : ℚ)
          / (((seedDfs o inp ord ordD).blk i).pathDepth : ℚ) ∧
      ((seedDfs o inp ord ordD).blk i).width =
        1 / (((seedDfs o inp ord ordD).blk i).pathDepth : ℚ) ∧
      ((seedDfs o inp ord ordD).blk i).visited = false ∧
      ((seedDfs o inp ord ordD).blk i).depth = ((preSeed o inp ord).blk i).depth :=
  seedDfs_spec o inp ord ordD hord hordD

/-- C8 witness: the amended statement evaluated on the counterexample input
with the depth order `[2,3,1,0]`. -/
theorem C8_witness :
    IsStartOrder (initState inpC8) [0,1,2,3] ∧
    2 ≤ (afterS1 oPlain inpC8 [0,1,2,3]).2 ∧
    oPlain.applyDFS = true ∧
    IsDepthOrder (preSeed oPlain inpC8 [0,1,2,3]) [2,3,1,0] ∧
    ∀ i, i < (preSeed oPlain inpC8 [0,1,2,3]).n →
      (∃ r ∈ [2,3,1,0],
        ((preSeed oPlain inpC8 [0,1,2,3]).blk i).depth ≤ ((preSeed oPlain inpC8 [0,1,2,3]).blk r).depth ∧
        ((seedDfs oPlain inpC8 [0,1,2,3] [2,3,1,0]).blk i).pathDepth = ((preSeed oPlain inpC8 [0,1,2,3]).blk r).depth + 1) ∧
      ((preSeed oPlain inpC8 [0,1,2,3]).blk i).depth + 1 ≤ ((seedDfs oPlain inpC8 [0,1,2,3] [2,3,1,0]).blk i).pathDepth ∧
      (∀ v ∈ ((preSeed oPlain inpC8 [0,1,2,3]).blk i).cleftN,
        ((seedDfs oPlain inpC8 [0,1,2,3] [2,3,1,0]).blk i).pathDepth ≤ ((seedDfs oPlain inpC8 [0,1,2,3] [2,3,1,0]).blk v).pathDepth) ∧
      ((seedDfs oPlain inpC8 [0,1,2,3] [2,3,1,0]).blk i).left = (((preSeed oPlain inpC8 [0,1,2,3]).blk i).depth : ℚ) / (((seedDfs oPlain inpC8 [0,1,2,3] [2,3,1,0]).blk i).pathDepth : ℚ) ∧
      ((seedDfs oPlain inpC8 [0,1,2,3] [2,3,1,0]).blk i).width = 1 / (((seedDfs oPlain inpC8 [0,1,2,3] [2,3,1,0]).blk i).pathDepth : ℚ) ∧
      ((seedDfs oPlain inpC8 [0,1,2,3] [2,3,1,0]).blk i).visited = false ∧
      ((seedDfs oPlain inpC8 [0,1,2,3] [2,3,1,0]).blk i).depth = ((preSeed oPlain inpC8 [0,1,2,3]).blk i).depth :=
  ⟨by decide, by decide, rfl, by decide,
    C8_amended oPlain inpC8 [0,1,2,3] [2,3,1,0] (by decide) (by decide) rfl (by decide)⟩



/-! ## Field preservation through BFS, the write-backs and fixed detection -/

theorem bfsFold_blkP {α} (P : Blk → α)
    (hV : ∀ b (v : Bool), P { b with visited := v } = P b) :
    ∀ (vs : List ℕ) (acc : List ℕ × RState) (j : ℕ),
      P (((vs.foldl (fun (acc : List ℕ × RState) (v : ℕ) =>
          if (acc.2.blk v).visited then acc
          else (acc.1 ++ [v], modB acc.2 v (fun b => { b with visited := true })))
          acc)).2.blk j)
        = P (acc.2.blk j) := by
  intro vs
  induction vs with
  | nil => intro acc j; rfl
  | cons v rest ih =>
      intro acc j
      rw [List.foldl_cons, ih]
      by_cases hv : (acc.2.blk v).visited = true
      · rw [if_pos hv]
      · rw [if_neg hv]
        dsimp only
        by_cases hj : j = v
        · subst hj; rw [modB_blk_same, hV]
        · rw [modB_blk_other _ _ _ hj]

theorem bfsFold_n :
    ∀ (vs : List ℕ) (acc : List ℕ × RState),
      ((vs.foldl (fun (acc : List ℕ × RState) (v : ℕ) =>
          if (acc.2.blk v).visited then acc
          else (acc.1 ++ [v], modB acc.2 v (fun b => { b with visited := true })))
          acc)).2.n = acc.2.n := by
  intro vs
  induction vs with
  | nil => intro acc; rfl
  | cons v rest ih =>
      intro acc
      rw [List.foldl_cons, ih]
      by_cases hv : (acc.2.blk v).visited = true
      · rw [if_pos hv]
      · rw [if_neg hv]
        rfl

theorem bfsLoop_succ (fuel : ℕ) (st : RState) (buf : List ℕ) (q : ℕ) :
    bfsLoop (fuel+1) st buf q =
      if q < buf.length then
        bfsLoop fuel
          (((st.blk (buf.getD q 0)).cleftN ++ (st.blk (buf.getD q 0)).crightN).foldl
            (fun (acc : List ℕ × RState) (v : ℕ) =>
              if (acc.2.blk v).visited then acc
              else (acc.1 ++ [v], modB acc.2 v (fun b => { b with visited := true })))
            (buf, st)).2
          (((st.blk (buf.getD q 0)).cleftN ++ (st.blk (buf.getD q 0)).crightN).foldl
            (fun (acc : List ℕ × RState) (v : ℕ) =>
              if (acc.2.blk v).visited then acc
              else (acc.1 ++ [v], modB acc.2 v (fun b => { b with visited := true })))
            (buf, st)).1 (q + 1)
      else (buf, st) := rfl

theorem bfsLoop_blkP {α} (P : Blk → α)
    (hV : ∀ b (v : Bool), P { b with visited := v } = P b) :
    ∀ (fuel : ℕ) (st : RState) (buf : List ℕ) (q : ℕ) (j : ℕ),
      P (((bfsLoop fuel st buf q).2).blk j) = P (st.blk j) := by
  intro fuel
  induction fuel with
  | zero => intro st buf q j; rfl
  | succ fuel ih =>
      intro st buf q j
      rw [bfsLoop_succ]
      by_cases hq : q < buf.length
      · rw [if_pos hq, ih]
        exact bfsFold_blkP P hV _ (buf, st) j
      · rw [if_neg hq]

theorem bfsLoop_n :
    ∀ (fuel : ℕ) (st : RState) (buf : List ℕ) (q : ℕ),
      ((bfsLoop fuel st buf q).2).n = st.n := by
  intro fuel
  induction fuel with
  | zero => intro st buf q; rfl
  | succ fuel ih =>
      intro st buf q
      rw [bfsLoop_succ]
      by_cases hq : q < buf.length
      · rw [if_pos hq, ih]
        exact bfsFold_n _ (buf, st)
      · rw [if_neg hq]

theorem BFS_blkP {α} (P : Blk → α)
    (hV : ∀ b (v : Bool), P { b with visited := v } = P b)
    (st : RState) (s j : ℕ) :
    P (((BFS st s).2).blk j) = P (st.blk j) := by
  unfold BFS
  rw [bfsLoop_blkP P hV]
  by_cases hj : j = s
  · subst hj; rw [modB_blk_same, hV]
  · rw [modB_blk_other _ _ _ hj]

theorem BFS_n (st : RState) (s : ℕ) : ((BFS st s).2).n = st.n := by
  unfold BFS
  rw [bfsLoop_n]
  rfl

theorem writeback1_blk (l w : ℕ → ℚ) :
    ∀ (comp : List ℕ) (st : RState) (j : ℕ),
      (writeback1 st comp l w).blk j =
        if j ∈ comp then { st.blk j with left := l j, width := w j } else st.blk j := by
  intro comp
  induction comp with
  | nil => intro st j; simp [writeback1]
  | cons i rest ih =>
      intro st j
      have hstep : writeback1 st (i :: rest) l w =
          writeback1 (modB st i (fun b => { b with left := l i, width := w i })) rest l w := rfl
      rw [hstep, ih]
      by_cases hj : j ∈ rest
      · rw [if_pos hj, if_pos (List.mem_cons.2 (Or.inr hj))]
        by_cases hji : j = i
        · subst hji; rw [modB_blk_same]
        · rw [modB_blk_other _ _ _ hji]
      · rw [if_neg hj]
        by_cases hji : j = i
        · subst hji
          rw [if_pos (List.mem_cons.2 (Or.inl rfl)), modB_blk_same]
        · rw [if_neg (by simp [List.mem_cons, hji, hj]), modB_blk_other _ _ _ hji]

theorem writeback2_blk (l : ℕ → ℚ) (W : ℚ) :
    ∀ (comp : List ℕ) (st : RState) (j : ℕ),
      (writeback2 st comp l W).blk j =
        if j ∈ comp then { st.blk j with left := l j, width := W } else st.blk j := by
  intro comp
  induction comp with
  | nil => intro st j; simp [writeback2]
  | cons i rest ih =>
      intro st j
      have hstep : writeback2 st (i :: rest) l W =
          writeback2 (modB st i (fun b => { b with left := l i, width := W })) rest l W := rfl
      rw [hstep, ih]
      by_cases hj : j ∈ rest
      · rw [if_pos hj, if_pos (List.mem_cons.2 (Or.inr hj))]
        by_cases hji : j = i
        · subst hji; rw [modB_blk_same]
        · rw [modB_blk_other _ _ _ hji]
      · rw [if_neg hj]
        by_cases hji : j = i
        · subst hji
          rw [if_pos (List.mem_cons.2 (Or.inl rfl)), modB_blk_same]
        · rw [if_neg (by simp [List.mem_cons, hji, hj]), modB_blk_other _ _ _ hji]

theorem writeback1_n (l w : ℕ → ℚ) :
    ∀ (comp : List ℕ) (st : RState), (writeback1 st comp l w).n = st.n := by
  intro comp
  induction comp with
  | nil => intro st; rfl
  | cons i rest ih => intro st; exact ih (modB st i _)

theorem writeback2_n (l : ℕ → ℚ) (W : ℚ) :
    ∀ (comp : List ℕ) (st : RState), (writeback2 st comp l W).n = st.n := by
  intro comp
  induction comp with
  | nil => intro st; rfl
  | cons i rest ih => intro st; exact ih (modB st i _)

theorem dfsFixFold_blkP {α} (P : Blk → α) (dfs : RState → ℕ → RState × Bool)
    (hdfs : ∀ st i j, P (((dfs st i).1).blk j) = P (st.blk j)) :
    ∀ (adj : List ℕ) (st : RState) (sl : ℚ) (flag : Bool) (j : ℕ),
      P (((dfsFixFold dfs st sl adj flag).1).blk j) = P (st.blk j) := by
  intro adj
  induction adj with
  | nil => intro st sl flag j; rfl
  | cons a rest ih =>
      intro st sl flag j
      unfold dfsFixFold
      split
      · split
        · rw [ih]
        · rw [ih, hdfs]
      · rw [ih]

theorem dfsFix_blkP {α} (P : Blk → α)
    (hV : ∀ b (v : Bool), P { b with visited := v } = P b)
    (hF : ∀ b (f : Bool), P { b with isFixed := f } = P b) :
    ∀ (fuel : ℕ) (st : RState) (i : ℕ) (j : ℕ),
      P (((dfsFix fuel st i).1).blk j) = P (st.blk j) := by
  intro fuel
  induction fuel with
  | zero => intro st i j; rfl
  | succ fuel ih =>
      intro st i j
      unfold dfsFix
      dsimp only
      split
      · by_cases hj : j = i
        · subst hj
          rw [modB_blk_same, modB_blk_same, hF, hV]
        · rw [modB_blk_other _ _ _ hj, modB_blk_other _ _ _ hj]
      · by_cases hj : j = i
        · subst hj
          rw [modB_blk_same, hF,
            dfsFixFold_blkP P (fun s j' => dfsFix fuel s j') (fun s i' j' => ih s i' j'),
            modB_blk_same, hV]
        · rw [modB_blk_other _ _ _ hj,
            dfsFixFold_blkP P (fun s j' => dfsFix fuel s j') (fun s i' j' => ih s i' j'),
            modB_blk_other _ _ _ hj]

theorem dfsFixFold_n (dfs : RState → ℕ → RState × Bool)
    (hdfs : ∀ st i, ((dfs st i).1).n = st.n) :
    ∀ (adj : List ℕ) (st : RState) (sl : ℚ) (flag : Bool),
      ((dfsFixFold dfs st sl adj flag).1).n = st.n := by
  intro adj
  induction adj with
  | nil => intro st sl flag; rfl
  | cons a rest ih =>
      intro st sl flag
      unfold dfsFixFold
      split
      · split
        · rw [ih]
        · rw [ih, hdfs]
      · rw [ih]

theorem dfsFix_n :
    ∀ (fuel : ℕ) (st : RState) (i : ℕ), ((dfsFix fuel st i).1).n = st.n := by
  intro fuel
  induction fuel with
  | zero => intro st i; rfl
  | succ fuel ih =>
      intro st i
      unfold dfsFix
      dsimp only
      split
      · rfl
      · rw [modB_n, dfsFixFold_n (fun s j' => dfsFix fuel s j') (fun s i' => ih s i'), modB_n]

theorem detectInitialLoop_blkP {α} (P : Blk → α)
    (hV : ∀ b (v : Bool), P { b with visited := v } = P b)
    (hF : ∀ b (f : Bool), P { b with isFixed := f } = P b) :
    ∀ (is' : List ℕ) (st : RState) (j : ℕ),
      P ((detectInitialLoop st is').blk j) = P (st.blk j) := by
  intro is'
  induction is' with
  | nil => intro st j; rfl
  | cons i rest ih =>
      intro st j
      unfold detectInitialLoop
      split
      · exact ih st j
      · split
        · rw [ih]
          exact dfsFix_blkP P hV hF _ st i j
        · exact ih st j

theorem detectIterLoop_blkP {α} (P : Blk → α)
    (hV : ∀ b (v : Bool), P { b with visited := v } = P b)
    (hF : ∀ b (f : Bool), P { b with isFixed := f } = P b) :
    ∀ (is' : List ℕ) (st : RState) (j : ℕ),
      P ((detectIterLoop st is').blk j) = P (st.blk j) := by
  intro is'
  induction is' with
  | nil => intro st j; rfl
  | cons i rest ih =>
      intro st j
      unfold detectIterLoop
      split
      · exact ih st j
      · split
        · rw [ih]
          exact dfsFix_blkP P hV hF _ st i j
        · split
          · rw [ih]
            exact dfsFix_blkP P hV hF _ st i j
          · exact ih st j

theorem setVisitedFixed_blkP {α} (P : Blk → α)
    (hV : ∀ b (v : Bool), P { b with visited := v } = P b)
    (st : RState) (j : ℕ) :
    P ((setVisitedFixed st).blk j) = P (st.blk j) := by
  unfold setVisitedFixed
  dsimp only
  by_cases hj : j < st.n
  · rw [if_pos hj, hV]
  · rw [if_neg hj]

/-- Steps 2–4 of an S6 iteration only touch `visited` and `isFixed`. -/
theorem iterTail_blkP {α} (P : Blk → α)
    (hV : ∀ b (v : Bool), P { b with visited := v } = P b)
    (hF : ∀ b (f : Bool), P { b with isFixed := f } = P b)
    (st : RState) (j : ℕ) :
    P ((((iterTail st).2)).blk j) = P (st.blk j) :=
  calc P ((((iterTail st).2)).blk j)
      = P ((setVisitedFixed (detectIterAll (setVisitedFixed st))).blk j) := rfl
    _ = P ((detectIterAll (setVisitedFixed st)).blk j) :=
        setVisitedFixed_blkP P hV _ j
    _ = P ((setVisitedFixed st).blk j) := detectIterLoop_blkP P hV hF _ _ j
    _ = P (st.blk j) := setVisitedFixed_blkP P hV st j

/-! ## Claim C9 -/

/-- One LP solve never shrinks a width when model 1 is selected (its rows
include `w i ≥` the current width; a failed solve leaves the state). -/
theorem SolveLP_width {lpm : ℤ} (h2 : lpm ≠ 2) {st : RState} {comp : List ℕ}
    {st' : RState} (hs : SolveLP lpm st comp st') (j : ℕ) :
    (st.blk j).width ≤ (st'.blk j).width := by
  cases hs with
  | one h2' l w hf =>
      rw [writeback1_blk l w comp st j]
      by_cases hj : j ∈ comp
      · rw [if_pos hj]
        exact (hf j hj).2.2.2
      · rw [if_neg hj]
  | two h2' l W hf hopt => exact absurd h2' h2
  | oneFail h2' hinf => exact le_refl _
  | twoFail h2' hinf => exact absurd h2' h2

/-- A whole component scan never shrinks a width under model 1. -/
theorem Pass_width {o : Opts} (h2 : o.LPModel ≠ 2) :
    ∀ {i : ℕ} {st st' : RState}, Pass o i st st' →
      ∀ j, (st.blk j).width ≤ (st'.blk j).width := by
  intro i st st' hp
  induction hp with
  | done i st h => intro j; exact le_refl _
  | skip i st st' h hv hrest ih => exact ih
  | solve i st st1 st' h hv hs hrest ih =>
      intro j
      calc (st.blk j).width
          = (((BFS st i).2).blk j).width :=
            (BFS_blkP (fun b => b.width) (fun _ _ => rfl) st i j).symm
        _ ≤ (st1.blk j).width := SolveLP_width h2 hs j
        _ ≤ (st'.blk j).width := ih j

/-- The S6 loop never shrinks a width under model 1. -/
theorem LPLoop_width {o : Opts} (h2 : o.LPModel ≠ 2) :
    ∀ (k pfc : ℕ) (st st' : RState), LPLoop o k pfc st st' →
      ∀ j, (st.blk j).width ≤ (st'.blk j).width := by
  intro k pfc st st' hl
  induction hl with
  | fuelout pfc st => intro j; exact le_refl _
  | conv k pfc st stA hp hfc =>
      intro j
      calc (st.blk j).width ≤ (stA.blk j).width := Pass_width h2 hp j
        _ = ((((iterTail stA).2)).blk j).width :=
            (iterTail_blkP (fun b => b.width) (fun _ _ => rfl) (fun _ _ => rfl) stA j).symm
  | cont k pfc st stA stF hp hfc hrest ih =>
      intro j
      calc (st.blk j).width ≤ (stA.blk j).width := Pass_width h2 hp j
        _ = ((((iterTail stA).2)).blk j).width :=
            (iterTail_blkP (fun b => b.width) (fun _ _ => rfl) (fun _ _ => rfl) stA j).symm
        _ ≤ (stF.blk j).width := ih j

/-- C9 (amended): across the S6 refinement iterations with `LPModel ≠ 2`
(model 1), no block's width ever decreases: each model-1 solve lower-bounds
every component width by its current value, a failed solve is a no-op, and
the detection steps between iterations only touch `visited`/`isFixed`. For
`LPModel = 2` the claim is false (see the counterexample): the shared width
`W` has no such lower bound. -/
theorem C9_amended (o : Opts) (h2 : o.LPModel ≠ 2) :
    ∀ (k pfc : ℕ) (st st' : RState), LPLoop o k pfc st st' →
      ∀ j, (st.blk j).width ≤ (st'.blk j).width :=
  LPLoop_width h2

/-- C9 witness: a one-iteration LP loop (model 1) on the empty input. -/
theorem C9_witness :
    oPlain.LPModel ≠ 2 ∧
    ∀ j, ((initState ([] : Input)).blk j).width
      ≤ (((iterTail (initState ([] : Input))).2).blk j).width :=
  ⟨by decide,
    C9_amended oPlain (by decide) 1 0 (initState []) ((iterTail (initState [])).2)
      (LPLoop.conv 0 0 (initState []) (initState [])
        (Pass.done 0 (initState []) (by decide)) (by decide))⟩



/-- Options of claim C9's counterexample: `isTolerance = 80` (packing blocks
0 and 2 into one room), `dfsTolerance = 0`, `applyDFS` on, `LPModel = 2`. -/
def oC9 : Opts := ⟨80, 1, true, 0, 100, 2, false⟩

/-- The input of claim C9's counterexample. -/
def inpC9 : Input := [((0:ℤ),(100:ℤ)), ((10:ℤ),(110:ℤ)), ((20:ℤ),(120:ℤ))]

/-- Core of the C9 counterexample: at the state reached after S5, blocks 0
and 1 are fixed (hence visited) and block 2 is not, so the component scan
must solve the singleton component of block 2 with model 2; its rows force
`l 2 + W ≤ minRightFixed = 0`, `l 2 ≥ maxLeftFixed = 0` and `W ≥ 0`, so the
(unique, hence optimal) feasible shared width is `W = 0`, which the
write-back installs as block 2's width. -/
theorem C9core (ordD : List ℕ)
    (h0 : ((preLoopOf (seedDfs oC9 inpC9 [0,1,2] ordD)).2.blk 0).visited = true)
    (h1 : ((preLoopOf (seedDfs oC9 inpC9 [0,1,2] ordD)).2.blk 1).visited = true)
    (h2 : ((preLoopOf (seedDfs oC9 inpC9 [0,1,2] ordD)).2.blk 2).visited = false)
    (hn : (preLoopOf (seedDfs oC9 inpC9 [0,1,2] ordD)).2.n = 3)
    (hcomp : (BFS (preLoopOf (seedDfs oC9 inpC9 [0,1,2] ordD)).2 2).1 = [2])
    (hmr : minRightFixed ((BFS (preLoopOf (seedDfs oC9 inpC9 [0,1,2] ordD)).2 2).2) 2 = 0)
    (hml : maxLeftFixed ((BFS (preLoopOf (seedDfs oC9 inpC9 [0,1,2] ordD)).2 2).2) 2 = 0)
    (hcl : ((BFS (preLoopOf (seedDfs oC9 inpC9 [0,1,2] ordD)).2 2).2.blk 2).cleftN = []) :
    ∀ st', Pass oC9 0 (preLoopOf (seedDfs oC9 inpC9 [0,1,2] ordD)).2 st' →
      (st'.blk 2).width = 0 := by
  intro st' hp
  generalize hB : (preLoopOf (seedDfs oC9 inpC9 [0,1,2] ordD)).2 = stB at h0 h1 h2 hn hcomp hmr hml hcl hp
  cases hp with
  | done _ _ h => rw [hn] at h; omega
  | solve _ _ st1 _ h hv hs hrest => rw [h0] at hv; exact absurd hv (by simp)
  | skip _ _ _ h hv hrest =>
    cases hrest with
    | done _ _ h' => rw [hn] at h'; omega
    | solve _ _ st1 _ h' hv1 hs hrest1 => rw [h1] at hv1; exact absurd hv1 (by simp)
    | skip _ _ _ h' hv1 hrest1 =>
      cases hrest1 with
      | done _ _ h'' => rw [hn] at h''; omega
      | skip _ _ _ h'' hv2 hrest2 => rw [h2] at hv2; exact absurd hv2 (by simp)
      | solve _ _ st1 _ h'' hv2 hs hrest2 =>
        cases hs with
        | one hne l w hf => exact absurd rfl hne
        | oneFail hne hinf => exact absurd rfl hne
        | twoFail hne hinf =>
            refine absurd ⟨fun _ => 0, 0, ?_, le_refl 0, by norm_num⟩ hinf
            intro i hi
            rw [hcomp] at hi
            have hi2 : i = 2 := by simpa using hi
            subst hi2
            refine ⟨?_, ?_, ?_⟩
            · rw [hcl]
              intro v hv _
              exact absurd hv (List.not_mem_nil v)
            · rw [hmr]
              norm_num
            · exact le_of_eq hml
        | two hne l W hf hopt =>
            have h2mem : (2:ℕ) ∈ (BFS stB 2).1 := by
              rw [hcomp]
              exact List.mem_singleton.2 rfl
            obtain ⟨hrow0, hrow, hmlrow⟩ := hf.1 2 h2mem
            have hW0 : W = 0 := by
              have hWge := hf.2.1
              have hrow' : l 2 + W ≤ minRightFixed (BFS stB 2).2 2 := hrow
              have hml' : maxLeftFixed (BFS stB 2).2 2 ≤ l 2 := hmlrow
              rw [hmr] at hrow'
              rw [hml] at hml'
              linarith
            have hwb : ((writeback2 ((BFS stB 2).2) ((BFS stB 2).1) l W).blk 2).width = W := by
              rw [writeback2_blk l W _ _ 2, if_pos h2mem]
            have hn1 : (writeback2 ((BFS stB 2).2) ((BFS stB 2).1) l W).n = 3 := by
              rw [writeback2_n, BFS_n, hn]
            cases hrest2 with
            | done _ _ hd => rw [hwb, hW0]
            | skip _ _ _ hd hv' hrest' => rw [hn1] at hd; omega
            | solve _ _ stx _ hd hv' hs' hrest' => rw [hn1] at hd; omega

set_option maxRecDepth 10000 in
unseal Rat.mul Rat.add Rat.inv Rat.sub in
/-- C9 counterexample: with `isTolerance = 80`, `dfsTolerance = 0`,
`applyDFS` on and `LPModel = 2`, on the blocks (0,100), (10,110), (20,120)
the state reached after stage S5 gives block 2 the seed width 1/2, and
every possible outcome of the next S6 component scan writes width 0 to
block 2: a width strictly decreases across the iteration. -/
theorem C9_counterexample :
    ValidInput inpC9 ∧ IsStartOrder (initState inpC9) [0,1,2] ∧
    oC9.MILP = false ∧ oC9.applyDFS = true ∧ oC9.LPModel = 2 ∧
    2 ≤ (afterS1 oC9 inpC9 [0,1,2]).2 ∧
    ∀ ordD, IsDepthOrder (preSeed oC9 inpC9 [0,1,2]) ordD →
      ((preLoopOf (seedDfs oC9 inpC9 [0,1,2] ordD)).2.blk 2).width = 1/2 ∧
      ∀ st', Pass oC9 0 (preLoopOf (seedDfs oC9 inpC9 [0,1,2] ordD)).2 st' →
        (st'.blk 2).width = 0 := by
  refine ⟨by decide, by decide, rfl, rfl, rfl, by decide, ?_⟩
  intro ordD h
  have hmem : ordD ∈ permsOf (List.range 3) := mem_permsOf h.1
  have hpin : ∀ l ∈ permsOf (List.range 3),
      IsDepthOrder (preSeed oC9 inpC9 [0,1,2]) l → l = [1,0,2] ∨ l = [1,2,0] := by decide
  rcases hpin ordD hmem h with rfl | rfl
  · exact ⟨by decide,
      C9core [1,0,2] (by decide) (by decide) (by decide) (by decide) (by decide)
        (by decide) (by decide) (by decide)⟩
  · exact ⟨by decide,
      C9core [1,2,0] (by decide) (by decide) (by decide) (by decide) (by decide)
        (by decide) (by decide) (by decide)⟩



/-! ## Claim C2 — layout bounds -/

/-- The layout invariant: every block's interval lies inside `[0, 1]`. -/
def INV (st : RState) : Prop :=
  ∀ j, 0 ≤ (st.blk j).left ∧ (st.blk j).left + (st.blk j).width ≤ 1

/-- After stage S1 every block still has the initial `left = width = 0`. -/
theorem afterS1_lw0 (o : Opts) (inp : Input) (ord : List ℕ) (i : ℕ) :
    (((afterS1 o inp ord).1).blk i).left = 0 ∧
    (((afterS1 o inp ord).1).blk i).width = 0 :=
  ⟨stageS1_blkP (fun b => b.left) (fun _ _ => rfl) o (initState inp) ord i,
   stageS1_blkP (fun b => b.width) (fun _ _ => rfl) o (initState inp) ord i⟩

/-- After stages S2/S3 every block still has `left = width = 0`. -/
theorem preSeed_lw0 (o : Opts) (inp : Input) (ord : List ℕ) (i : ℕ) :
    ((preSeed o inp ord).blk i).left = 0 ∧
    ((preSeed o inp ord).blk i).width = 0 := by
  have hl : ((preSeed o inp ord).blk i).left = (((afterS1 o inp ord).1).blk i).left :=
    calc ((preSeed o inp ord).blk i).left
        = ((stS2 o inp ord).blk i).left :=
          condense_blkP (fun b => b.left) (fun _ _ _ => rfl) _ i
      _ = (((afterS1 o inp ord).1).blk i).left :=
          adjOuter_blkP (fun b => b.left) (fun _ _ _ => rfl) o.dfsTolerance ord _ i
  have hw : ((preSeed o inp ord).blk i).width = (((afterS1 o inp ord).1).blk i).width :=
    calc ((preSeed o inp ord).blk i).width
        = ((stS2 o inp ord).blk i).width :=
          condense_blkP (fun b => b.width) (fun _ _ _ => rfl) _ i
      _ = (((afterS1 o inp ord).1).blk i).width :=
          adjOuter_blkP (fun b => b.width) (fun _ _ _ => rfl) o.dfsTolerance ord _ i
  rw [hl, hw]
  exact afterS1_lw0 o inp ord i

/-- Stages S2/S3 keep the S1 depths. -/
theorem preSeed_depth (o : Opts) (inp : Input) (ord : List ℕ) (i : ℕ) :
    ((preSeed o inp ord).blk i).depth = (((afterS1 o inp ord).1).blk i).depth :=
  calc ((preSeed o inp ord).blk i).depth
      = ((stS2 o inp ord).blk i).depth :=
        condense_blkP (fun b => b.depth) (fun _ _ _ => rfl) _ i
    _ = (((afterS1 o inp ord).1).blk i).depth :=
        adjOuter_blkP (fun b => b.depth) (fun _ _ _ => rfl) o.dfsTolerance ord _ i

/-- Out-of-array blocks pass through stage S4 unchanged. -/
theorem seedDfs_out (o : Opts) (inp : Input) (ord ordD : List ℕ)
    (hord : IsStartOrder (initState inp) ord)
    (hordD : IsDepthOrder (preSeed o inp ord) ordD)
    {i : ℕ} (hi : ¬ i < (preSeed o inp ord).n) :
    (seedDfs o inp ord ordD).blk i = (preSeed o inp ord).blk i := by
  obtain ⟨h1, _, _⟩ := seedRoots_spec ordD (preSeed o inp ord)
    (preSeed_cleftN_lt o inp ord hord)
    (fun r hr => List.mem_range.1 (hordD.1.subset hr))
    hordD.2
    (fun j hj _ => hordD.1.symm.subset (List.mem_range.2 hj))
    (fun w hw => by rw [preSeed_visited] at hw; exact absurd hw (by simp))
    (fun w hw => by rw [preSeed_visited] at hw; exact absurd hw (by simp))
  have hsr : (seedRoots (preSeed o inp ord) ordD).blk i = (preSeed o inp ord).blk i := by
    rcases h1 i with h | ⟨r, hr, _, hlt, _, _⟩
    · exact h
    · exact absurd hlt hi
  have hn : (seedRoots (preSeed o inp ord) ordD).n = (preSeed o inp ord).n :=
    seedRoots_n ordD (preSeed o inp ord)
  have hi' : ¬ i < (seedRoots (preSeed o inp ord) ordD).n := by rw [hn]; exact hi
  show (clearVisited (applyWidths (seedRoots (preSeed o inp ord) ordD))).blk i = _
  unfold clearVisited applyWidths
  dsimp only
  rw [if_neg hi', if_neg hi']
  exact hsr

/-- `computeInitialWidth` produces an in-bounds layout when every in-array
depth is below `total` and the other blocks are still zeroed. -/
theorem computeInitialWidth_INV (st : RState) (total : ℕ)
    (hd : ∀ i, i < st.n → (st.blk i).depth + 1 ≤ total)
    (h0 : ∀ i, ¬ i < st.n → (st.blk i).left = 0 ∧ (st.blk i).width = 0) :
    INV (computeInitialWidth st total) := by
  intro j
  unfold computeInitialWidth
  dsimp only
  by_cases hj : j < st.n
  · rw [if_pos hj]
    have hdj := hd j hj
    have htpos : 0 < (total : ℚ) := by
      have : 1 ≤ total := le_trans (Nat.le_add_left 1 _) hdj
      exact_mod_cast Nat.lt_of_lt_of_le Nat.zero_lt_one this
    constructor
    · exact div_nonneg (by positivity) (le_of_lt htpos)
    · show ((st.blk j).depth : ℚ) / (total : ℚ) + 1 / (total : ℚ) ≤ 1
      rw [div_add_div_same]
      rw [div_le_one htpos]
      exact_mod_cast hdj
  · rw [if_neg hj]
    obtain ⟨hl, hw⟩ := h0 j hj
    rw [hl, hw]
    norm_num

/-- `maxLeftFixed` is nonnegative (the fold starts at 0 and never shrinks). -/
theorem maxLeftFixed_nonneg (st : RState) (i : ℕ) : 0 ≤ maxLeftFixed st i := by
  unfold maxLeftFixed
  generalize (st.blk i).cleftN = l
  have : ∀ (l : List ℕ) (acc : ℚ),
      acc ≤ l.foldl (fun acc v =>
        if (st.blk v).isFixed then rmax acc ((st.blk v).left + (st.blk v).width)
        else acc) acc := by
    intro l
    induction l with
    | nil => intro acc; exact le_refl _
    | cons v rest ih =>
        intro acc
        rw [List.foldl_cons]
        refine le_trans ?_ (ih _)
        by_cases hf : (st.blk v).isFixed = true
        · rw [if_pos hf]; exact le_rmax_left _ _
        · rw [if_neg hf]
  exact this l 0

/-- `minRightFixed` is at most 1 (the fold starts at 1 and never grows). -/
theorem minRightFixed_le_one (st : RState) (i : ℕ) : minRightFixed st i ≤ 1 := by
  unfold minRightFixed
  generalize (st.blk i).crightN = l
  have : ∀ (l : List ℕ) (acc : ℚ),
      l.foldl (fun acc v =>
        if (st.blk v).isFixed then rmin acc (st.blk v).left else acc) acc ≤ acc := by
    intro l
    induction l with
    | nil => intro acc; exact le_refl _
    | cons v rest ih =>
        intro acc
        rw [List.foldl_cons]
        refine le_trans (ih _) ?_
        by_cases hf : (st.blk v).isFixed = true
        · rw [if_pos hf]; exact rmin_le_left _ _
        · rw [if_neg hf]
  exact this l 1

/-- One LP solve keeps the layout inside `[0, 1]`: the component rows bound
`l i` below by `maxLeftFixed ≥ 0` and `l i + w i` above by
`minRightFixed ≤ 1`; a failed solve is a no-op. -/
theorem SolveLP_INV {lpm : ℤ} {st : RState} {comp : List ℕ} {st' : RState}
    (hs : SolveLP lpm st comp st') (hinv : INV st) : INV st' := by
  cases hs with
  | one h2 l w hf =>
      intro j
      rw [writeback1_blk l w comp st j]
      by_cases hj : j ∈ comp
      · rw [if_pos hj]
        obtain ⟨_, hb, hc, _⟩ := hf j hj
        refine ⟨le_trans (maxLeftFixed_nonneg st j) hc, ?_⟩
        exact le_trans hb (minRightFixed_le_one st j)
      · rw [if_neg hj]; exact hinv j
  | two h2 l W hf hopt =>
      intro j
      rw [writeback2_blk l W comp st j]
      by_cases hj : j ∈ comp
      · rw [if_pos hj]
        obtain ⟨_, hb, hc⟩ := hf.1 j hj
        refine ⟨le_trans (maxLeftFixed_nonneg st j) hc, ?_⟩
        exact le_trans hb (minRightFixed_le_one st j)
      · rw [if_neg hj]; exact hinv j
  | oneFail h2 hinf => exact hinv
  | twoFail h2 hinf => exact hinv

/-- The component scan keeps the layout inside `[0, 1]`. -/
theorem Pass_INV {o : Opts} :
    ∀ {i : ℕ} {st st' : RState}, Pass o i st st' → INV st → INV st' := by
  intro i st st' hp
  induction hp with
  | done i st h => exact id
  | skip i st st' h hv hrest ih => exact ih
  | solve i st st1 st' h hv hs hrest ih =>
      intro hinv
      refine ih (SolveLP_INV hs ?_)
      intro j
      have hl : (((BFS st i).2).blk j).left = (st.blk j).left :=
        BFS_blkP (fun b => b.left) (fun _ _ => rfl) st i j
      have hw : (((BFS st i).2).blk j).width = (st.blk j).width :=
        BFS_blkP (fun b => b.width) (fun _ _ => rfl) st i j
      rw [hl, hw]
      exact hinv j

/-- The whole S6 loop keeps the layout inside `[0, 1]`. -/
theorem LPLoop_INV {o : Opts} :
    ∀ {k pfc : ℕ} {st st' : RState}, LPLoop o k pfc st st' → INV st → INV st' := by
  intro k pfc st st' hl
  induction hl with
  | fuelout pfc st => exact id
  | conv k pfc st stA hp hfc =>
      intro hinv j
      have hl' : ((((iterTail stA).2)).blk j).left = (stA.blk j).left :=
        iterTail_blkP (fun b => b.left) (fun _ _ => rfl) (fun _ _ => rfl) stA j
      have hw' : ((((iterTail stA).2)).blk j).width = (stA.blk j).width :=
        iterTail_blkP (fun b => b.width) (fun _ _ => rfl) (fun _ _ => rfl) stA j
      rw [hl', hw']
      exact Pass_INV hp hinv j
  | cont k pfc st stA stF hp hfc hrest ih =>
      intro hinv
      refine ih ?_
      intro j
      have hl' : ((((iterTail stA).2)).blk j).left = (stA.blk j).left :=
        iterTail_blkP (fun b => b.left) (fun _ _ => rfl) (fun _ _ => rfl) stA j
      have hw' : ((((iterTail stA).2)).blk j).width = (stA.blk j).width :=
        iterTail_blkP (fun b => b.width) (fun _ _ => rfl) (fun _ _ => rfl) stA j
      rw [hl', hw']
      exact Pass_INV hp hinv j

/-- Stage S5 and the initial fixed count keep `left`/`width`. -/
theorem preLoopOf_lw (st : RState) (j : ℕ) :
    (((preLoopOf st).2).blk j).left = (st.blk j).left ∧
    (((preLoopOf st).2).blk j).width = (st.blk j).width := by
  constructor
  · calc (((preLoopOf st).2).blk j).left
        = ((detectInitialAll st).blk j).left :=
          setVisitedFixed_blkP (fun b => b.left) (fun _ _ => rfl) _ j
      _ = (st.blk j).left :=
          detectInitialLoop_blkP (fun b => b.left) (fun _ _ => rfl) (fun _ _ => rfl) _ st j
  · calc (((preLoopOf st).2).blk j).width
        = ((detectInitialAll st).blk j).width :=
          setVisitedFixed_blkP (fun b => b.width) (fun _ _ => rfl) _ j
      _ = (st.blk j).width :=
          detectInitialLoop_blkP (fun b => b.width) (fun _ _ => rfl) (fun _ _ => rfl) _ st j

/-- The DFS seeding produces an in-bounds layout. -/
theorem seedDfs_INV (o : Opts) (inp : Input) (ord ordD : List ℕ)
    (hord : IsStartOrder (initState inp) ord)
    (hordD : IsDepthOrder (preSeed o inp ord) ordD) :
    INV (seedDfs o inp ord ordD) := by
  intro j
  by_cases hj : j < (preSeed o inp ord).n
  · obtain ⟨_, hpd, _, hleft, hwidth, _, hdep⟩ := seedDfs_spec o inp ord ordD hord hordD j hj
    rw [hleft, hwidth]
    have hppos : 0 < (((seedDfs o inp ord ordD).blk j).pathDepth : ℚ) := by
      have : 1 ≤ ((seedDfs o inp ord ordD).blk j).pathDepth :=
        le_trans (Nat.le_add_left 1 _) hpd
      exact_mod_cast Nat.lt_of_lt_of_le Nat.zero_lt_one this
    constructor
    · exact div_nonneg (by positivity) (le_of_lt hppos)
    · rw [div_add_div_same, div_le_one hppos]
      exact_mod_cast hpd
  · rw [seedDfs_out o inp ord ordD hord hordD hj]
    obtain ⟨hl, hw⟩ := preSeed_lw0 o inp ord j
    rw [hl, hw]
    norm_num

/-- The plain (non-DFS) seeding produces an in-bounds layout. -/
theorem seedPlain_INV (o : Opts) (inp : Input) (ord : List ℕ)
    (hord : IsStartOrder (initState inp) ord) (hne : inp ≠ []) :
    INV (seedPlain o inp ord) := by
  have hne' : ord ≠ [] := ord_ne_nil hord (by
    simp only [initState]
    exact fun h => hne (List.length_eq_zero.1 h))
  obtain ⟨h1, hlt⟩ := stageS1_depth_lt o (initState inp) ord (initState_depth inp) hne'
  refine computeInitialWidth_INV (preSeed o inp ord) (afterS1 o inp ord).2 ?_ ?_
  · intro i _
    rw [preSeed_depth]
    exact hlt i
  · intro i _
    exact preSeed_lw0 o inp ord i

/-- C2: on every pipeline path, `compute` leaves every block with
`0 ≤ left` and `left + width ≤ 1 + ε` (`ε = 10⁻⁸`); the proof establishes
the exact bound `left + width ≤ 1`. The seeded layouts satisfy it via the
`depth < total` and `depth + 1 ≤ pathDepth` bounds, every LP write-back is
bracketed by `maxLeftFixed ≥ 0` and `minRightFixed ≤ 1`, the MILP rows
carry `l ≥ 0` and `l + w ≤ 1` explicitly, and all other stages leave
`left`/`width` untouched. -/
theorem C2_theorem (o : Opts) (inp : Input) (st' : RState)
    (hv : ValidInput inp) (hc : ComputeRel o inp st') :
    ∀ j, 0 ≤ (st'.blk j).left ∧
      (st'.blk j).left + (st'.blk j).width ≤ 1 + DOUBLE_EPS := by
  have heps : (0:ℚ) ≤ DOUBLE_EPS := by norm_num [DOUBLE_EPS]
  suffices h : INV st' by
    intro j
    exact ⟨(h j).1, le_trans (h j).2 (by linarith)⟩
  cases hc with
  | milp ord st' hord hm hs =>
      cases hs with
      | success l w y hf =>
          intro j
          unfold writebackM
          dsimp only
          by_cases hj : j < ((afterS1 o inp ord).1).n
          · rw [if_pos hj]
            obtain ⟨hb, hl, _⟩ := hf.2 j hj
            exact ⟨hl, hb⟩
          · rw [if_neg hj]
            obtain ⟨hl, hw⟩ := afterS1_lw0 o inp ord j
            rw [hl, hw]
            norm_num
      | failure hinf =>
          intro j
          obtain ⟨hl, hw⟩ := afterS1_lw0 o inp ord j
          rw [hl, hw]
          norm_num
  | short ord hord hm ht =>
      by_cases hne : inp = []
      · subst hne
        intro j
        unfold computeInitialWidth
        dsimp only
        have hn0 : ((afterS1 o [] ord).1).n = 0 := by
          rw [show ((afterS1 o [] ord).1).n = (initState ([] : Input)).n from
            stageS1_n o (initState []) ord]
          rfl
        rw [hn0]
        rw [if_neg (by omega)]
        obtain ⟨hl, hw⟩ := afterS1_lw0 o [] ord j
        rw [hl, hw]
        norm_num
      · have hne' : ord ≠ [] := ord_ne_nil hord (by
          simp only [initState]
          exact fun h => hne (List.length_eq_zero.1 h))
        obtain ⟨h1, hlt⟩ := stageS1_depth_lt o (initState inp) ord (initState_depth inp) hne'
        refine computeInitialWidth_INV ((afterS1 o inp ord).1) (afterS1 o inp ord).2 ?_ ?_
        · intro i _
          exact hlt i
        · intro i _
          exact afterS1_lw0 o inp ord i
  | lpDfs ord ordD st' hord hm ht ha hordD hl =>
      refine LPLoop_INV hl ?_
      intro j
      obtain ⟨hle, hwi⟩ := preLoopOf_lw (seedDfs o inp ord ordD) j
      rw [hle, hwi]
      exact seedDfs_INV o inp ord ordD hord hordD j
  | lpPlain ord st' hord hm ht ha hl =>
      refine LPLoop_INV hl ?_
      intro j
      obtain ⟨hle, hwi⟩ := preLoopOf_lw (seedPlain o inp ord) j
      rw [hle, hwi]
      refine seedPlain_INV o inp ord hord ?_ j
      intro hnil
      subst hnil
      have : (afterS1 o [] ord).2 = 0 := by
        have hordnil : ord = [] := by
          have := hord.1.length_eq
          simp only [List.length_range] at this
          exact List.length_eq_zero.1 (by simpa [initState] using this)
        subst hordnil
        show (stageS1 o (initState []) []).2 = 0
        unfold stageS1
        split <;> rfl
      omega

/-- C2 witness: the bounds on the single-block short-circuit run. -/
theorem C2_witness :
    ValidInput [((0:ℤ),(10:ℤ))] ∧
    ∀ j, 0 ≤ ((computeInitialWidth (afterS1 oPlain [((0:ℤ),(10:ℤ))] [0]).1
        (afterS1 oPlain [((0:ℤ),(10:ℤ))] [0]).2).blk j).left ∧
      ((computeInitialWidth (afterS1 oPlain [((0:ℤ),(10:ℤ))] [0]).1
        (afterS1 oPlain [((0:ℤ),(10:ℤ))] [0]).2).blk j).left +
      ((computeInitialWidth (afterS1 oPlain [((0:ℤ),(10:ℤ))] [0]).1
        (afterS1 oPlain [((0:ℤ),(10:ℤ))] [0]).2).blk j).width ≤ 1 + DOUBLE_EPS :=
  ⟨by decide,
    C2_theorem oPlain [((0:ℤ),(10:ℤ))] _ (by decide)
      (ComputeRel.short [0] (by decide) rfl (by decide))⟩



/-! ## Claim C10 -/

/-- C10 (amended): under `MILP = 0`, `applyDFS = 1` and `LPModel ≠ 2`, every
in-array block ends `compute` with `width ≥ 1 / total` for the room count
`total` of the executed run: the short-circuit writes `width = 1 / total`
exactly; the DFS seed gives `width = 1 / pathDepth` with
`pathDepth = r.depth + 1 ≤ total` for some root `r`; and the model-1 LP
iterations never shrink a width. Under `LPModel = 2` the bound fails (see
the C10 counterexample): a shared-width solve can drive a width to 0. -/
theorem C10_amended (o : Opts) (inp : Input) (st' : RState)
    (hv : ValidInput inp) (hm : o.MILP = false) (ha : o.applyDFS = true)
    (h2 : o.LPModel ≠ 2) (hc : ComputeRel o inp st') :
    ∃ ord, IsStartOrder (initState inp) ord ∧
      ∀ i, i < inp.length →
        1 / (((afterS1 o inp ord).2 : ℚ)) ≤ (st'.blk i).width := by
  cases hc with
  | milp ord st' hord hmilp hs => rw [hm] at hmilp; exact absurd hmilp (by simp)
  | lpPlain ord st' hord hmilp ht hdfs hl => rw [ha] at hdfs; exact absurd hdfs (by simp)
  | short ord hord hmilp ht =>
      refine ⟨ord, hord, ?_⟩
      intro i hi
      have hn : ((afterS1 o inp ord).1).n = inp.length := by
        rw [show ((afterS1 o inp ord).1).n = (initState inp).n from
          stageS1_n o (initState inp) ord]
        rfl
      unfold computeInitialWidth
      dsimp only
      rw [if_pos (by rw [hn]; exact hi)]
  | lpDfs ord ordD st' hord hmilp ht hdfs hordD hl =>
      refine ⟨ord, hord, ?_⟩
      intro i hi
      have hne : inp ≠ [] := by
        intro hnil
        subst hnil
        exact absurd hi (by simp)
      have hne' : ord ≠ [] := ord_ne_nil hord (by
        simp only [initState]
        exact fun h => hne (List.length_eq_zero.1 h))
      obtain ⟨h1t, hlt⟩ := stageS1_depth_lt o (initState inp) ord (initState_depth inp) hne'
      have hn : (preSeed o inp ord).n = inp.length := preSeed_n o inp ord
      obtain ⟨⟨r, hr, _, hpdr⟩, hpd, _, _, hwidth, _, _⟩ :=
        seedDfs_spec o inp ord ordD hord hordD i (by rw [hn]; exact hi)
      have hple : ((seedDfs o inp ord ordD).blk i).pathDepth ≤ (afterS1 o inp ord).2 := by
        rw [hpdr, preSeed_depth]
        exact hlt r
      have hppos : 0 < ((seedDfs o inp ord ordD).blk i).pathDepth :=
        Nat.lt_of_lt_of_le Nat.zero_lt_one (le_trans (Nat.le_add_left 1 _) hpd)
      have hseed : 1 / (((afterS1 o inp ord).2 : ℚ))
          ≤ ((seedDfs o inp ord ordD).blk i).width := by
        rw [hwidth]
        refine one_div_le_one_div_of_le ?_ ?_
        · exact_mod_cast hppos
        · exact_mod_cast hple
      calc 1 / (((afterS1 o inp ord).2 : ℚ))
          ≤ ((seedDfs o inp ord ordD).blk i).width := hseed
        _ = (((preLoopOf (seedDfs o inp ord ordD)).2).blk i).width :=
            (preLoopOf_lw (seedDfs o inp ord ordD) i).2.symm
        _ ≤ (st'.blk i).width := LPLoop_width h2 _ _ _ _ hl i

/-- C10 witness: the single-block short-circuit run under model 1. -/
theorem C10_witness :
    ValidInput [((0:ℤ),(10:ℤ))] ∧ oPlain.MILP = false ∧ oPlain.applyDFS = true ∧
    oPlain.LPModel ≠ 2 ∧
    ∃ ord, IsStartOrder (initState [((0:ℤ),(10:ℤ))]) ord ∧
      ∀ i, i < ([((0:ℤ),(10:ℤ))] : Input).length →
        1 / (((afterS1 oPlain [((0:ℤ),(10:ℤ))] ord).2 : ℚ))
          ≤ (((computeInitialWidth (afterS1 oPlain [((0:ℤ),(10:ℤ))] [0]).1
              (afterS1 oPlain [((0:ℤ),(10:ℤ))] [0]).2)).blk i).width :=
  ⟨by decide, rfl, rfl, by decide,
    C10_amended oPlain [((0:ℤ),(10:ℤ))] _ (by decide) rfl rfl (by decide)
      (ComputeRel.short [0] (by decide) rfl (by decide))⟩



theorem RStateExt {a b : RState} (hn : a.n = b.n)
    (hb : ∀ j, a.blk j = b.blk j)
    (hm : ∀ p q, a.matrix p q = b.matrix p q) : a = b := by
  obtain ⟨n1, b1, m1⟩ := a
  obtain ⟨n2, b2, m2⟩ := b
  simp only at hn hb hm
  subst hn
  have hb' : b1 = b2 := funext hb
  have hm' : m1 = m2 := funext fun p => funext fun q => hm p q
  rw [hb', hm']

theorem writeback2_matrix (l : ℕ → ℚ) (W : ℚ) :
    ∀ (comp : List ℕ) (st : RState), (writeback2 st comp l W).matrix = st.matrix := by
  intro comp
  induction comp with
  | nil => intro st; rfl
  | cons i rest ih =>
      intro st
      have hstep : writeback2 st (i :: rest) l W =
          writeback2 (modB st i (fun b => { b with left := l i, width := W })) rest l W := rfl
      rw [hstep, ih]
      rfl

/-- A component scan over an all-visited block range is the identity. -/
theorem Pass_allVisited {o : Opts} :
    ∀ {i : ℕ} {st st' : RState}, Pass o i st st' →
      (∀ j, i ≤ j → j < st.n → (st.blk j).visited = true) → st' = st := by
  intro i st st' hp
  induction hp with
  | done i st h => intro _; rfl
  | skip i st st' h hv hrest ih =>
      intro hvis
      exact ih (fun j hj hjn => hvis j (le_trans (Nat.le_succ i) hj) hjn)
  | solve i st st1 st' h hv hs hrest ih =>
      intro hvis
      rw [hvis i (le_refl i) h] at hv
      exact absurd hv (by simp)

/-- The state after the (unique possible) first S6 component scan on the C9
counterexample run: block 2's layout collapses to `left = width = 0`. -/
def stO9 (ordD : List ℕ) : RState :=
  { n := 3,
    blk := fun j => if j = 2 then
        { ((BFS (preLoopOf (seedDfs oC9 inpC9 [0,1,2] ordD)).2 2).2.blk 2) with
            left := 0, width := 0 }
      else (BFS (preLoopOf (seedDfs oC9 inpC9 [0,1,2] ordD)).2 2).2.blk j,
    matrix := (BFS (preLoopOf (seedDfs oC9 inpC9 [0,1,2] ordD)).2 2).2.matrix }

/-- The first S6 component scan on the C9 counterexample run is
deterministic: model 2 on the singleton component of block 2 forces
`l 2 = 0` and `W = 0`, so the scan result is exactly `stO9`. -/
theorem C10core (ordD : List ℕ)
    (h0 : ((preLoopOf (seedDfs oC9 inpC9 [0,1,2] ordD)).2.blk 0).visited = true)
    (h1 : ((preLoopOf (seedDfs oC9 inpC9 [0,1,2] ordD)).2.blk 1).visited = true)
    (h2 : ((preLoopOf (seedDfs oC9 inpC9 [0,1,2] ordD)).2.blk 2).visited = false)
    (hn : (preLoopOf (seedDfs oC9 inpC9 [0,1,2] ordD)).2.n = 3)
    (hcomp : (BFS (preLoopOf (seedDfs oC9 inpC9 [0,1,2] ordD)).2 2).1 = [2])
    (hmr : minRightFixed ((BFS (preLoopOf (seedDfs oC9 inpC9 [0,1,2] ordD)).2 2).2) 2 = 0)
    (hml : maxLeftFixed ((BFS (preLoopOf (seedDfs oC9 inpC9 [0,1,2] ordD)).2 2).2) 2 = 0)
    (hcl : ((BFS (preLoopOf (seedDfs oC9 inpC9 [0,1,2] ordD)).2 2).2.blk 2).cleftN = []) :
    ∀ stA, Pass oC9 0 (preLoopOf (seedDfs oC9 inpC9 [0,1,2] ordD)).2 stA →
      stA = stO9 ordD := by
  intro stA hp
  generalize hB : (preLoopOf (seedDfs oC9 inpC9 [0,1,2] ordD)).2 = stB at h0 h1 h2 hn hcomp hmr hml hcl hp
  unfold stO9
  rw [hB]
  cases hp with
  | done _ _ h => rw [hn] at h; omega
  | solve _ _ st1 _ h hv hs hrest => rw [h0] at hv; exact absurd hv (by simp)
  | skip _ _ _ h hv hrest =>
    cases hrest with
    | done _ _ h' => rw [hn] at h'; omega
    | solve _ _ st1 _ h' hv1 hs hrest1 => rw [h1] at hv1; exact absurd hv1 (by simp)
    | skip _ _ _ h' hv1 hrest1 =>
      cases hrest1 with
      | done _ _ h'' => rw [hn] at h''; omega
      | skip _ _ _ h'' hv2 hrest2 => rw [h2] at hv2; exact absurd hv2 (by simp)
      | solve _ _ st1 _ h'' hv2 hs hrest2 =>
        cases hs with
        | one hne l w hf => exact absurd rfl hne
        | oneFail hne hinf => exact absurd rfl hne
        | twoFail hne hinf =>
            refine absurd ⟨fun _ => 0, 0, ?_, le_refl 0, by norm_num⟩ hinf
            intro i hi
            rw [hcomp] at hi
            have hi2 : i = 2 := by simpa using hi
            subst hi2
            refine ⟨?_, ?_, ?_⟩
            · rw [hcl]
              intro v hv _
              exact absurd hv (List.not_mem_nil v)
            · rw [hmr]
              norm_num
            · exact le_of_eq hml
        | two hne l W hf hopt =>
            have h2mem : (2:ℕ) ∈ (BFS stB 2).1 := by
              rw [hcomp]
              exact List.mem_singleton.2 rfl
            obtain ⟨hrow0, hrow, hmlrow⟩ := hf.1 2 h2mem
            have hWge := hf.2.1
            have hrow' : l 2 + W ≤ minRightFixed (BFS stB 2).2 2 := hrow
            have hml' : maxLeftFixed (BFS stB 2).2 2 ≤ l 2 := hmlrow
            rw [hmr] at hrow'
            rw [hml] at hml'
            have hW0 : W = 0 := by linarith
            have hl2 : l 2 = 0 := by linarith
            have hstA : stA = writeback2 ((BFS stB 2).2) ((BFS stB 2).1) l W := by
              refine Pass_allVisited hrest2 ?_
              intro j hj hjn
              rw [writeback2_n, BFS_n, hn] at hjn
              omega
            rw [hstA]
            refine RStateExt ?_ ?_ ?_
            · rw [writeback2_n, BFS_n, hn]
            · intro j
              rw [writeback2_blk l W _ _ j, hcomp]
              by_cases hj2 : j = 2
              · subst hj2
                rw [if_pos (List.mem_singleton.2 rfl)]
                dsimp only
                rw [if_pos rfl, hl2, hW0]
              · rw [if_neg (by simp [hj2])]
                dsimp only
                rw [if_neg hj2]
            · intro p q
              rw [writeback2_matrix]

/-- The full S6 loop on the C9 counterexample run: the first iteration is
the deterministic collapse to `stO9` (new fixed count 3 ≠ 2, so the loop
continues), the second iteration is a no-op on the now fully fixed state
and converges; block 2 ends with width 0. -/
theorem C10loop (ordD : List ℕ)
    (hdet : ∀ stA, Pass oC9 0 (preLoopOf (seedDfs oC9 inpC9 [0,1,2] ordD)).2 stA →
      stA = stO9 ordD)
    (f1 : (iterTail (stO9 ordD)).1 = 3)
    (f2 : ∀ j, j < ((iterTail (stO9 ordD)).2).n →
      (((iterTail (stO9 ordD)).2).blk j).visited = true)
    (f3 : (iterTail ((iterTail (stO9 ordD)).2)).1 = 3)
    (f4 : (((iterTail ((iterTail (stO9 ordD)).2)).2).blk 2).width = 0)
    (f5 : (preLoopOf (seedDfs oC9 inpC9 [0,1,2] ordD)).1 = 2) :
    ∀ st', LPLoop oC9 100 (preLoopOf (seedDfs oC9 inpC9 [0,1,2] ordD)).1
        (preLoopOf (seedDfs oC9 inpC9 [0,1,2] ordD)).2 st' →
      (st'.blk 2).width = 0 := by
  intro st' hl
  rw [f5] at hl
  generalize hB : (preLoopOf (seedDfs oC9 inpC9 [0,1,2] ordD)).2 = stB at hl hdet
  cases hl with
  | conv _ _ _ stA hp hfc =>
      rw [hdet stA hp, f1] at hfc
      omega
  | cont _ _ _ stA _ hp hfc hrest =>
      rw [hdet stA hp] at hrest
      rw [f1] at hrest
      generalize hD : (iterTail (stO9 ordD)).2 = stD at hrest f2 f3 f4
      cases hrest with
      | conv _ _ _ stA' hp' hfc' =>
          have hA' : stA' = stD := Pass_allVisited hp' (fun j _ hj => f2 j hj)
          rw [hA']
          exact f4
      | cont _ _ _ stA' _ hp' hfc' hrest' =>
          have hA' : stA' = stD := Pass_allVisited hp' (fun j _ hj => f2 j hj)
          rw [hA', f3] at hfc'
          exact absurd rfl hfc'

set_option maxRecDepth 10000 in
unseal Rat.mul Rat.add Rat.inv Rat.sub in
/-- C10 counterexample: with `MILP = 0` and `applyDFS = 1` but `LPModel = 2`
(blocks (0,100), (10,110), (20,120), `isTolerance = 80`,
`dfsTolerance = 0`), stage S1 returns `total = 2`, yet every possible
outcome of `compute` leaves block 2 with width 0 < 1/total: the claimed
seed lower bound is destroyed by the shared-width LP model. -/
theorem C10_counterexample :
    ValidInput inpC9 ∧ oC9.MILP = false ∧ oC9.applyDFS = true ∧ oC9.LPModel = 2 ∧
    (afterS1 oC9 inpC9 [0,1,2]).2 = 2 ∧
    ∀ st', ComputeRel oC9 inpC9 st' →
      (st'.blk 2).width = 0 ∧
      ¬ (1 / (((afterS1 oC9 inpC9 [0,1,2]).2 : ℚ)) ≤ (st'.blk 2).width) := by
  refine ⟨by decide, rfl, rfl, rfl, by decide, ?_⟩
  intro st' hc
  have hw0 : (st'.blk 2).width = 0 := by
    cases hc with
    | milp ord st' hord hmilp hs => exact absurd hmilp (by decide)
    | short ord hord hmilp ht =>
        have hmem : ord ∈ permsOf (List.range 3) := mem_permsOf hord.1
        have hpinS : ∀ l ∈ permsOf (List.range 3),
            IsStartOrder (initState inpC9) l → l = [0,1,2] := by decide
        rcases hpinS ord hmem hord with rfl
        exact absurd ht (by decide)
    | lpPlain ord st' hord hmilp ht hdfs hl => exact absurd hdfs (by decide)
    | lpDfs ord ordD st' hord hmilp ht hdfs hordD hl =>
        have hmemS : ord ∈ permsOf (List.range 3) := mem_permsOf hord.1
        have hpinS : ∀ l ∈ permsOf (List.range 3),
            IsStartOrder (initState inpC9) l → l = [0,1,2] := by decide
        rcases hpinS ord hmemS hord with rfl
        have hmemD : ordD ∈ permsOf (List.range 3) := mem_permsOf hordD.1
        have hpinD : ∀ l ∈ permsOf (List.range 3),
            IsDepthOrder (preSeed oC9 inpC9 [0,1,2]) l →
              l = [1,0,2] ∨ l = [1,2,0] := by decide
        rcases hpinD ordD hmemD hordD with rfl | rfl
        · exact C10loop [1,0,2]
            (C10core [1,0,2] (by decide) (by decide) (by decide) (by decide)
              (by decide) (by decide) (by decide) (by decide))
            (by decide) (by decide) (by decide) (by decide) (by decide) st' hl
        · exact C10loop [1,2,0]
            (C10core [1,2,0] (by decide) (by decide) (by decide) (by decide)
              (by decide) (by decide) (by decide) (by decide))
            (by decide) (by decide) (by decide) (by decide) (by decide) st' hl
  refine ⟨hw0, ?_⟩
  rw [hw0]
  have ht2 : (afterS1 oC9 inpC9 [0,1,2]).2 = 2 := by decide
  rw [ht2]
  norm_num



/-! ## Claim C3 — clique plumbing and room-buffer lemmas -/

theorem getD_set_self : ∀ (l : List ℕ) (k : ℕ) (b : ℕ), k < l.length →
    (l.set k b).getD k 0 = b := by
  intro l
  induction l with
  | nil => intro k b hk; exact absurd hk (by simp)
  | cons x t ih =>
      intro k b hk
      match k with
      | 0 => rfl
      | k' + 1 => exact ih k' b (by simpa using hk)

theorem getD_set_other : ∀ (l : List ℕ) (k k' : ℕ) (b : ℕ), k' ≠ k →
    (l.set k b).getD k' 0 = l.getD k' 0 := by
  intro l
  induction l with
  | nil => intro k k' b _; simp [List.set]
  | cons x t ih =>
      intro k k' b hne
      match k, k' with
      | 0, 0 => exact absurd rfl hne
      | 0, k' + 1 => rfl
      | k + 1, 0 => rfl
      | k + 1, k' + 1 => exact ih k k' b (fun h => hne (by omega))

theorem getD_append_lt : ∀ (l : List ℕ) (b : ℕ) (k : ℕ), k < l.length →
    (l ++ [b]).getD k 0 = l.getD k 0 := by
  intro l
  induction l with
  | nil => intro b k hk; exact absurd hk (by simp)
  | cons x t ih =>
      intro b k hk
      match k with
      | 0 => rfl
      | k' + 1 => exact ih b k' (by simpa using hk)

theorem getD_append_len : ∀ (l : List ℕ) (b : ℕ), (l ++ [b]).getD l.length 0 = b := by
  intro l
  induction l with
  | nil => intro b; rfl
  | cons x t ih => intro b; exact ih b

theorem getD_mem : ∀ (l : List ℕ) (k : ℕ), k < l.length → l.getD k 0 ∈ l := by
  intro l
  induction l with
  | nil => intro k hk; exact absurd hk (by simp)
  | cons x t ih =>
      intro k hk
      match k with
      | 0 => exact List.mem_cons_self x t
      | k' + 1 => exact List.mem_cons.2 (Or.inr (ih k' (by simpa using hk)))

/-- A list whose `getD` values carry their own position is duplicate-free. -/
theorem nodup_of_getD_inj {α : Type} (f : α → ℕ) (d : α) :
    ∀ (l : List α) (off : ℕ), (∀ k, k < l.length → f (l.getD k d) = off + k) → l.Nodup := by
  intro l
  induction l with
  | nil => intro _ _; exact List.nodup_nil
  | cons x t ih =>
      intro off h
      refine List.nodup_cons.2 ⟨?_, ?_⟩
      · intro hx
        obtain ⟨⟨k, hk⟩, hget⟩ := List.mem_iff_get.1 hx
        have h1 : f ((x :: t).getD 0 d) = off + 0 := h 0 (by simp)
        have h2 : f ((x :: t).getD (k + 1) d) = off + (k + 1) := h (k + 1) (by simpa using hk)
        have hx0 : (x :: t).getD 0 d = x := rfl
        have hxk : (x :: t).getD (k + 1) d = t.getD k d := rfl
        have hgd : t.getD k d = x := by
          rw [List.getD_eq_getElem?_getD]
          rw [List.getElem?_eq_getElem hk]
          simpa using congrArg some hget
        rw [hx0] at h1
        rw [hxk, hgd] at h2
        omega
      · refine ih (off + 1) ?_
        intro k hk
        have := h (k + 1) (by simpa using hk)
        have hxk : (x :: t).getD (k + 1) d = t.getD k d := rfl
        rw [hxk] at this
        rw [this]
        omega

/-- Any member of `cliqueLists` is at most `cliqueNum` long. -/
theorem cliqueNum_ge (st : RState) (tol : ℤ) {l : List ℕ}
    (hl : l ∈ cliqueLists st tol) : l.length ≤ cliqueNum st tol := by
  unfold cliqueNum
  have hmain : ∀ (ls : List (List ℕ)) (a : ℕ), l ∈ ls →
      l.length ≤ ls.foldl (fun m l => max m l.length) a := by
    intro ls
    induction ls with
    | nil => intro a h; exact absurd h (List.not_mem_nil l)
    | cons x t ih =>
        intro a h
        rcases List.mem_cons.1 h with rfl | h
        · rw [List.foldl_cons]
          have h0 : ∀ (t : List (List ℕ)) (c : ℕ),
              c ≤ t.foldl (fun m l => max m l.length) c := by
            intro t
            induction t with
            | nil => intro c; exact le_refl c
            | cons y u ih2 =>
                intro c
                exact le_trans (le_max_left c y.length) (ih2 (max c y.length))
          exact le_trans (le_max_right a l.length) (h0 t _)
        · rw [List.foldl_cons]
          exact ih _ h
  exact hmain _ 0 hl

/-- `cliqueNum` is bounded by any uniform bound on the clique lists. -/
theorem cliqueNum_le (st : RState) (tol : ℤ) (N : ℕ)
    (h : ∀ l ∈ cliqueLists st tol, l.length ≤ N) : cliqueNum st tol ≤ N := by
  unfold cliqueNum
  have : ∀ (ls : List (List ℕ)) (a : ℕ), a ≤ N → (∀ l ∈ ls, l.length ≤ N) →
      ls.foldl (fun m l => max m l.length) a ≤ N := by
    intro ls
    induction ls with
    | nil => intro a ha _; exact ha
    | cons x t ih =>
        intro a ha hall
        rw [List.foldl_cons]
        refine ih _ ?_ (fun l hl => hall l (List.mem_cons.2 (Or.inr hl)))
        exact max_le ha (hall x (List.mem_cons_self x t))
  exact this _ 0 (Nat.zero_le N) h

theorem mem_cliqueLists (st : RState) (tol : ℤ) (l : List ℕ) :
    l ∈ cliqueLists st tol ↔ l.Sublist (List.range st.n) ∧
      l.Pairwise (fun i j => Conflict tol (st.blk i) (st.blk j)) := by
  unfold cliqueLists
  rw [List.mem_filter, List.mem_sublists]
  simp

/-- `pickRoom = none` means no buffer room is eligible. -/
theorem pickRoom_none (st : RState) (tol : ℤ) (sb : ℤ) :
    ∀ (l : List ℕ) (off : ℕ), pickRoom st tol sb l off = none →
      ∀ r ∈ l, ¬ ((st.blk r).endMin ≤ sb + tol) := by
  intro l
  induction l with
  | nil => intro off _ r hr; exact absurd hr (List.not_mem_nil r)
  | cons x t ih =>
      intro off h r hr
      unfold pickRoom at h
      dsimp only at h
      by_cases hel : (st.blk x).endMin ≤ sb + tol
      · rw [if_pos hel] at h
        exfalso
        rcases hc : pickRoom st tol sb t (off + 1) with _ | ⟨k', d'⟩
        · simp only [hc] at h
          exact absurd h (by simp)
        · simp only [hc] at h
          by_cases hd : (st.blk x).depth < d'
          · rw [if_pos hd] at h
            exact absurd h (by simp)
          · rw [if_neg hd] at h
            exact absurd h (by simp)
      · rw [if_neg hel] at h
        rcases List.mem_cons.1 hr with rfl | hr
        · exact hel
        · exact ih (off + 1) h r hr

/-- `pickRoom = some (k, d)` returns the in-buffer position (relative to the
offset) of an eligible room. -/
theorem pickRoom_some (st : RState) (tol : ℤ) (sb : ℤ) :
    ∀ (l : List ℕ) (off : ℕ) (k : ℕ) (d : ℕ),
      pickRoom st tol sb l off = some (k, d) →
      ∃ j, j < l.length ∧ k = off + j ∧
        (st.blk (l.getD j 0)).endMin ≤ sb + tol := by
  intro l
  induction l with
  | nil => intro off k d h; exact absurd h (by simp [pickRoom])
  | cons x t ih =>
      intro off k d h
      unfold pickRoom at h
      dsimp only at h
      by_cases hel : (st.blk x).endMin ≤ sb + tol
      · rw [if_pos hel] at h
        rcases hc : pickRoom st tol sb t (off + 1) with _ | ⟨k', d'⟩
        · simp only [hc, Option.some.injEq, Prod.mk.injEq] at h
          obtain ⟨hk, _⟩ := h
          exact ⟨0, by simp, by omega, hel⟩
        · simp only [hc] at h
          by_cases hd : (st.blk x).depth < d'
          · rw [if_pos hd] at h
            simp only [Option.some.injEq, Prod.mk.injEq] at h
            obtain ⟨hk, _⟩ := h
            exact ⟨0, by simp, by omega, hel⟩
          · rw [if_neg hd] at h
            simp only [Option.some.injEq, Prod.mk.injEq] at h
            obtain ⟨hk, _⟩ := h
            obtain ⟨j', hj', hoff, hel'⟩ := ih (off + 1) k' d' hc
            exact ⟨j' + 1, by simpa using hj', by omega, hel'⟩
      · rw [if_neg hel] at h
        obtain ⟨j', hj', hoff, hel'⟩ := ih (off + 1) k d h
        exact ⟨j' + 1, by simpa using hj', by omega, hel'⟩

/-- `qtop` returns a queue member. -/
theorem qtop_mem (st : RState) :
    ∀ (rest : List ℕ) (q : ℕ), qtop st rest q ∈ q :: rest := by
  intro rest
  induction rest with
  | nil => intro q; exact List.mem_cons_self q []
  | cons r t ih =>
      intro q
      unfold qtop
      dsimp only
      by_cases hc : (st.blk r).endMin < (st.blk q).endMin ∨
          ((st.blk r).endMin = (st.blk q).endMin ∧ (st.blk r).depth < (st.blk q).depth)
      · rw [if_pos hc]
        rcases List.mem_cons.1 (ih r) with h | h
        · rw [h]; simp
        · simp [h]
      · rw [if_neg hc]
        rcases List.mem_cons.1 (ih q) with h | h
        · rw [h]; simp
        · simp [h]

/-- `qtop` minimizes `endMin` over the queue. -/
theorem qtop_end_le (st : RState) :
    ∀ (rest : List ℕ) (q : ℕ), ∀ x ∈ q :: rest,
      (st.blk (qtop st rest q)).endMin ≤ (st.blk x).endMin := by
  intro rest
  induction rest with
  | nil =>
      intro q x hx
      have : x = q := by simpa using hx
      subst this
      exact le_refl _
  | cons r t ih =>
      intro q x hx
      unfold qtop
      dsimp only
      by_cases hc : (st.blk r).endMin < (st.blk q).endMin ∨
          ((st.blk r).endMin = (st.blk q).endMin ∧ (st.blk r).depth < (st.blk q).depth)
      · rw [if_pos hc]
        have hrq : (st.blk r).endMin ≤ (st.blk q).endMin := by
          rcases hc with h | ⟨h, _⟩
          · exact le_of_lt h
          · exact le_of_eq h
        rcases List.mem_cons.1 hx with h1 | hx'
        · rw [h1]
          exact le_trans (ih r r (List.mem_cons_self r t)) hrq
        · rcases List.mem_cons.1 hx' with h1 | hx''
          · rw [h1]
            exact ih r r (List.mem_cons_self r t)
          · exact ih r x (List.mem_cons.2 (Or.inr hx''))
      · rw [if_neg hc]
        have hqr : (st.blk q).endMin ≤ (st.blk r).endMin := by
          push_neg at hc
          obtain ⟨h1, h2⟩ := hc
          rcases lt_or_ge (st.blk q).endMin (st.blk r).endMin with h | h
          · exact le_of_lt h
          · omega
        rcases List.mem_cons.1 hx with h1 | hx'
        · rw [h1]
          exact ih q q (List.mem_cons_self q t)
        · rcases List.mem_cons.1 hx' with h1 | hx''
          · rw [h1]
            exact le_trans (ih q q (List.mem_cons_self q t)) hqr
          · exact ih q x (List.mem_cons.2 (Or.inr hx''))



theorem modB_depth_se (st : RState) (b : ℕ) (f : Blk → Blk)
    (hf : ∀ blk, (f blk).startMin = blk.startMin ∧ (f blk).endMin = blk.endMin) (i : ℕ) :
    ((modB st b f).blk i).startMin = (st.blk i).startMin ∧
    ((modB st b f).blk i).endMin = (st.blk i).endMin := by
  by_cases hib : i = b
  · subst hib
    rw [modB_blk_same]
    exact hf _
  · rw [modB_blk_other _ _ _ hib]
    exact ⟨rfl, rfl⟩

/-- Main invariant lemma for the method-1 loop with `isTolerance = 0`:
(1) any two distinct blocks of the run that end with equal depths are
disjoint in time (room-mates are chained `end ≤ start`), and
(2) unless no new room is opened, there is a pairwise-conflicting set of
`total` blocks (the room buffer plus the block that opened the last room). -/
theorem is1_spec (inp : Input) :
    ∀ (bs : List ℕ) (st : RState) (buf : List ℕ) (nr : ℕ) (done : List ℕ),
      (∀ i, (st.blk i).startMin = ((initState inp).blk i).startMin ∧
        (st.blk i).endMin = ((initState inp).blk i).endMin) →
      (done ++ bs).Nodup →
      ((done ++ bs).Pairwise (fun a b =>
        ((initState inp).blk a).startMin ≤ ((initState inp).blk b).startMin)) →
      (∀ x ∈ buf, x ∈ done) →
      (buf.length = nr + 1) →
      (∀ k, k < buf.length → (st.blk (buf.getD k 0)).depth = k) →
      (∀ a ∈ done, (st.blk a).depth ≤ nr) →
      (∀ a ∈ done, ∀ k, k < buf.length → (st.blk a).depth = k →
        a = buf.getD k 0 ∨
          ((initState inp).blk a).endMin ≤ ((initState inp).blk (buf.getD k 0)).startMin) →
      (∀ a ∈ done, ∀ b ∈ done, (st.blk a).depth = (st.blk b).depth → a ≠ b →
        ((initState inp).blk a).endMin ≤ ((initState inp).blk b).startMin ∨
        ((initState inp).blk b).endMin ≤ ((initState inp).blk a).startMin) →
      (∀ i ∈ done ++ bs, ((initState inp).blk i).startMin < ((initState inp).blk i).endMin) →
      (∀ a ∈ done ++ bs, ∀ b ∈ done ++ bs,
        (((is1Loop 0 st bs buf nr).1).blk a).depth = (((is1Loop 0 st bs buf nr).1).blk b).depth →
        a ≠ b →
        ((initState inp).blk a).endMin ≤ ((initState inp).blk b).startMin ∨
        ((initState inp).blk b).endMin ≤ ((initState inp).blk a).startMin) ∧
      ((is1Loop 0 st bs buf nr).2 = nr ∨
        ∃ bl : List ℕ, bl.Nodup ∧ bl.length = (is1Loop 0 st bs buf nr).2 + 1 ∧
          (∀ x ∈ bl, x ∈ done ++ bs) ∧
          bl.Pairwise (fun i j => Conflict 0 ((initState inp).blk i) ((initState inp).blk j))) := by
  intro bs
  induction bs with
  | nil =>
      intro st buf nr done hst hnd hsorted hbuf hlen hdep hdle hroom hG hse
      constructor
      · intro a ha b hb hd hne
        simp only [List.append_nil] at ha hb
        exact hG a ha b hb hd hne
      · exact Or.inl rfl
  | cons b rest ih =>
      intro st buf nr done hst hnd hsorted hbuf hlen hdep hdle hroom hG hse
      have hre : done ++ b :: rest = (done ++ [b]) ++ rest := by
        rw [List.append_assoc, List.singleton_append]
      have hbd : b ∉ done := by
        intro hin
        exact (List.nodup_append.1 hnd).2.2 hin (List.mem_cons_self b rest)
      have hcross : ∀ a ∈ done,
          ((initState inp).blk a).startMin ≤ ((initState inp).blk b).startMin :=
        fun a ha => (List.pairwise_append.1 hsorted).2.2 a ha b (List.mem_cons_self b rest)
      rcases hp : pickRoom st 0 (st.blk b).startMin buf 0 with _ | ⟨k, d⟩
      · -- no eligible room: open a new one
        have heq : is1Loop 0 st (b :: rest) buf nr =
            is1Loop 0 (modB st b (fun blk => { blk with depth := nr + 1 })) rest
              (buf ++ [b]) (nr + 1) := by
          simp only [is1Loop, hp]
        rw [heq]
        have hpn := pickRoom_none st 0 (st.blk b).startMin buf 0 hp
        have hst' : ∀ i,
            ((modB st b (fun blk => { blk with depth := nr + 1 })).blk i).startMin
              = ((initState inp).blk i).startMin ∧
            ((modB st b (fun blk => { blk with depth := nr + 1 })).blk i).endMin
              = ((initState inp).blk i).endMin := by
          intro i
          obtain ⟨h1, h2⟩ := modB_depth_se st b
            (fun blk => { blk with depth := nr + 1 }) (fun blk => ⟨rfl, rfl⟩) i
          rw [h1, h2]
          exact hst i
        have hother : ∀ a ∈ done,
            (modB st b (fun blk => { blk with depth := nr + 1 })).blk a = st.blk a := by
          intro a ha
          exact modB_blk_other _ _ _ (fun h => hbd (h ▸ ha))
        have hbufne : ∀ x ∈ buf, x ≠ b := fun x hx h => hbd (h ▸ hbuf x hx)
        obtain ⟨ih1, ih2⟩ := ih (modB st b (fun blk => { blk with depth := nr + 1 }))
          (buf ++ [b]) (nr + 1) (done ++ [b]) hst'
          (by rw [← hre]; exact hnd)
          (by rw [← hre]; exact hsorted)
          (by
            intro x hx
            rcases List.mem_append.1 hx with hx | hx
            · exact List.mem_append.2 (Or.inl (hbuf x hx))
            · exact List.mem_append.2 (Or.inr hx))
          (by simp [hlen])
          (by
            intro k hk
            rcases Nat.lt_or_ge k buf.length with hkl | hkg
            · rw [getD_append_lt buf b k hkl,
                modB_blk_other _ _ _ (hbufne _ (getD_mem buf k hkl))]
              exact hdep k hkl
            · have hkeq : k = buf.length := by
                simp only [List.length_append, List.length_singleton] at hk
                omega
              subst hkeq
              rw [getD_append_len, modB_blk_same]
              simp [hlen])
          (by
            intro a ha
            rcases List.mem_append.1 ha with ha | ha
            · rw [hother a ha]
              exact le_trans (hdle a ha) (Nat.le_succ nr)
            · have hab : a = b := by simpa using ha
              subst hab
              rw [modB_blk_same])
          (by
            intro a ha k hk hak
            rcases List.mem_append.1 ha with ha | ha
            · rw [hother a ha] at hak
              have hda := hdle a ha
              have hkl : k < buf.length := by omega
              rw [getD_append_lt buf b k hkl]
              exact hroom a ha k hkl hak
            · have hab : a = b := by simpa using ha
              subst hab
              rw [modB_blk_same] at hak
              have hak' : nr + 1 = k := hak
              have hkeq : k = buf.length := by omega
              subst hkeq
              rw [getD_append_len]
              exact Or.inl rfl)
          (by
            intro a ha c hc hd hne
            rcases List.mem_append.1 ha with ha | ha <;>
              rcases List.mem_append.1 hc with hc | hc
            · rw [hother a ha, hother c hc] at hd
              exact hG a ha c hc hd hne
            · have hcb : c = b := by simpa using hc
              rw [hother a ha, hcb, modB_blk_same] at hd
              have hd' : (st.blk a).depth = nr + 1 := hd
              have hda := hdle a ha
              exact absurd hd' (by omega)
            · have hab : a = b := by simpa using ha
              rw [hother c hc, hab, modB_blk_same] at hd
              have hd' : nr + 1 = (st.blk c).depth := hd
              have hdc := hdle c hc
              exact absurd hd'.symm (by omega)
            · have hab : a = b := by simpa using ha
              have hcb : c = b := by simpa using hc
              exact absurd (hab.trans hcb.symm) hne)
          (by rw [← hre]; exact hse)
        refine ⟨?_, ?_⟩
        · intro a ha c hc hd hne
          rw [hre] at ha hc
          exact ih1 a ha c hc hd hne
        · rcases ih2 with h2 | ⟨bl, hbl⟩
          · right
            refine ⟨buf ++ [b], ?_, ?_, ?_, ?_⟩
            · rw [List.nodup_append]
              refine ⟨nodup_of_getD_inj (fun x => (st.blk x).depth) 0 buf 0
                (fun k hk => by simpa using hdep k hk), List.nodup_singleton b, ?_⟩
              intro x hx hxb
              have : x = b := by simpa using hxb
              exact hbufne x hx this
            · simp only [List.length_append, List.length_singleton, hlen, h2]
            · intro x hx
              rcases List.mem_append.1 hx with hx | hx
              · exact List.mem_append.2 (Or.inl (hbuf x hx))
              · have hxb : x = b := by simpa using hx
                rw [hxb]
                exact List.mem_append.2 (Or.inr (List.mem_cons_self b rest))
            · have hend : ∀ x ∈ buf,
                  ((initState inp).blk b).startMin < ((initState inp).blk x).endMin := by
                intro x hx
                have := hpn x hx
                rw [(hst x).2, (hst b).1] at this
                omega
              have hstart : ∀ x ∈ buf,
                  ((initState inp).blk x).startMin ≤ ((initState inp).blk b).startMin :=
                fun x hx => hcross x (hbuf x hx)
              have hseb : ((initState inp).blk b).startMin < ((initState inp).blk b).endMin :=
                hse b (List.mem_append.2 (Or.inr (List.mem_cons_self b rest)))
              rw [List.pairwise_append]
              refine ⟨?_, List.pairwise_singleton _ _, ?_⟩
              · refine (nodup_of_getD_inj (fun x => (st.blk x).depth) 0 buf 0
                  (fun k hk => by simpa using hdep k hk)).pairwise_of_forall_ne ?_
                intro x hx y hy _
                unfold Conflict
                have h1 := hend x hx
                have h2 := hend y hy
                have h3 := hstart x hx
                have h4 := hstart y hy
                omega
              · intro x hx c hc
                have hcb : c = b := by simpa using hc
                subst hcb
                unfold Conflict
                have h1 := hend x hx
                have h3 := hstart x hx
                omega
          · exact Or.inr ⟨bl, hbl.1, hbl.2.1, fun x hx => by
              rw [hre]; exact hbl.2.2.1 x hx, hbl.2.2.2⟩
      · -- eligible room k: reuse it
        obtain ⟨j, hj, hkj, hel⟩ := pickRoom_some st 0 (st.blk b).startMin buf 0 k d hp
        have hkj' : k = j := by omega
        subst hkj'
        have heq : is1Loop 0 st (b :: rest) buf nr =
            is1Loop 0 (modB st b (fun blk => { blk with depth := (st.blk (buf.getD k 0)).depth }))
              rest (buf.set k b) nr := by
          simp only [is1Loop, hp]
        rw [heq]
        have hdk := hdep k hj
        have hst' : ∀ i,
            ((modB st b (fun blk => { blk with depth := (st.blk (buf.getD k 0)).depth })).blk i).startMin
              = ((initState inp).blk i).startMin ∧
            ((modB st b (fun blk => { blk with depth := (st.blk (buf.getD k 0)).depth })).blk i).endMin
              = ((initState inp).blk i).endMin := by
          intro i
          obtain ⟨h1, h2⟩ := modB_depth_se st b
            (fun blk => { blk with depth := (st.blk (buf.getD k 0)).depth })
            (fun blk => ⟨rfl, rfl⟩) i
          rw [h1, h2]
          exact hst i
        have hbufne : ∀ x ∈ buf, x ≠ b := fun x hx h => hbd (h ▸ hbuf x hx)
        have hother : ∀ a ∈ done,
            (modB st b (fun blk => { blk with depth := (st.blk (buf.getD k 0)).depth })).blk a
              = st.blk a := by
          intro a ha
          exact modB_blk_other _ _ _ (fun h => hbd (h ▸ ha))
        have hdepb : ((modB st b
            (fun blk => { blk with depth := (st.blk (buf.getD k 0)).depth })).blk b).depth
              = k := by
          rw [modB_blk_same]
          exact hdk
        have holdmem : buf.getD k 0 ∈ done := hbuf _ (getD_mem buf k hj)
        have helI : ((initState inp).blk (buf.getD k 0)).endMin
            ≤ ((initState inp).blk b).startMin := by
          rw [(hst (buf.getD k 0)).2, (hst b).1] at hel
          omega
        -- end ≤ start of b for every done block in room k
        have hroomk : ∀ a ∈ done, (st.blk a).depth = k →
            ((initState inp).blk a).endMin ≤ ((initState inp).blk b).startMin := by
          intro a ha hak
          rcases hroom a ha k hj hak with h | h
          · rw [h]; exact helI
          · exact le_trans h (le_trans (le_of_lt (hse _ (List.mem_append.2 (Or.inl holdmem))))
              (le_trans helI (le_refl _)))
        obtain ⟨ih1, ih2⟩ := ih
          (modB st b (fun blk => { blk with depth := (st.blk (buf.getD k 0)).depth }))
          (buf.set k b) nr (done ++ [b]) hst'
          (by rw [← hre]; exact hnd)
          (by rw [← hre]; exact hsorted)
          (by
            intro x hx
            rcases List.mem_or_eq_of_mem_set hx with hx | hx
            · exact List.mem_append.2 (Or.inl (hbuf x hx))
            · exact List.mem_append.2 (Or.inr (by simp [hx])))
          (by simp [hlen])
          (by
            intro k' hk'
            rw [List.length_set] at hk'
            by_cases hkk : k' = k
            · subst hkk
              rw [getD_set_self buf _ b hk']
              exact hdepb
            · rw [getD_set_other buf k k' b hkk,
                modB_blk_other _ _ _ (hbufne _ (getD_mem buf k' hk'))]
              exact hdep k' hk')
          (by
            intro a ha
            rcases List.mem_append.1 ha with ha | ha
            · rw [hother a ha]
              exact hdle a ha
            · have hab : a = b := by simpa using ha
              rw [hab, hdepb]
              omega)
          (by
            intro a ha k' hk' hak
            rw [List.length_set] at hk'
            rcases List.mem_append.1 ha with ha | ha
            · rw [hother a ha] at hak
              by_cases hkk : k' = k
              · subst hkk
                rw [getD_set_self buf k' b hk']
                exact Or.inr (hroomk a ha hak)
              · rw [getD_set_other buf k k' b hkk]
                exact hroom a ha k' hk' hak
            · have hab : a = b := by simpa using ha
              rw [hab, hdepb] at hak
              rw [← hak, getD_set_self buf k b hj]
              exact Or.inl hab)
          (by
            intro a ha c hc hd hne
            rcases List.mem_append.1 ha with ha | ha <;>
              rcases List.mem_append.1 hc with hc | hc
            · rw [hother a ha, hother c hc] at hd
              exact hG a ha c hc hd hne
            · have hcb : c = b := by simpa using hc
              rw [hother a ha, hcb, hdepb] at hd
              rw [hcb]
              exact Or.inl (hroomk a ha hd)
            · have hab : a = b := by simpa using ha
              rw [hother c hc, hab, hdepb] at hd
              rw [hab]
              exact Or.inr (hroomk c hc hd.symm)
            · have hab : a = b := by simpa using ha
              have hcb : c = b := by simpa using hc
              exact absurd (hab.trans hcb.symm) hne)
          (by rw [← hre]; exact hse)
        refine ⟨?_, ?_⟩
        · intro a ha c hc hd hne
          rw [hre] at ha hc
          exact ih1 a ha c hc hd hne
        · rcases ih2 with h2 | ⟨bl, hbl⟩
          · exact Or.inl h2
          · exact Or.inr ⟨bl, hbl.1, hbl.2.1, fun x hx => by
              rw [hre]; exact hbl.2.2.1 x hx, hbl.2.2.2⟩



/-- Main invariant lemma for the method-2 loop with `isTolerance = 0`: the
analogue of the method-1 lemma, with the priority queue (list of each open
room's last block) in place of the room buffer. -/
theorem is2_spec (inp : Input) :
    ∀ (bs : List ℕ) (st : RState) (qu : List ℕ) (nr : ℕ) (done : List ℕ),
      (∀ i, (st.blk i).startMin = ((initState inp).blk i).startMin ∧
        (st.blk i).endMin = ((initState inp).blk i).endMin) →
      (done ++ bs).Nodup →
      ((done ++ bs).Pairwise (fun a b =>
        ((initState inp).blk a).startMin ≤ ((initState inp).blk b).startMin)) →
      (∀ x ∈ qu, x ∈ done) →
      qu ≠ [] →
      qu.Nodup →
      (qu.length = nr + 1) →
      (∀ x ∈ qu, (st.blk x).depth ≤ nr) →
      (∀ x ∈ qu, ∀ y ∈ qu, (st.blk x).depth = (st.blk y).depth → x = y) →
      (∀ a ∈ done, (st.blk a).depth ≤ nr) →
      (∀ a ∈ done, ∀ x ∈ qu, (st.blk a).depth = (st.blk x).depth →
        a = x ∨ ((initState inp).blk a).endMin ≤ ((initState inp).blk x).startMin) →
      (∀ a ∈ done, ∀ b ∈ done, (st.blk a).depth = (st.blk b).depth → a ≠ b →
        ((initState inp).blk a).endMin ≤ ((initState inp).blk b).startMin ∨
        ((initState inp).blk b).endMin ≤ ((initState inp).blk a).startMin) →
      (∀ i ∈ done ++ bs, ((initState inp).blk i).startMin < ((initState inp).blk i).endMin) →
      (∀ a ∈ done ++ bs, ∀ b ∈ done ++ bs,
        (((is2Loop 0 st bs qu nr).1).blk a).depth = (((is2Loop 0 st bs qu nr).1).blk b).depth →
        a ≠ b →
        ((initState inp).blk a).endMin ≤ ((initState inp).blk b).startMin ∨
        ((initState inp).blk b).endMin ≤ ((initState inp).blk a).startMin) ∧
      ((is2Loop 0 st bs qu nr).2 = nr ∨
        ∃ bl : List ℕ, bl.Nodup ∧ bl.length = (is2Loop 0 st bs qu nr).2 + 1 ∧
          (∀ x ∈ bl, x ∈ done ++ bs) ∧
          bl.Pairwise (fun i j => Conflict 0 ((initState inp).blk i) ((initState inp).blk j))) := by
  intro bs
  induction bs with
  | nil =>
      intro st qu nr done hst hnd hsorted hqmem hqne hqnd hqlen hqdeple hqinj hdle hroomQ hG hse
      constructor
      · intro a ha b hb hd hne
        simp only [List.append_nil] at ha hb
        exact hG a ha b hb hd hne
      · exact Or.inl rfl
  | cons b rest ih =>
      intro st qu nr done hst hnd hsorted hqmem hqne hqnd hqlen hqdeple hqinj hdle hroomQ hG hse
      rcases qu with _ | ⟨q, qrest⟩
      · exact absurd rfl hqne
      have hre : done ++ b :: rest = (done ++ [b]) ++ rest := by
        rw [List.append_assoc, List.singleton_append]
      have hbd : b ∉ done := by
        intro hin
        exact (List.nodup_append.1 hnd).2.2 hin (List.mem_cons_self b rest)
      have hcross : ∀ a ∈ done,
          ((initState inp).blk a).startMin ≤ ((initState inp).blk b).startMin :=
        fun a ha => (List.pairwise_append.1 hsorted).2.2 a ha b (List.mem_cons_self b rest)
      have htopmem : qtop st qrest q ∈ q :: qrest := qtop_mem st qrest q
      have htople : ∀ x ∈ q :: qrest,
          (st.blk (qtop st qrest q)).endMin ≤ (st.blk x).endMin := qtop_end_le st qrest q
      have hqb : ∀ x ∈ q :: qrest, x ≠ b := fun x hx h => hbd (h ▸ hqmem x hx)
      by_cases hc : (st.blk b).startMin < (st.blk (qtop st qrest q)).endMin + 0
      · -- conflict with the minimal-end room: open a new room
        have heq : is2Loop 0 st (b :: rest) (q :: qrest) nr =
            is2Loop 0 (modB st b (fun blk => { blk with depth := nr + 1 })) rest
              (b :: q :: qrest) (nr + 1) := by
          simp only [is2Loop]
          rw [if_pos hc]
        rw [heq]
        have hst' : ∀ i,
            ((modB st b (fun blk => { blk with depth := nr + 1 })).blk i).startMin
              = ((initState inp).blk i).startMin ∧
            ((modB st b (fun blk => { blk with depth := nr + 1 })).blk i).endMin
              = ((initState inp).blk i).endMin := by
          intro i
          obtain ⟨h1, h2⟩ := modB_depth_se st b
            (fun blk => { blk with depth := nr + 1 }) (fun blk => ⟨rfl, rfl⟩) i
          rw [h1, h2]
          exact hst i
        have hother : ∀ a ∈ done,
            (modB st b (fun blk => { blk with depth := nr + 1 })).blk a = st.blk a := by
          intro a ha
          exact modB_blk_other _ _ _ (fun h => hbd (h ▸ ha))
        have hdepbN : ((modB st b (fun blk => { blk with depth := nr + 1 })).blk b).depth
            = nr + 1 := by
          rw [modB_blk_same]
        obtain ⟨ih1, ih2⟩ := ih (modB st b (fun blk => { blk with depth := nr + 1 }))
          (b :: q :: qrest) (nr + 1) (done ++ [b]) hst'
          (by rw [← hre]; exact hnd)
          (by rw [← hre]; exact hsorted)
          (by
            intro x hx
            rcases List.mem_cons.1 hx with hx | hx
            · rw [hx]
              exact List.mem_append.2 (Or.inr (List.mem_singleton_self b))
            · exact List.mem_append.2 (Or.inl (hqmem x hx)))
          (by simp)
          (by
            rw [List.nodup_cons]
            exact ⟨fun hin => hbd (hqmem b hin), hqnd⟩)
          (by simp [hqlen])
          (by
            intro x hx
            rcases List.mem_cons.1 hx with hx | hx
            · rw [hx, hdepbN]
            · rw [modB_blk_other _ _ _ (hqb x hx)]
              exact le_trans (hqdeple x hx) (Nat.le_succ nr))
          (by
            intro x hx y hy hd
            rcases List.mem_cons.1 hx with hx | hx <;> rcases List.mem_cons.1 hy with hy | hy
            · rw [hx, hy]
            · rw [hx, hdepbN, modB_blk_other _ _ _ (hqb y hy)] at hd
              have := hqdeple y hy
              exact absurd hd (by omega)
            · rw [hy, hdepbN, modB_blk_other _ _ _ (hqb x hx)] at hd
              have := hqdeple x hx
              exact absurd hd.symm (by omega)
            · rw [modB_blk_other _ _ _ (hqb x hx), modB_blk_other _ _ _ (hqb y hy)] at hd
              exact hqinj x hx y hy hd)
          (by
            intro a ha
            rcases List.mem_append.1 ha with ha | ha
            · rw [hother a ha]
              exact le_trans (hdle a ha) (Nat.le_succ nr)
            · have hab : a = b := by simpa using ha
              rw [hab, hdepbN])
          (by
            intro a ha x hx hd
            rcases List.mem_append.1 ha with ha | ha <;> rcases List.mem_cons.1 hx with hx | hx
            · rw [hother a ha, hx, hdepbN] at hd
              have := hdle a ha
              exact absurd hd (by omega)
            · rw [hother a ha, modB_blk_other _ _ _ (hqb x hx)] at hd
              exact hroomQ a ha x hx hd
            · have hab : a = b := by simpa using ha
              rw [hab, hx]
              exact Or.inl rfl
            · have hab : a = b := by simpa using ha
              rw [hab, hdepbN, modB_blk_other _ _ _ (hqb x hx)] at hd
              have := hqdeple x hx
              exact absurd hd (by omega))
          (by
            intro a ha c hcm hd hne
            rcases List.mem_append.1 ha with ha | ha <;>
              rcases List.mem_append.1 hcm with hcm | hcm
            · rw [hother a ha, hother c hcm] at hd
              exact hG a ha c hcm hd hne
            · have hcb : c = b := by simpa using hcm
              rw [hother a ha, hcb, hdepbN] at hd
              have := hdle a ha
              exact absurd hd (by omega)
            · have hab : a = b := by simpa using ha
              rw [hother c hcm, hab, hdepbN] at hd
              have := hdle c hcm
              exact absurd hd.symm (by omega)
            · have hab : a = b := by simpa using ha
              have hcb : c = b := by simpa using hcm
              exact absurd (hab.trans hcb.symm) hne)
          (by rw [← hre]; exact hse)
        refine ⟨?_, ?_⟩
        · intro a ha c hcm hd hne
          rw [hre] at ha hcm
          exact ih1 a ha c hcm hd hne
        · rcases ih2 with h2 | ⟨bl, hbl⟩
          · right
            refine ⟨(q :: qrest) ++ [b], ?_, ?_, ?_, ?_⟩
            · rw [List.nodup_append]
              refine ⟨hqnd, List.nodup_singleton b, ?_⟩
              intro x hx hxb
              have hxb' : x = b := by simpa using hxb
              exact hqb x hx hxb'
            · simp only [List.length_append, List.length_singleton, hqlen, h2]
            · intro x hx
              rcases List.mem_append.1 hx with hx | hx
              · exact List.mem_append.2 (Or.inl (hqmem x hx))
              · have hxb : x = b := by simpa using hx
                rw [hxb]
                exact List.mem_append.2 (Or.inr (List.mem_cons_self b rest))
            · have hend : ∀ x ∈ q :: qrest,
                  ((initState inp).blk b).startMin < ((initState inp).blk x).endMin := by
                intro x hx
                have h1 := htople x hx
                have h2 := (hst b).1
                have h3 := (hst x).2
                have h4 := (hst (qtop st qrest q)).2
                omega
              have hstart : ∀ x ∈ q :: qrest,
                  ((initState inp).blk x).startMin ≤ ((initState inp).blk b).startMin :=
                fun x hx => hcross x (hqmem x hx)
              have hseb : ((initState inp).blk b).startMin < ((initState inp).blk b).endMin :=
                hse b (List.mem_append.2 (Or.inr (List.mem_cons_self b rest)))
              rw [List.pairwise_append]
              refine ⟨?_, List.pairwise_singleton _ _, ?_⟩
              · refine hqnd.pairwise_of_forall_ne ?_
                intro x hx y hy _
                unfold Conflict
                have h1 := hend x hx
                have h2 := hend y hy
                have h3 := hstart x hx
                have h4 := hstart y hy
                omega
              · intro x hx c hcm
                have hcb : c = b := by simpa using hcm
                rw [hcb]
                unfold Conflict
                have h1 := hend x hx
                have h3 := hstart x hx
                omega
          · exact Or.inr ⟨bl, hbl.1, hbl.2.1, fun x hx => by
              rw [hre]; exact hbl.2.2.1 x hx, hbl.2.2.2⟩
      · -- no conflict with the minimal-end room: reuse it
        have heq : is2Loop 0 st (b :: rest) (q :: qrest) nr =
            is2Loop 0
              (modB st b (fun blk => { blk with depth := (st.blk (qtop st qrest q)).depth }))
              rest (b :: (q :: qrest).erase (qtop st qrest q)) nr := by
          simp only [is2Loop]
          rw [if_neg hc]
        rw [heq]
        have heligI : ((initState inp).blk (qtop st qrest q)).endMin
            ≤ ((initState inp).blk b).startMin := by
          have h1 := (hst b).1
          have h2 := (hst (qtop st qrest q)).2
          omega
        have hst' : ∀ i,
            ((modB st b (fun blk =>
              { blk with depth := (st.blk (qtop st qrest q)).depth })).blk i).startMin
              = ((initState inp).blk i).startMin ∧
            ((modB st b (fun blk =>
              { blk with depth := (st.blk (qtop st qrest q)).depth })).blk i).endMin
              = ((initState inp).blk i).endMin := by
          intro i
          obtain ⟨h1, h2⟩ := modB_depth_se st b
            (fun blk => { blk with depth := (st.blk (qtop st qrest q)).depth })
            (fun blk => ⟨rfl, rfl⟩) i
          rw [h1, h2]
          exact hst i
        have hother : ∀ a ∈ done,
            (modB st b (fun blk =>
              { blk with depth := (st.blk (qtop st qrest q)).depth })).blk a = st.blk a := by
          intro a ha
          exact modB_blk_other _ _ _ (fun h => hbd (h ▸ ha))
        have hdepbR : ((modB st b (fun blk =>
            { blk with depth := (st.blk (qtop st qrest q)).depth })).blk b).depth
              = (st.blk (qtop st qrest q)).depth := by
          rw [modB_blk_same]
        have hroomk : ∀ a ∈ done, (st.blk a).depth = (st.blk (qtop st qrest q)).depth →
            ((initState inp).blk a).endMin ≤ ((initState inp).blk b).startMin := by
          intro a ha hak
          rcases hroomQ a ha (qtop st qrest q) htopmem hak with h | h
          · rw [h]
            exact heligI
          · exact le_trans h (le_trans (le_of_lt
              (hse _ (List.mem_append.2 (Or.inl (hqmem _ htopmem))))) heligI)
        have herQ : ∀ x ∈ (q :: qrest).erase (qtop st qrest q),
            x ≠ qtop st qrest q ∧ x ∈ q :: qrest := by
          intro x hx
          exact (hqnd.mem_erase_iff).1 hx
        obtain ⟨ih1, ih2⟩ := ih
          (modB st b (fun blk => { blk with depth := (st.blk (qtop st qrest q)).depth }))
          (b :: (q :: qrest).erase (qtop st qrest q)) nr (done ++ [b]) hst'
          (by rw [← hre]; exact hnd)
          (by rw [← hre]; exact hsorted)
          (by
            intro x hx
            rcases List.mem_cons.1 hx with hx | hx
            · rw [hx]
              exact List.mem_append.2 (Or.inr (List.mem_singleton_self b))
            · exact List.mem_append.2 (Or.inl (hqmem x (herQ x hx).2)))
          (by simp)
          (by
            rw [List.nodup_cons]
            exact ⟨fun hin => hbd (hqmem b (herQ b hin).2), hqnd.erase _⟩)
          (by
            have hlenq := hqlen
            simp only [List.length_cons] at hlenq
            simp only [List.length_cons, List.length_erase_of_mem htopmem]
            omega)
          (by
            intro x hx
            rcases List.mem_cons.1 hx with hx | hx
            · rw [hx, hdepbR]
              exact hqdeple _ htopmem
            · rw [modB_blk_other _ _ _ (hqb x (herQ x hx).2)]
              exact hqdeple x (herQ x hx).2)
          (by
            intro x hx y hy hd
            rcases List.mem_cons.1 hx with hx | hx <;> rcases List.mem_cons.1 hy with hy | hy
            · rw [hx, hy]
            · rw [hx, hdepbR, modB_blk_other _ _ _ (hqb y (herQ y hy).2)] at hd
              exact absurd (hqinj _ htopmem y (herQ y hy).2 hd).symm (herQ y hy).1
            · rw [hy, hdepbR, modB_blk_other _ _ _ (hqb x (herQ x hx).2)] at hd
              exact absurd (hqinj _ htopmem x (herQ x hx).2 hd.symm).symm (herQ x hx).1
            · rw [modB_blk_other _ _ _ (hqb x (herQ x hx).2),
                modB_blk_other _ _ _ (hqb y (herQ y hy).2)] at hd
              exact hqinj x (herQ x hx).2 y (herQ y hy).2 hd)
          (by
            intro a ha
            rcases List.mem_append.1 ha with ha | ha
            · rw [hother a ha]
              exact hdle a ha
            · have hab : a = b := by simpa using ha
              rw [hab, hdepbR]
              exact hqdeple _ htopmem)
          (by
            intro a ha x hx hd
            rcases List.mem_append.1 ha with ha | ha <;> rcases List.mem_cons.1 hx with hx | hx
            · rw [hother a ha, hx, hdepbR] at hd
              rw [hx]
              exact Or.inr (hroomk a ha hd)
            · rw [hother a ha, modB_blk_other _ _ _ (hqb x (herQ x hx).2)] at hd
              exact hroomQ a ha x (herQ x hx).2 hd
            · have hab : a = b := by simpa using ha
              rw [hab, hx]
              exact Or.inl rfl
            · have hab : a = b := by simpa using ha
              rw [hab, hdepbR, modB_blk_other _ _ _ (hqb x (herQ x hx).2)] at hd
              exact absurd (hqinj _ htopmem x (herQ x hx).2 hd).symm (herQ x hx).1)
          (by
            intro a ha c hcm hd hne
            rcases List.mem_append.1 ha with ha | ha <;>
              rcases List.mem_append.1 hcm with hcm | hcm
            · rw [hother a ha, hother c hcm] at hd
              exact hG a ha c hcm hd hne
            · have hcb : c = b := by simpa using hcm
              rw [hother a ha, hcb, hdepbR] at hd
              rw [hcb]
              exact Or.inl (hroomk a ha hd)
            · have hab : a = b := by simpa using ha
              rw [hother c hcm, hab, hdepbR] at hd
              rw [hab]
              exact Or.inr (hroomk c hcm hd.symm)
            · have hab : a = b := by simpa using ha
              have hcb : c = b := by simpa using hcm
              exact absurd (hab.trans hcb.symm) hne)
          (by rw [← hre]; exact hse)
        refine ⟨?_, ?_⟩
        · intro a ha c hcm hd hne
          rw [hre] at ha hcm
          exact ih1 a ha c hcm hd hne
        · rcases ih2 with h2 | ⟨bl, hbl⟩
          · exact Or.inl h2
          · exact Or.inr ⟨bl, hbl.1, hbl.2.1, fun x hx => by
              rw [hre]; exact hbl.2.2.1 x hx, hbl.2.2.2⟩



theorem getD_mem_pair : ∀ (l : List (ℤ × ℤ)) (k : ℕ), k < l.length → l.getD k (0, 0) ∈ l := by
  intro l
  induction l with
  | nil => intro k hk; exact absurd hk (by simp)
  | cons x t ih =>
      intro k hk
      cases k with
      | zero => exact List.mem_cons_self x t
      | succ m => exact List.mem_cons_of_mem x (ih m (by simpa using hk))

/-- On a valid input every initialized block satisfies `startMin < endMin`. -/
theorem initState_se (inp : Input) (hv : ValidInput inp) (i : ℕ) (hi : i < inp.length) :
    ((initState inp).blk i).startMin < ((initState inp).blk i).endMin :=
  hv _ (getD_mem_pair inp i hi)

/-- A list on which `f` is injective with values below `N` has length at most `N`. -/
theorem length_le_of_inj (f : ℕ → ℕ) (N : ℕ) (bl : List ℕ)
    (hnd : bl.Nodup) (hf : ∀ x ∈ bl, f x < N)
    (hinj : ∀ x ∈ bl, ∀ y ∈ bl, f x = f y → x = y) :
    bl.length ≤ N := by
  have h1 : (bl.map f).Nodup := hnd.map_on hinj
  have h2 : (bl.map f).toFinset ⊆ Finset.range N := by
    intro x hx
    rw [List.mem_toFinset] at hx
    rw [Finset.mem_range]
    obtain ⟨y, hy, rfl⟩ := List.mem_map.1 hx
    exact hf y hy
  have h3 := Finset.card_le_card h2
  rw [Finset.card_range, List.toFinset_card_of_nodup h1] at h3
  simpa using h3

/-- Any nodup pairwise-conflicting list of block indices bounds `cliqueNum`
from below. -/
theorem cliqueNum_of_list (st : RState) (tol : ℤ) (bl : List ℕ)
    (hnd : bl.Nodup) (hmem : ∀ x ∈ bl, x < st.n)
    (hpw : bl.Pairwise (fun i j => Conflict tol (st.blk i) (st.blk j))) :
    bl.length ≤ cliqueNum st tol := by
  set l := (List.range st.n).filter (fun x => decide (x ∈ bl)) with hl
  have hsub : l.Sublist (List.range st.n) := List.filter_sublist _
  have hndl : l.Nodup := (List.nodup_range st.n).filter _
  have hmeml : ∀ x, x ∈ l ↔ x ∈ bl := by
    intro x
    rw [hl, List.mem_filter, List.mem_range]
    constructor
    · rintro ⟨_, h⟩
      exact of_decide_eq_true h
    · intro h
      exact ⟨hmem x h, decide_eq_true h⟩
  have hlen : l.length = bl.length := by
    have e1 : l.toFinset = bl.toFinset := by
      ext x
      rw [List.mem_toFinset, List.mem_toFinset, hmeml]
    calc l.length = l.toFinset.card := (List.toFinset_card_of_nodup hndl).symm
      _ = bl.toFinset.card := by rw [e1]
      _ = bl.length := List.toFinset_card_of_nodup hnd
  have hsymm : Symmetric (fun i j => Conflict tol (st.blk i) (st.blk j)) :=
    fun i j h => h.symm
  have hpwl : l.Pairwise (fun i j => Conflict tol (st.blk i) (st.blk j)) :=
    hndl.pairwise_of_forall_ne (fun x hx y hy hne =>
      hpw.forall hsymm ((hmeml x).1 hx) ((hmeml y).1 hy) hne)
  have hmain := cliqueNum_ge st tol ((mem_cliqueLists st tol l).2 ⟨hsub, hpwl⟩)
  rw [hlen] at hmain
  exact hmain

theorem intervalScheduling_cons (tol : ℤ) (st : RState) (b0 : ℕ) (rest : List ℕ) :
    intervalScheduling tol st (b0 :: rest)
      = ((is1Loop tol st rest [b0] 0).1, (is1Loop tol st rest [b0] 0).2 + 1) := rfl

theorem intervalScheduling2_cons (tol : ℤ) (st : RState) (b0 : ℕ) (rest : List ℕ) :
    intervalScheduling2 tol st (b0 :: rest)
      = ((is2Loop tol st rest [b0] 0).1, (is2Loop tol st rest [b0] 0).2 + 1) := rfl

/-- Stage S1 with `isTolerance = 0` on a fresh valid state: (1) distinct
blocks assigned the same depth are disjoint in time, and (2) there is a
pairwise-conflicting set of exactly `total` blocks. -/
theorem stageS1_spec (o : Opts) (inp : Input) (ord : List ℕ)
    (htol : o.isTolerance = 0) (hv : ValidInput inp)
    (hord : IsStartOrder (initState inp) ord) :
    (∀ a ∈ ord, ∀ b ∈ ord,
      (((stageS1 o (initState inp) ord).1).blk a).depth
        = (((stageS1 o (initState inp) ord).1).blk b).depth → a ≠ b →
      ((initState inp).blk a).endMin ≤ ((initState inp).blk b).startMin ∨
      ((initState inp).blk b).endMin ≤ ((initState inp).blk a).startMin) ∧
    (∃ bl : List ℕ, bl.Nodup ∧ bl.length = (stageS1 o (initState inp) ord).2 ∧
      (∀ x ∈ bl, x ∈ ord) ∧
      bl.Pairwise (fun i j => Conflict 0 ((initState inp).blk i) ((initState inp).blk j))) := by
  have hndord : ord.Nodup := hord.1.nodup_iff.2 (List.nodup_range _)
  have hsorted : ord.Pairwise (fun a b =>
      ((initState inp).blk a).startMin ≤ ((initState inp).blk b).startMin) := by
    refine hord.2.imp ?_
    intro a b h
    rcases h with h | ⟨h, _⟩
    · exact le_of_lt h
    · exact le_of_eq h
  have hse : ∀ i ∈ ord,
      ((initState inp).blk i).startMin < ((initState inp).blk i).endMin := by
    intro i hi
    exact initState_se inp hv i (List.mem_range.1 (hord.1.mem_iff.1 hi))
  cases ord with
  | nil =>
      refine ⟨?_, [], List.nodup_nil, ?_, ?_, List.Pairwise.nil⟩
      · intro a ha
        exact absurd ha (List.not_mem_nil a)
      · show 0 = (stageS1 o (initState inp) []).2
        unfold stageS1 intervalScheduling intervalScheduling2
        split <;> rfl
      · intro x hx
        exact absurd hx (List.not_mem_nil x)
  | cons b0 rest =>
      unfold stageS1
      by_cases hm : o.ISMethod = 1
      · rw [if_pos hm, htol, intervalScheduling_cons]
        obtain ⟨h1, h2⟩ := is1_spec inp rest (initState inp) [b0] 0 [b0]
          (fun i => ⟨rfl, rfl⟩) hndord hsorted (fun x hx => hx) rfl
          (fun k hk => by
            have hk0 : k = 0 := by simpa using hk
            rw [hk0]
            rfl)
          (fun a _ => Nat.le_refl 0)
          (fun a ha k hk hak => by
            have ha0 : a = b0 := by simpa using ha
            have hk0 : k = 0 := by simpa using hk
            rw [ha0, hk0]
            exact Or.inl rfl)
          (fun a ha c hc hd hne => by
            have ha0 : a = b0 := by simpa using ha
            have hc0 : c = b0 := by simpa using hc
            exact absurd (ha0.trans hc0.symm) hne)
          hse
        refine ⟨?_, ?_⟩
        · intro a ha c hc hd hne
          exact h1 a ha c hc hd hne
        · rcases h2 with h2 | ⟨bl, hbl⟩
          · refine ⟨[b0], List.nodup_singleton b0, ?_, ?_, List.pairwise_singleton _ _⟩
            · show 1 = (is1Loop 0 (initState inp) rest [b0] 0).2 + 1
              rw [h2]
            · intro x hx
              have hx0 : x = b0 := by simpa using hx
              rw [hx0]
              exact List.mem_cons_self b0 rest
          · exact ⟨bl, hbl.1, hbl.2.1, hbl.2.2.1, hbl.2.2.2⟩
      · rw [if_neg hm, htol, intervalScheduling2_cons]
        obtain ⟨h1, h2⟩ := is2_spec inp rest (initState inp) [b0] 0 [b0]
          (fun i => ⟨rfl, rfl⟩) hndord hsorted (fun x hx => hx)
          (List.cons_ne_nil b0 []) (List.nodup_singleton b0) rfl
          (fun x _ => Nat.le_refl 0)
          (fun x hx y hy _ => by
            have hx0 : x = b0 := by simpa using hx
            have hy0 : y = b0 := by simpa using hy
            rw [hx0, hy0])
          (fun a _ => Nat.le_refl 0)
          (fun a ha x hx _ => by
            have ha0 : a = b0 := by simpa using ha
            have hx0 : x = b0 := by simpa using hx
            exact Or.inl (ha0.trans hx0.symm))
          (fun a ha c hc hd hne => by
            have ha0 : a = b0 := by simpa using ha
            have hc0 : c = b0 := by simpa using hc
            exact absurd (ha0.trans hc0.symm) hne)
          hse
        refine ⟨?_, ?_⟩
        · intro a ha c hc hd hne
          exact h1 a ha c hc hd hne
        · rcases h2 with h2 | ⟨bl, hbl⟩
          · refine ⟨[b0], List.nodup_singleton b0, ?_, ?_, List.pairwise_singleton _ _⟩
            · show 1 = (is2Loop 0 (initState inp) rest [b0] 0).2 + 1
              rw [h2]
            · intro x hx
              have hx0 : x = b0 := by simpa using hx
              rw [hx0]
              exact List.mem_cons_self b0 rest
          · exact ⟨bl, hbl.1, hbl.2.1, hbl.2.2.1, hbl.2.2.2⟩

/-- C3 (amended): with `isTolerance = 0` and a valid input, for both method
selectors (`ISMethod = 1`, the greedy lowest-index-room partitioner, and any
other value selecting the priority-queue partitioner), the room count
returned by stage S1 equals the maximum clique size of the conflict graph at
tolerance 0 (the maximum number of pairwise-overlapping blocks); in
particular the two methods return the same count. With a nonzero tolerance
the equality and the agreement of the two methods both fail. -/
theorem C3_amended (o : Opts) (inp : Input) (ord : List ℕ)
    (htol : o.isTolerance = 0) (hv : ValidInput inp)
    (hord : IsStartOrder (initState inp) ord) :
    (stageS1 o (initState inp) ord).2 = cliqueNum (initState inp) 0 := by
  obtain ⟨h1, bl, hblnd, hbllen, hblmem, hblpw⟩ := stageS1_spec o inp ord htol hv hord
  have hge : (stageS1 o (initState inp) ord).2 ≤ cliqueNum (initState inp) 0 := by
    rw [← hbllen]
    exact cliqueNum_of_list (initState inp) 0 bl hblnd
      (fun x hx => List.mem_range.1 (hord.1.mem_iff.1 (hblmem x hx))) hblpw
  have hle : cliqueNum (initState inp) 0 ≤ (stageS1 o (initState inp) ord).2 := by
    cases ord with
    | nil =>
        refine le_trans (cliqueNum_le _ _ 0 ?_) (Nat.zero_le _)
        intro l hl
        obtain ⟨hsub, _⟩ := (mem_cliqueLists _ _ l).1 hl
        have hn0 : (initState inp).n = 0 :=
          List.range_eq_nil.1 hord.1.symm.eq_nil
        rw [hn0] at hsub
        simp only [List.range_zero, List.sublist_nil] at hsub
        simp [hsub]
    | cons b0 rest =>
        obtain ⟨htot1, hdlt⟩ := stageS1_depth_lt o (initState inp) (b0 :: rest)
          (fun i => rfl) (List.cons_ne_nil b0 rest)
        refine cliqueNum_le _ _ _ ?_
        intro l hl
        obtain ⟨hsub, hpwl⟩ := (mem_cliqueLists _ _ l).1 hl
        have hndl : l.Nodup := List.Nodup.sublist hsub (List.nodup_range _)
        have hsymm : Symmetric (fun i j =>
            Conflict 0 ((initState inp).blk i) ((initState inp).blk j)) :=
          fun i j h => h.symm
        refine length_le_of_inj
          (fun x => (((stageS1 o (initState inp) (b0 :: rest)).1).blk x).depth) _ l hndl
          (fun x _ => hdlt x) ?_
        intro x hx y hy hfxy
        by_contra hne
        have hconf := hpwl.forall hsymm hx hy hne
        have hmx : x ∈ b0 :: rest := hord.1.mem_iff.2 (hsub.subset hx)
        have hmy : y ∈ b0 :: rest := hord.1.mem_iff.2 (hsub.subset hy)
        have hdisj := h1 x hmx y hmy hfxy hne
        unfold Conflict at hconf
        omega
  exact Nat.le_antisymm hge hle

theorem C3_witness :
    oPlain.isTolerance = 0 ∧ ValidInput [((0:ℤ),(10:ℤ))] ∧
    IsStartOrder (initState [((0:ℤ),(10:ℤ))]) [0] ∧
    (stageS1 oPlain (initState [((0:ℤ),(10:ℤ))]) [0]).2
      = cliqueNum (initState [((0:ℤ),(10:ℤ))]) 0 :=
  ⟨rfl, by decide, by decide,
    C3_amended oPlain [((0:ℤ),(10:ℤ))] [0] rfl (by decide) (by decide)⟩



/-! ## Claim C1 — separation of conflicting pairs -/

theorem sublist_pair_of_mem {x y : ℕ} (hne : x ≠ y) :
    ∀ {l : List ℕ}, x ∈ l → y ∈ l → [x, y].Sublist l ∨ [y, x].Sublist l := by
  intro l
  induction l with
  | nil => intro hx _; exact absurd hx (List.not_mem_nil x)
  | cons c t ih =>
      intro hx hy
      rcases List.mem_cons.1 hx with hxc | hxt
      · have hyt : y ∈ t := by
          rcases List.mem_cons.1 hy with hyc | h
          · exact absurd (hxc.trans hyc.symm) hne
          · exact h
        left
        rw [hxc]
        exact (List.singleton_sublist.2 hyt).cons₂ c
      · rcases List.mem_cons.1 hy with hyc | hyt
        · right
          rw [hyc]
          exact (List.singleton_sublist.2 hxt).cons₂ c
        · rcases ih hxt hyt with h | h
          · exact Or.inl (h.cons c)
          · exact Or.inr (h.cons c)

/-- With `isTolerance = 0` and a nonnegative `dfsTolerance`, two distinct
conflicting blocks end stage S1 with different depths. -/
theorem conflict_depth_ne (o : Opts) (inp : Input) (ord : List ℕ)
    (htol : o.isTolerance = 0) (hv : ValidInput inp)
    (hord : IsStartOrder (initState inp) ord) (hdtol : 0 ≤ o.dfsTolerance)
    {a b : ℕ} (ha : a ∈ ord) (hb : b ∈ ord) (hne : a ≠ b)
    (hc : Conflict o.dfsTolerance ((initState inp).blk a) ((initState inp).blk b)) :
    (((afterS1 o inp ord).1).blk a).depth ≠ (((afterS1 o inp ord).1).blk b).depth := by
  intro hd
  have h1 := (stageS1_spec o inp ord htol hv hord).1 a ha b hb hd hne
  unfold Conflict at hc
  omega

/-- A conflicting pair with the first block deeper is recorded by the S2
scan: the shallower block enters the deeper block's `leftN`. -/
theorem conflict_leftN (o : Opts) (inp : Input) (ord : List ℕ)
    (hord : IsStartOrder (initState inp) ord)
    {a b : ℕ} (ha : a ∈ ord) (hb : b ∈ ord) (hne : a ≠ b)
    (hc : Conflict o.dfsTolerance ((initState inp).blk a) ((initState inp).blk b))
    (hd : (((afterS1 o inp ord).1).blk b).depth < (((afterS1 o inp ord).1).blk a).depth) :
    b ∈ ((preSeed o inp ord).blk a).leftN := by
  have hL : ((preSeed o inp ord).blk a).leftN = ((stS2 o inp ord).blk a).leftN := by
    rw [preSeed_eq]
    exact (condense_keeps (stS2 o inp ord) a).1
  rw [hL]
  show b ∈ ((constructAdjList o.dfsTolerance (afterS1 o inp ord).1 ord).blk a).leftN
  have hchar := (constructAdjList_char o.dfsTolerance (afterS1 o inp ord).1 ord
    (fun i => (afterS1_adjEmpty o inp ord i).1)
    (fun i => (afterS1_adjEmpty o inp ord i).2.1)
    (afterS1_matrix o inp ord)
    (afterS1_sorted o hord) a b).1
  unfold Conflict at hc
  refine hchar.2 ?_
  rcases sublist_pair_of_mem hne ha hb with hs | hs
  · refine ⟨a, b, ⟨hs, ?_⟩, Or.inr ⟨not_lt.2 (le_of_lt hd), rfl, rfl⟩⟩
    have h1 := (afterS1_se o inp ord a).2
    have h2 := (afterS1_se o inp ord b).1
    omega
  · refine ⟨b, a, ⟨hs, ?_⟩, Or.inl ⟨hd, rfl, rfl⟩⟩
    have h1 := (afterS1_se o inp ord b).2
    have h2 := (afterS1_se o inp ord a).1
    omega

/-- A conflicting pair is scanned by `buildMILPModel` (in one direction). -/
theorem conflict_milpPair (o : Opts) (inp : Input) (ord : List ℕ)
    (hord : IsStartOrder (initState inp) ord)
    {a b : ℕ} (ha : a ∈ ord) (hb : b ∈ ord) (hne : a ≠ b)
    (hc : Conflict o.dfsTolerance ((initState inp).blk a) ((initState inp).blk b)) :
    (a, b) ∈ milpPairs o.dfsTolerance (afterS1 o inp ord).1 ord ∨
    (b, a) ∈ milpPairs o.dfsTolerance (afterS1 o inp ord).1 ord := by
  unfold Conflict at hc
  rcases sublist_pair_of_mem hne ha hb with hs | hs
  · left
    refine (milpPairs_mem_iff o.dfsTolerance (afterS1 o inp ord).1 ord
      (afterS1_sorted o hord) a b).2 ⟨hs, ?_⟩
    have h1 := (afterS1_se o inp ord a).2
    have h2 := (afterS1_se o inp ord b).1
    omega
  · right
    refine (milpPairs_mem_iff o.dfsTolerance (afterS1 o inp ord).1 ord
      (afterS1_sorted o hord) b a).2 ⟨hs, ?_⟩
    have h1 := (afterS1_se o inp ord b).2
    have h2 := (afterS1_se o inp ord a).1
    omega

/-- `cleftN` chains stay inside the block array. -/
theorem CPath_lt (o : Opts) (inp : Input) (ord : List ℕ)
    (hord : IsStartOrder (initState inp) ord) {a v : ℕ}
    (hp : CPath (preSeed o inp ord) a v) : v < (preSeed o inp ord).n := by
  cases hp with
  | base u hm => exact preSeed_cleftN_lt o inp ord hord _ _ hm
  | step w u hpw hm => exact preSeed_cleftN_lt o inp ord hord _ _ hm

/-- `pathDepth` after stage S4 is monotone along `cleftN` chains. -/
theorem CPath_pathDepth (o : Opts) (inp : Input) (ord ordD : List ℕ)
    (hord : IsStartOrder (initState inp) ord)
    (hordD : IsDepthOrder (preSeed o inp ord) ordD)
    {a v : ℕ} (ha : a < (preSeed o inp ord).n)
    (hp : CPath (preSeed o inp ord) a v) :
    ((seedDfs o inp ord ordD).blk a).pathDepth
      ≤ ((seedDfs o inp ord ordD).blk v).pathDepth := by
  have main : ∀ x y, CPath (preSeed o inp ord) x y → x < (preSeed o inp ord).n →
      ((seedDfs o inp ord ordD).blk x).pathDepth
        ≤ ((seedDfs o inp ord ordD).blk y).pathDepth := by
    intro x y hpxy
    induction hpxy with
    | base u hm =>
        intro hi
        exact (seedDfs_spec o inp ord ordD hord hordD x hi).2.2.1 u hm
    | step w u hpw hm ih =>
        intro hi
        have hw : w < (preSeed o inp ord).n := CPath_lt o inp ord hord hpw
        exact le_trans (ih hi) ((seedDfs_spec o inp ord ordD hord hordD w hw).2.2.1 u hm)
  exact main a v hp ha

/-- One-sided separation implies the two intervals do not overlap (with
room for the epsilon). -/
theorem sep_nonoverlap {la wa lb wb : ℚ}
    (h : la + wa ≤ lb ∨ lb + wb ≤ la) :
    rmin (la + wa) (lb + wb) ≤ rmax la lb + DOUBLE_EPS := by
  have he : (0:ℚ) ≤ DOUBLE_EPS := by norm_num [DOUBLE_EPS]
  unfold rmin rmax
  rcases h with h | h <;> split_ifs <;> linarith

/-- Separation of the seeded layouts: the interval of a block with a
smaller depth and a no-smaller path depth ends before the deeper block's
interval starts. -/
theorem seed_sep (ds dd ps pd : ℕ) (hd : ds + 1 ≤ dd) (hp : pd ≤ ps)
    (hpd : 1 ≤ pd) :
    (ds : ℚ) / (ps : ℚ) + 1 / (ps : ℚ) ≤ (dd : ℚ) / (pd : ℚ) := by
  have hpd' : 0 < pd := hpd
  have hps' : 0 < ps := lt_of_lt_of_le hpd' hp
  have hpd0 : (0:ℚ) < (pd:ℚ) := by exact_mod_cast hpd'
  have hps0 : (0:ℚ) < (ps:ℚ) := by exact_mod_cast hps'
  rw [div_add_div_same, div_le_div_iff hps0 hpd0]
  have h1 : ((ds:ℚ) + 1) ≤ (dd:ℚ) := by exact_mod_cast hd
  have h2 : (pd:ℚ) ≤ (ps:ℚ) := by exact_mod_cast hp
  exact mul_le_mul h1 h2 (le_of_lt hpd0) (by positivity)

theorem writebackM_blk (st : RState) (l w : ℕ → ℚ) {i : ℕ} (hi : i < st.n) :
    ((writebackM st l w).blk i).left = l i ∧
    ((writebackM st l w).blk i).width = w i := by
  unfold writebackM
  dsimp only
  rw [if_pos hi]
  exact ⟨rfl, rfl⟩

theorem computeInitialWidth_blk (st : RState) (total : ℕ) {i : ℕ} (hi : i < st.n) :
    ((computeInitialWidth st total).blk i).left
      = ((st.blk i).depth : ℚ) / (total : ℚ) ∧
    ((computeInitialWidth st total).blk i).width = 1 / (total : ℚ) := by
  unfold computeInitialWidth
  dsimp only
  rw [if_pos hi]
  exact ⟨rfl, rfl⟩







/-! ## Claim C1 on the LP-refinement path: the edge-separation invariant -/

theorem getD_append_gen : ∀ (l l2 : List ℕ) (k : ℕ), k < l.length →
    (l ++ l2).getD k 0 = l.getD k 0 := by
  intro l
  induction l with
  | nil => intro l2 k hk; exact absurd hk (by simp)
  | cons x t ih =>
      intro l2 k hk
      cases k with
      | zero => rfl
      | succ m => exact ih l2 m (by simpa using hk)

theorem getD_of_mem {x : ℕ} : ∀ {l : List ℕ}, x ∈ l →
    ∃ k, k < l.length ∧ l.getD k 0 = x := by
  intro l
  induction l with
  | nil => intro h; exact absurd h (List.not_mem_nil x)
  | cons c t ih =>
      intro h
      rcases List.mem_cons.1 h with hc | ht
      · exact ⟨0, by simp, hc.symm⟩
      · obtain ⟨k, hk, hg⟩ := ih ht
        exact ⟨k + 1, by simpa using hk, hg⟩

/-- Adjacency sanity of a pipeline state: `cleftN`/`crightN` owners and
members lie in the array, and the two condensed lists mirror each other. -/
def Adjacent (st : RState) : Prop :=
  (∀ j v, v ∈ (st.blk j).cleftN → j < st.n ∧ v < st.n) ∧
  (∀ j v, v ∈ (st.blk j).crightN → j < st.n ∧ v < st.n) ∧
  (∀ j v, v ∈ (st.blk j).cleftN ↔ j ∈ (st.blk v).crightN)

/-- The layout invariant preserved through the S6 loop: every `cleftN` edge
is separated (`left + width` of the member at most `left` of the owner) and
every width is nonnegative. -/
def EdgeInv (st : RState) : Prop :=
  (∀ j, ∀ v ∈ (st.blk j).cleftN,
    (st.blk v).left + (st.blk v).width ≤ (st.blk j).left) ∧
  (∀ j, 0 ≤ (st.blk j).width)

/-- Fixed blocks are visited (holds at every point of an S6 pass). -/
def FixVis (st : RState) : Prop :=
  ∀ j, j < st.n → (st.blk j).isFixed = true → (st.blk j).visited = true

/-- Every visited non-fixed block's component has been fully processed:
all its neighbors are visited too. -/
def NbrClosed (st : RState) : Prop :=
  ∀ j, j < st.n → (st.blk j).visited = true → (st.blk j).isFixed = false →
    ∀ v, (v ∈ (st.blk j).cleftN ∨ v ∈ (st.blk j).crightN) →
      (st.blk v).visited = true

theorem Adjacent_transfer {st st' : RState} (hn : st'.n = st.n)
    (hf : ∀ j, (st'.blk j).cleftN = (st.blk j).cleftN ∧
      (st'.blk j).crightN = (st.blk j).crightN)
    (h : Adjacent st) : Adjacent st' := by
  refine ⟨?_, ?_, ?_⟩
  · intro j v hv
    rw [(hf j).1] at hv
    rw [hn]
    exact h.1 j v hv
  · intro j v hv
    rw [(hf j).2] at hv
    rw [hn]
    exact h.2.1 j v hv
  · intro j v
    rw [(hf j).1, (hf v).2]
    exact h.2.2 j v

theorem EdgeInv_transfer {st st' : RState}
    (hf : ∀ j, (st'.blk j).left = (st.blk j).left ∧
      (st'.blk j).width = (st.blk j).width ∧
      (st'.blk j).cleftN = (st.blk j).cleftN)
    (h : EdgeInv st) : EdgeInv st' := by
  constructor
  · intro j v hv
    rw [(hf j).2.2] at hv
    rw [(hf j).1, (hf v).1, (hf v).2.1]
    exact h.1 j v hv
  · intro j
    rw [(hf j).2.1]
    exact h.2 j

theorem rmax_fold_start (st : RState) :
    ∀ (l : List ℕ) (acc : ℚ),
      acc ≤ l.foldl (fun acc v => if (st.blk v).isFixed then
        rmax acc ((st.blk v).left + (st.blk v).width) else acc) acc := by
  intro l
  induction l with
  | nil => intro acc; exact le_refl acc
  | cons x t ih =>
      intro acc
      rw [List.foldl_cons]
      by_cases hx : (st.blk x).isFixed = true
      · rw [if_pos hx]
        exact le_trans (le_rmax_left _ _) (ih _)
      · rw [if_neg hx]
        exact ih acc

/-- `maxLeftFixed` dominates every fixed `cleftN` neighbor's right edge. -/
theorem maxLeftFixed_ge (st : RState) (i : ℕ) :
    ∀ v ∈ (st.blk i).cleftN, (st.blk v).isFixed = true →
      (st.blk v).left + (st.blk v).width ≤ maxLeftFixed st i := by
  unfold maxLeftFixed
  suffices h : ∀ (l : List ℕ) (acc : ℚ), ∀ v ∈ l, (st.blk v).isFixed = true →
      (st.blk v).left + (st.blk v).width ≤ l.foldl
        (fun acc v => if (st.blk v).isFixed then
          rmax acc ((st.blk v).left + (st.blk v).width) else acc) acc by
    exact fun v hv hf => h _ 0 v hv hf
  intro l
  induction l with
  | nil => intro acc v hv; exact absurd hv (List.not_mem_nil v)
  | cons x t ih =>
      intro acc v hv hf
      rw [List.foldl_cons]
      rcases List.mem_cons.1 hv with hvx | hvt
      · rw [hvx] at hf ⊢
        rw [if_pos hf]
        exact le_trans (le_rmax_right _ _) (rmax_fold_start st t _)
      · exact ih _ v hvt hf

theorem rmin_fold_start (st : RState) :
    ∀ (l : List ℕ) (acc : ℚ),
      l.foldl (fun acc v => if (st.blk v).isFixed then
        rmin acc (st.blk v).left else acc) acc ≤ acc := by
  intro l
  induction l with
  | nil => intro acc; exact le_refl acc
  | cons x t ih =>
      intro acc
      rw [List.foldl_cons]
      by_cases hx : (st.blk x).isFixed = true
      · rw [if_pos hx]
        exact le_trans (ih _) (rmin_le_left _ _)
      · rw [if_neg hx]
        exact ih acc

/-- `minRightFixed` is below every fixed `crightN` neighbor's left edge. -/
theorem minRightFixed_le (st : RState) (i : ℕ) :
    ∀ v ∈ (st.blk i).crightN, (st.blk v).isFixed = true →
      minRightFixed st i ≤ (st.blk v).left := by
  unfold minRightFixed
  suffices h : ∀ (l : List ℕ) (acc : ℚ), ∀ v ∈ l, (st.blk v).isFixed = true →
      l.foldl (fun acc v => if (st.blk v).isFixed then
        rmin acc (st.blk v).left else acc) acc ≤ (st.blk v).left by
    exact fun v hv hf => h _ 1 v hv hf
  intro l
  induction l with
  | nil => intro acc v hv; exact absurd hv (List.not_mem_nil v)
  | cons x t ih =>
      intro acc v hv hf
      rw [List.foldl_cons]
      rcases List.mem_cons.1 hv with hvx | hvt
      · rw [hvx] at hf ⊢
        rw [if_pos hf]
        exact le_trans (rmin_fold_start st t _) (rmin_le_right _ _)
      · exact ih _ v hvt hf

/-- An LP solve only changes `left`/`width` of the component blocks. -/
theorem SolveLP_blkP {α} (P : Blk → α)
    (hLW : ∀ b (x y : ℚ), P { b with left := x, width := y } = P b)
    {lpm : ℤ} {st : RState} {comp : List ℕ} {st' : RState}
    (hs : SolveLP lpm st comp st') (j : ℕ) :
    P (st'.blk j) = P (st.blk j) := by
  cases hs with
  | one h2 l w hf =>
      rw [writeback1_blk]
      by_cases hj : j ∈ comp
      · rw [if_pos hj, hLW]
      · rw [if_neg hj]
  | two h2 l W hf hopt =>
      rw [writeback2_blk]
      by_cases hj : j ∈ comp
      · rw [if_pos hj, hLW]
      · rw [if_neg hj]
  | oneFail h2 hinf => rfl
  | twoFail h2 hinf => rfl

theorem SolveLP_n {lpm : ℤ} {st : RState} {comp : List ℕ} {st' : RState}
    (hs : SolveLP lpm st comp st') : st'.n = st.n := by
  cases hs with
  | one h2 l w hf => exact writeback1_n l w comp st
  | two h2 l W hf hopt => exact writeback2_n l W comp st
  | oneFail h2 hinf => rfl
  | twoFail h2 hinf => rfl

theorem stS2_n (o : Opts) (inp : Input) (ord : List ℕ) :
    (stS2 o inp ord).n = inp.length := by
  show (adjOuter o.dfsTolerance (afterS1 o inp ord).1 ord).n = inp.length
  rw [adjOuter_n]
  show ((stageS1 o (initState inp) ord).1).n = inp.length
  rw [stageS1_n]
  rfl

/-- Members and owners of post-S2 `rightN` lists lie in the array. -/
theorem mem_rightN_lt (o : Opts) (inp : Input) (ord : List ℕ)
    (hord : IsStartOrder (initState inp) ord) {a b : ℕ}
    (h : b ∈ ((stS2 o inp ord).blk a).rightN) :
    a < inp.length ∧ b < inp.length := by
  have h' : a ∈ ((stS2 o inp ord).blk b).leftN :=
    ((stS2_adj_iff o inp ord hord b a).1).2 h
  obtain ⟨h1, h2⟩ := mem_leftN_lt o inp ord hord h'
  exact ⟨h2, h1⟩

/-- Out-of-array blocks have no condensed adjacency. -/
theorem preSeed_cleftN_out (o : Opts) (inp : Input) (ord : List ℕ)
    {j : ℕ} (hj : ¬ j < inp.length) :
    ((preSeed o inp ord).blk j).cleftN = [] ∧
    ((preSeed o inp ord).blk j).crightN = [] := by
  rw [preSeed_eq]
  unfold condenseAdjList
  dsimp only
  rw [if_neg (by rw [stS2_n]; exact hj)]
  have h1 : ((stS2 o inp ord).blk j).cleftN = (((afterS1 o inp ord).1).blk j).cleftN :=
    adjOuter_blkP (fun b => b.cleftN) (fun _ _ _ => rfl) o.dfsTolerance ord _ j
  have h2 : ((stS2 o inp ord).blk j).crightN = (((afterS1 o inp ord).1).blk j).crightN :=
    adjOuter_blkP (fun b => b.crightN) (fun _ _ _ => rfl) o.dfsTolerance ord _ j
  rw [h1, h2]
  exact ⟨(afterS1_adjEmpty o inp ord j).2.2.1, (afterS1_adjEmpty o inp ord j).2.2.2⟩

/-- The two condensed adjacency lists mirror each other. -/
theorem preSeed_mirror (o : Opts) (inp : Input) (ord : List ℕ)
    (hord : IsStartOrder (initState inp) ord) (j v : ℕ) :
    v ∈ ((preSeed o inp ord).blk j).cleftN ↔
      j ∈ ((preSeed o inp ord).blk v).crightN := by
  by_cases hj : j < inp.length
  · by_cases hv : v < inp.length
    · have hjn : j < (stS2 o inp ord).n := by rw [stS2_n]; exact hj
      have hvn : v < (stS2 o inp ord).n := by rw [stS2_n]; exact hv
      rw [preSeed_eq, condense_mem_cleftN (stS2 o inp ord) hjn v,
        condense_mem_crightN (stS2 o inp ord) hvn j]
      have hmat : ∀ w v', ((stS2 o inp ord).matrix w v' = true) ↔
          v' ∈ ((stS2 o inp ord).blk w).leftN := fun w v' =>
        (stS2_adj_iff o inp ord hord w v').2.1
      have hLR : ∀ a b, b ∈ ((stS2 o inp ord).blk a).leftN ↔
          a ∈ ((stS2 o inp ord).blk b).rightN := fun a b =>
        (stS2_adj_iff o inp ord hord a b).1
      constructor
      · rintro ⟨h1, h2⟩
        refine ⟨(hLR j v).1 h1, ?_⟩
        intro w hw
        have hvw : v ∈ ((stS2 o inp ord).blk w).leftN := (hLR w v).2 hw
        cases hq : (stS2 o inp ord).matrix j w with
        | false => rfl
        | true =>
            exfalso
            have hwlj : w ∈ ((stS2 o inp ord).blk j).leftN := (hmat j w).1 hq
            have hmz := h2 w hwlj
            rw [(hmat w v).2 hvw] at hmz
            cases hmz
      · rintro ⟨h1, h2⟩
        refine ⟨(hLR j v).2 h1, ?_⟩
        intro w hw
        cases hq : (stS2 o inp ord).matrix w v with
        | false => rfl
        | true =>
            exfalso
            have hvlw : v ∈ ((stS2 o inp ord).blk w).leftN := (hmat w v).1 hq
            have hwrv : w ∈ ((stS2 o inp ord).blk v).rightN := (hLR w v).1 hvlw
            have hmz := h2 w hwrv
            rw [(hmat j w).2 hw] at hmz
            cases hmz
    · constructor
      · intro h
        have hvn := preSeed_cleftN_lt o inp ord hord j v h
        rw [preSeed_n] at hvn
        exact absurd hvn hv
      · intro h
        rw [(preSeed_cleftN_out o inp ord hv).2] at h
        cases h
  · constructor
    · intro h
      rw [(preSeed_cleftN_out o inp ord hj).1] at h
      cases h
    · intro h
      by_cases hv : v < inp.length
      · have hvn : v < (stS2 o inp ord).n := by rw [stS2_n]; exact hv
        rw [preSeed_eq, condense_mem_crightN (stS2 o inp ord) hvn j] at h
        exact absurd (mem_rightN_lt o inp ord hord h.1).2 hj
      · rw [(preSeed_cleftN_out o inp ord hv).2] at h
        cases h

theorem Adjacent_preSeed (o : Opts) (inp : Input) (ord : List ℕ)
    (hord : IsStartOrder (initState inp) ord) : Adjacent (preSeed o inp ord) := by
  have hown : ∀ j v, v ∈ ((preSeed o inp ord).blk j).cleftN →
      j < (preSeed o inp ord).n := by
    intro j v hv
    by_contra hj
    have hj' : ¬ j < inp.length := by rw [preSeed_n] at hj; exact hj
    rw [(preSeed_cleftN_out o inp ord hj').1] at hv
    cases hv
  refine ⟨?_, ?_, fun j v => preSeed_mirror o inp ord hord j v⟩
  · intro j v hv
    exact ⟨hown j v hv, preSeed_cleftN_lt o inp ord hord j v hv⟩
  · intro j v hv
    have hjc : j ∈ ((preSeed o inp ord).blk v).cleftN :=
      (preSeed_mirror o inp ord hord v j).2 hv
    exact ⟨preSeed_cleftN_lt o inp ord hord v j hjc, hown v j hjc⟩

/-- At tolerances `isTolerance = 0 ≤ dfsTolerance`, every recorded `leftN`
edge goes from a strictly shallower block into a deeper block's list. -/
theorem leftN_depth_lt (o : Opts) (inp : Input) (ord : List ℕ)
    (htol : o.isTolerance = 0) (hdtol : 0 ≤ o.dfsTolerance)
    (hv : ValidInput inp) (hord : IsStartOrder (initState inp) ord)
    {i v : ℕ} (h : v ∈ ((preSeed o inp ord).blk i).leftN) :
    (((afterS1 o inp ord).1).blk v).depth < (((afterS1 o inp ord).1).blk i).depth := by
  have hL : ((preSeed o inp ord).blk i).leftN = ((stS2 o inp ord).blk i).leftN := by
    rw [preSeed_eq]
    exact (condense_keeps (stS2 o inp ord) i).1
  rw [hL] at h
  obtain ⟨e, l, ⟨hsub, hlink⟩, hput⟩ := ((stS2_adj_iff o inp ord hord i v).2.2).1 h
  have hnd : ord.Nodup := hord.1.nodup_iff.2 (List.nodup_range _)
  have hsubnd : ([e, l] : List ℕ).Nodup := List.Nodup.sublist hsub hnd
  have hne : e ≠ l := by
    intro hEq
    rw [hEq] at hsubnd
    simp at hsubnd
  have hemem : e ∈ ord := hsub.subset (List.mem_cons_self _ _)
  have hlmem : l ∈ ord := hsub.subset (by simp)
  have hpw : ord.Pairwise (fun a b =>
      ((initState inp).blk a).startMin ≤ ((initState inp).blk b).startMin) := by
    refine hord.2.imp ?_
    intro a b hab
    rcases hab with hlt | ⟨heq, _⟩
    · exact le_of_lt hlt
    · exact le_of_eq heq
  have hsorted : ((initState inp).blk e).startMin ≤ ((initState inp).blk l).startMin :=
    (List.pairwise_cons.1 (List.Pairwise.sublist hsub hpw)).1 l (by simp)
  have hdne : (((afterS1 o inp ord).1).blk e).depth
      ≠ (((afterS1 o inp ord).1).blk l).depth := by
    intro hdeq
    have hdisj := (stageS1_spec o inp ord htol hv hord).1 e hemem l hlmem hdeq hne
    have h1 := (afterS1_se o inp ord e).2
    have h2 := (afterS1_se o inp ord l).1
    have hsel : ((initState inp).blk l).startMin < ((initState inp).blk l).endMin :=
      initState_se inp hv l (List.mem_range.1 (hord.1.mem_iff.1 hlmem))
    omega
  rcases hput with ⟨hd, rfl, rfl⟩ | ⟨hd, rfl, rfl⟩
  · exact hd
  · omega



/-- One component solve preserves the edge-separation invariant: rows give
the separation inside the component, `maxLeftFixed`/`minRightFixed` rows
bridge to fixed neighbors (which keep their old layout), and the closure
hypothesis rules out non-fixed neighbors outside the component. -/
theorem SolveLP_EdgeInv {lpm : ℤ} {st : RState} {comp : List ℕ} {st' : RState}
    (hs : SolveLP lpm st comp st')
    (hadj : Adjacent st)
    (hU : ∀ x ∈ comp, (st.blk x).isFixed = false)
    (hcl : ∀ x ∈ comp, ∀ v, (v ∈ (st.blk x).cleftN ∨ v ∈ (st.blk x).crightN) →
      (st.blk v).isFixed = false → v ∈ comp)
    (hinv : EdgeInv st) : EdgeInv st' := by
  cases hs with
  | one h2 l w hf =>
      constructor
      · intro j v hv
        have hv' : v ∈ (st.blk j).cleftN := by
          rw [writeback1_blk] at hv
          by_cases hj : j ∈ comp
          · rw [if_pos hj] at hv; exact hv
          · rw [if_neg hj] at hv; exact hv
        rw [writeback1_blk l w comp st v, writeback1_blk l w comp st j]
        by_cases hj : j ∈ comp <;> by_cases hvc : v ∈ comp
        · rw [if_pos hj, if_pos hvc]
          show l v + w v ≤ l j
          exact (hf j hj).1 v hv' (hU v hvc)
        · rw [if_pos hj, if_neg hvc]
          show (st.blk v).left + (st.blk v).width ≤ l j
          cases hvf : (st.blk v).isFixed with
          | false => exact absurd (hcl j hj v (Or.inl hv') hvf) hvc
          | true =>
              exact le_trans (maxLeftFixed_ge st j v hv' hvf) (hf j hj).2.2.1
        · rw [if_neg hj, if_pos hvc]
          show l v + w v ≤ (st.blk j).left
          have hjr : j ∈ (st.blk v).crightN := (hadj.2.2 j v).1 hv'
          cases hjf : (st.blk j).isFixed with
          | false => exact absurd (hcl v hvc j (Or.inr hjr) hjf) hj
          | true =>
              exact le_trans (hf v hvc).2.1 (minRightFixed_le st v j hjr hjf)
        · rw [if_neg hj, if_neg hvc]
          exact hinv.1 j v hv'
      · intro j
        rw [writeback1_blk]
        by_cases hj : j ∈ comp
        · rw [if_pos hj]
          show (0:ℚ) ≤ w j
          exact le_trans (hinv.2 j) (hf j hj).2.2.2
        · rw [if_neg hj]
          exact hinv.2 j
  | two h2 l W hf hopt =>
      constructor
      · intro j v hv
        have hv' : v ∈ (st.blk j).cleftN := by
          rw [writeback2_blk] at hv
          by_cases hj : j ∈ comp
          · rw [if_pos hj] at hv; exact hv
          · rw [if_neg hj] at hv; exact hv
        rw [writeback2_blk l W comp st v, writeback2_blk l W comp st j]
        by_cases hj : j ∈ comp <;> by_cases hvc : v ∈ comp
        · rw [if_pos hj, if_pos hvc]
          show l v + W ≤ l j
          exact (hf.1 j hj).1 v hv' (hU v hvc)
        · rw [if_pos hj, if_neg hvc]
          show (st.blk v).left + (st.blk v).width ≤ l j
          cases hvf : (st.blk v).isFixed with
          | false => exact absurd (hcl j hj v (Or.inl hv') hvf) hvc
          | true =>
              exact le_trans (maxLeftFixed_ge st j v hv' hvf) (hf.1 j hj).2.2
        · rw [if_neg hj, if_pos hvc]
          show l v + W ≤ (st.blk j).left
          have hjr : j ∈ (st.blk v).crightN := (hadj.2.2 j v).1 hv'
          cases hjf : (st.blk j).isFixed with
          | false => exact absurd (hcl v hvc j (Or.inr hjr) hjf) hj
          | true =>
              exact le_trans (hf.1 v hvc).2.1 (minRightFixed_le st v j hjr hjf)
        · rw [if_neg hj, if_neg hvc]
          exact hinv.1 j v hv'
      · intro j
        rw [writeback2_blk]
        by_cases hj : j ∈ comp
        · rw [if_pos hj]
          show (0:ℚ) ≤ W
          exact hf.2.1
        · rw [if_neg hj]
          exact hinv.2 j
  | oneFail h2 hinf => exact hinv
  | twoFail h2 hinf => exact hinv



theorem nodup_length_le {l : List ℕ} {n : ℕ} (hnd : l.Nodup)
    (hb : ∀ x ∈ l, x < n) : l.length ≤ n :=
  length_le_of_inj (fun x => x) n l hnd hb (fun _ _ _ _ h => h)

/-- The BFS neighbor fold: the buffer grows by exactly the newly marked
(previously unvisited) neighbors, every scanned neighbor ends visited, and
a block is visited afterwards iff it was visited or is in the buffer. -/
theorem bfsFold_spec :
    ∀ (vs : List ℕ) (buf : List ℕ) (st : RState),
      (∀ x ∈ buf, (st.blk x).visited = true) →
      buf.Nodup →
      ∀ res : List ℕ × RState,
        res = vs.foldl (fun (acc : List ℕ × RState) (v : ℕ) =>
          if (acc.2.blk v).visited then acc
          else (acc.1 ++ [v], modB acc.2 v (fun b => { b with visited := true })))
          (buf, st) →
        (∃ ext, res.1 = buf ++ ext ∧
          ∀ x ∈ ext, x ∈ vs ∧ (st.blk x).visited = false) ∧
        (∀ v ∈ vs, (res.2.blk v).visited = true) ∧
        (∀ j, (res.2.blk j).visited = true ↔
          (st.blk j).visited = true ∨ j ∈ res.1) ∧
        res.1.Nodup := by
  intro vs
  induction vs with
  | nil =>
      intro buf st hbuf hnd res hres
      rw [List.foldl_nil] at hres
      subst hres
      refine ⟨⟨[], by simp, by simp⟩, by simp, ?_, hnd⟩
      intro j
      constructor
      · exact fun h => Or.inl h
      · rintro (h | h)
        · exact h
        · exact hbuf j h
  | cons v t ih =>
      intro buf st hbuf hnd res hres
      rw [List.foldl_cons] at hres
      dsimp only at hres
      by_cases hv : (st.blk v).visited = true
      · rw [if_pos hv] at hres
        obtain ⟨⟨ext, he1, he2⟩, h2, h3, h4⟩ := ih buf st hbuf hnd res hres
        refine ⟨⟨ext, he1, fun x hx =>
          ⟨List.mem_cons_of_mem v (he2 x hx).1, (he2 x hx).2⟩⟩, ?_, h3, h4⟩
        intro u hu
        rcases List.mem_cons.1 hu with hu | hu
        · rw [hu]
          exact (h3 v).2 (Or.inl hv)
        · exact h2 u hu
      · rw [if_neg hv] at hres
        have hvm : ((modB st v (fun b => { b with visited := true })).blk v).visited
            = true := by rw [modB_blk_same]
        have hother : ∀ j, j ≠ v →
            (modB st v (fun b => { b with visited := true })).blk j = st.blk j :=
          fun j hj => modB_blk_other _ _ _ hj
        have hbuf' : ∀ x ∈ buf ++ [v],
            ((modB st v (fun b => { b with visited := true })).blk x).visited = true := by
          intro x hx
          rcases List.mem_append.1 hx with hx | hx
          · by_cases hxv : x = v
            · rw [hxv]; exact hvm
            · rw [hother x hxv]; exact hbuf x hx
          · have hxv : x = v := by simpa using hx
            rw [hxv]; exact hvm
        have hnd' : (buf ++ [v]).Nodup := by
          rw [List.nodup_append]
          refine ⟨hnd, List.nodup_singleton v, ?_⟩
          intro x hx hxm
          have hxv : x = v := by simpa using hxm
          rw [hxv] at hx
          exact hv (hbuf v hx)
        obtain ⟨⟨ext, he1, he2⟩, h2, h3, h4⟩ := ih (buf ++ [v])
          (modB st v (fun b => { b with visited := true })) hbuf' hnd' res hres
        have hvres : v ∈ res.1 := by
          rw [he1]
          exact List.mem_append.2 (Or.inl (List.mem_append.2 (Or.inr (by simp))))
        refine ⟨⟨[v] ++ ext, by rw [he1, List.append_assoc], ?_⟩, ?_, ?_, h4⟩
        · intro x hx
          rcases List.mem_append.1 hx with hx | hx
          · have hxv : x = v := by simpa using hx
            rw [hxv]
            refine ⟨List.mem_cons_self v t, ?_⟩
            cases hB : (st.blk v).visited with
            | false => rfl
            | true => exact absurd hB hv
          · obtain ⟨hxt, hxu⟩ := he2 x hx
            refine ⟨List.mem_cons_of_mem v hxt, ?_⟩
            by_cases hxv : x = v
            · rw [hxv]
              cases hB : (st.blk v).visited with
              | false => rfl
              | true => exact absurd hB hv
            · rw [hother x hxv] at hxu
              exact hxu
        · intro u hu
          rcases List.mem_cons.1 hu with hu | hu
          · rw [hu]
            exact (h3 v).2 (Or.inr hvres)
          · exact h2 u hu
        · intro j
          rw [h3 j]
          constructor
          · rintro (hj | hj)
            · by_cases hjv : j = v
              · exact Or.inr (hjv ▸ hvres)
              · rw [hother j hjv] at hj
                exact Or.inl hj
            · exact Or.inr hj
          · rintro (hj | hj)
            · by_cases hjv : j = v
              · exact Or.inr (hjv ▸ hvres)
              · left
                rw [hother j hjv]
                exact hj
            · exact Or.inr hj

/-- Full correctness of the BFS queue loop, relative to the pre-BFS state
`st0`: with enough fuel (`n + 1` minus the cursor), the returned buffer
extends the current one, stays inside the array and duplicate-free, the
marked set is exactly the initial one plus the buffer, every member was
unvisited in `st0`, and every neighbor of every buffer member is marked. -/
theorem bfsLoop_spec (st0 : RState) (hadj : Adjacent st0) :
    ∀ (fuel : ℕ) (st : RState) (buf : List ℕ) (qIdx : ℕ),
      st.n = st0.n →
      (∀ j, (st.blk j).cleftN = (st0.blk j).cleftN ∧
        (st.blk j).crightN = (st0.blk j).crightN) →
      (∀ x ∈ buf, (st.blk x).visited = true) →
      buf.Nodup →
      (∀ x ∈ buf, x < st0.n) →
      (∀ x ∈ buf, (st0.blk x).visited = false) →
      qIdx ≤ buf.length →
      (∀ k, k < qIdx → ∀ v,
        (v ∈ (st0.blk (buf.getD k 0)).cleftN ∨ v ∈ (st0.blk (buf.getD k 0)).crightN) →
        (st.blk v).visited = true) →
      (∀ j, (st.blk j).visited = true ↔ (st0.blk j).visited = true ∨ j ∈ buf) →
      st0.n + 1 ≤ fuel + qIdx →
      ∀ res : List ℕ × RState, res = bfsLoop fuel st buf qIdx →
        (∃ ext, res.1 = buf ++ ext) ∧
        (∀ x ∈ res.1, x < st0.n) ∧
        res.1.Nodup ∧
        (∀ x ∈ res.1, (st0.blk x).visited = false) ∧
        (∀ j, (res.2.blk j).visited = true ↔
          (st0.blk j).visited = true ∨ j ∈ res.1) ∧
        (∀ x ∈ res.1, ∀ v,
          (v ∈ (st0.blk x).cleftN ∨ v ∈ (st0.blk x).crightN) →
          (res.2.blk v).visited = true) := by
  intro fuel
  induction fuel with
  | zero =>
      intro st buf qIdx hn hfl hbuf hnd hb hb0 hq hcl hiff hfuel res hres
      exfalso
      have hlen : buf.length ≤ st0.n := nodup_length_le hnd hb
      omega
  | succ fuel ih =>
      intro st buf qIdx hn hfl hbuf hnd hb hb0 hq hcl hiff hfuel res hres
      rw [bfsLoop_succ] at hres
      by_cases hqlt : qIdx < buf.length
      · rw [if_pos hqlt] at hres
        set FR := (((st.blk (buf.getD qIdx 0)).cleftN ++
            (st.blk (buf.getD qIdx 0)).crightN).foldl
          (fun (acc : List ℕ × RState) (v : ℕ) =>
            if (acc.2.blk v).visited then acc
            else (acc.1 ++ [v], modB acc.2 v (fun b => { b with visited := true })))
          (buf, st)) with hFR
        obtain ⟨⟨ext, he1, he2⟩, h2, h3, h4⟩ := bfsFold_spec
          ((st.blk (buf.getD qIdx 0)).cleftN ++ (st.blk (buf.getD qIdx 0)).crightN)
          buf st hbuf hnd FR hFR
        have hvsn : ∀ x, x ∈ (st.blk (buf.getD qIdx 0)).cleftN ++
            (st.blk (buf.getD qIdx 0)).crightN → x < st0.n := by
          intro x hx
          rcases List.mem_append.1 hx with hx | hx
          · rw [(hfl _).1] at hx
            exact (hadj.1 _ x hx).2
          · rw [(hfl _).2] at hx
            exact (hadj.2.1 _ x hx).2
        have hA1 : FR.2.n = st0.n := by rw [hFR, bfsFold_n]; exact hn
        have hA2 : ∀ j, (FR.2.blk j).cleftN = (st0.blk j).cleftN ∧
            (FR.2.blk j).crightN = (st0.blk j).crightN := by
          intro j
          constructor
          · rw [hFR, bfsFold_blkP (fun b => b.cleftN) (fun _ _ => rfl)]
            exact (hfl j).1
          · rw [hFR, bfsFold_blkP (fun b => b.crightN) (fun _ _ => rfl)]
            exact (hfl j).2
        have hA3 : ∀ x ∈ FR.1, (FR.2.blk x).visited = true :=
          fun x hx => (h3 x).2 (Or.inr hx)
        have hA5 : ∀ x ∈ FR.1, x < st0.n := by
          intro x hx
          rw [he1] at hx
          rcases List.mem_append.1 hx with hx | hx
          · exact hb x hx
          · exact hvsn x (he2 x hx).1
        have hA6 : ∀ x ∈ FR.1, (st0.blk x).visited = false := by
          intro x hx
          rw [he1] at hx
          rcases List.mem_append.1 hx with hx | hx
          · exact hb0 x hx
          · have hxu := (he2 x hx).2
            cases hB : (st0.blk x).visited with
            | false => rfl
            | true =>
                exact absurd ((hiff x).2 (Or.inl hB)) (by rw [hxu]; simp)
        have hA7 : qIdx + 1 ≤ FR.1.length := by
          rw [he1, List.length_append]
          omega
        have hA8 : ∀ k, k < qIdx + 1 → ∀ v,
            (v ∈ (st0.blk (FR.1.getD k 0)).cleftN ∨
              v ∈ (st0.blk (FR.1.getD k 0)).crightN) →
            (FR.2.blk v).visited = true := by
          intro k hk v hv
          have hgd : FR.1.getD k 0 = buf.getD k 0 := by
            rw [he1]
            exact getD_append_gen buf ext k (by omega)
          rw [hgd] at hv
          rcases Nat.lt_or_ge k qIdx with hk' | hk'
          · exact (h3 v).2 (Or.inl (hcl k hk' v hv))
          · have hkq : k = qIdx := by omega
            subst hkq
            refine h2 v ?_
            rcases hv with hv | hv
            · exact List.mem_append.2 (Or.inl (by rw [(hfl _).1]; exact hv))
            · exact List.mem_append.2 (Or.inr (by rw [(hfl _).2]; exact hv))
        have hA9 : ∀ j, (FR.2.blk j).visited = true ↔
            (st0.blk j).visited = true ∨ j ∈ FR.1 := by
          intro j
          rw [h3 j, hiff j]
          constructor
          · rintro ((hj | hj) | hj)
            · exact Or.inl hj
            · right
              rw [he1]
              exact List.mem_append.2 (Or.inl hj)
            · exact Or.inr hj
          · rintro (hj | hj)
            · exact Or.inl (Or.inl hj)
            · exact Or.inr hj
        obtain ⟨⟨ext2, hr1⟩, hr2, hr3, hr4, hr5, hr6⟩ := ih FR.2 FR.1 (qIdx + 1)
          hA1 hA2 hA3 h4 hA5 hA6 hA7 hA8 hA9 (by omega) res hres
        refine ⟨⟨ext ++ ext2, ?_⟩, hr2, hr3, hr4, hr5, hr6⟩
        rw [hr1, he1, List.append_assoc]
      · rw [if_neg hqlt] at hres
        subst hres
        dsimp only
        refine ⟨⟨[], by simp⟩, hb, hnd, hb0, hiff, ?_⟩
        intro x hx v hv
        obtain ⟨k, hk, hgd⟩ := getD_of_mem hx
        have hkq : k < qIdx := by omega
        rw [← hgd] at hv
        exact hcl k hkq v hv



theorem detectInitialLoop_n :
    ∀ (is' : List ℕ) (st : RState), (detectInitialLoop st is').n = st.n := by
  intro is'
  induction is' with
  | nil => intro st; rfl
  | cons i rest ih =>
      intro st
      unfold detectInitialLoop
      split
      · exact ih st
      · split
        · rw [ih]
          exact dfsFix_n _ st i
        · exact ih st

theorem detectIterLoop_n :
    ∀ (is' : List ℕ) (st : RState), (detectIterLoop st is').n = st.n := by
  intro is'
  induction is' with
  | nil => intro st; rfl
  | cons i rest ih =>
      intro st
      unfold detectIterLoop
      split
      · exact ih st
      · split
        · rw [ih]
          exact dfsFix_n _ st i
        · split
          · rw [ih]
            exact dfsFix_n _ st i
          · exact ih st

theorem iterTail_n (st : RState) : (((iterTail st).2)).n = st.n := by
  show (setVisitedFixed (detectIterAll (setVisitedFixed st))).n = st.n
  show (detectIterLoop (setVisitedFixed st)
    (List.range (setVisitedFixed st).n)).n = st.n
  rw [detectIterLoop_n]
  rfl

theorem preLoopOf_n (st : RState) : (((preLoopOf st).2)).n = st.n := by
  show (setVisitedFixed (detectInitialAll st)).n = st.n
  show (detectInitialLoop st (List.range st.n)).n = st.n
  rw [detectInitialLoop_n]

/-- `BFS` from an unvisited block: the component is duplicate-free, inside
the array, consists of blocks unvisited beforehand, exactly it gets marked,
and all its members' neighbors end up visited. -/
theorem BFS_spec (st : RState) (start : ℕ)
    (hadj : Adjacent st) (hstart : start < st.n)
    (hv : (st.blk start).visited = false) :
    (∀ x ∈ (BFS st start).1, x < st.n) ∧
    (BFS st start).1.Nodup ∧
    (∀ x ∈ (BFS st start).1, (st.blk x).visited = false) ∧
    (∀ j, (((BFS st start).2).blk j).visited = true ↔
      (st.blk j).visited = true ∨ j ∈ (BFS st start).1) ∧
    (∀ x ∈ (BFS st start).1, ∀ v,
      (v ∈ (st.blk x).cleftN ∨ v ∈ (st.blk x).crightN) →
      (((BFS st start).2).blk v).visited = true) := by
  have hother : ∀ j, j ≠ start →
      (modB st start (fun b => { b with visited := true })).blk j = st.blk j :=
    fun j hj => modB_blk_other _ _ _ hj
  obtain ⟨⟨ext, he⟩, h2, h3, h4, h5, h6⟩ := bfsLoop_spec st hadj (st.n + 1)
    (modB st start (fun b => { b with visited := true })) [start] 0
    rfl
    (by
      intro j
      by_cases hj : j = start
      · rw [hj, modB_blk_same]
        exact ⟨rfl, rfl⟩
      · rw [hother j hj]
        exact ⟨rfl, rfl⟩)
    (by
      intro x hx
      have hxs : x = start := by simpa using hx
      rw [hxs, modB_blk_same])
    (List.nodup_singleton start)
    (by
      intro x hx
      have hxs : x = start := by simpa using hx
      rw [hxs]
      exact hstart)
    (by
      intro x hx
      have hxs : x = start := by simpa using hx
      rw [hxs]
      exact hv)
    (by simp)
    (by intro k hk; omega)
    (by
      intro j
      by_cases hj : j = start
      · rw [hj, modB_blk_same]
        simp
      · rw [hother j hj]
        constructor
        · exact fun h => Or.inl h
        · rintro (h | h)
          · exact h
          · exact absurd (by simpa using h) hj)
    (by omega)
    (BFS st start) rfl
  exact ⟨h2, h3, h4, h5, h6⟩

theorem setVisitedFixed_VF (st : RState) :
    ∀ j, j < st.n → ((setVisitedFixed st).blk j).visited
      = ((setVisitedFixed st).blk j).isFixed := by
  intro j hj
  unfold setVisitedFixed
  dsimp only
  rw [if_pos hj]

/-- The state after `iterTail` has `visited = isFixed` on the array, since
it ends in `setVisitedFixed`. -/
theorem iterTail_VF (st : RState) :
    ∀ j, j < (((iterTail st).2)).n →
      ((((iterTail st).2)).blk j).visited = ((((iterTail st).2)).blk j).isFixed := by
  intro j hj
  show ((setVisitedFixed (detectIterAll (setVisitedFixed st))).blk j).visited
    = ((setVisitedFixed (detectIterAll (setVisitedFixed st))).blk j).isFixed
  refine setVisitedFixed_VF _ j ?_
  have hn := iterTail_n st
  rw [hn] at hj
  show j < (detectIterLoop (setVisitedFixed st)
    (List.range (setVisitedFixed st).n)).n
  rw [detectIterLoop_n]
  exact hj

/-- Likewise for the pre-loop state (S5 plus the initial fixed count). -/
theorem preLoopOf_VF (st : RState) :
    ∀ j, j < (((preLoopOf st).2)).n →
      ((((preLoopOf st).2)).blk j).visited = ((((preLoopOf st).2)).blk j).isFixed := by
  intro j hj
  show ((setVisitedFixed (detectInitialAll st)).blk j).visited
    = ((setVisitedFixed (detectInitialAll st)).blk j).isFixed
  refine setVisitedFixed_VF _ j ?_
  have hn := preLoopOf_n st
  rw [hn] at hj
  show j < (detectInitialLoop st (List.range st.n)).n
  rw [detectInitialLoop_n]
  exact hj

/-- One S6 component pass preserves the separation invariant together with
the visited/fixed bookkeeping that justifies the component closure. -/
theorem Pass_EdgeInv (o : Opts) :
    ∀ {i : ℕ} {st st' : RState}, Pass o i st st' →
      Adjacent st → EdgeInv st → FixVis st → NbrClosed st →
      EdgeInv st' ∧ Adjacent st' ∧
      (∀ j, (st'.blk j).cleftN = (st.blk j).cleftN) := by
  intro i st st' hp
  induction hp with
  | done _ _ h =>
      intro hadj hinv hfv hnc
      exact ⟨hinv, hadj, fun j => rfl⟩
  | skip _ _ _ h hv hrest ih =>
      intro hadj hinv hfv hnc
      exact ih hadj hinv hfv hnc
  | solve i st st1 st' h hv hs hrest ih =>
      intro hadj hinv hfv hnc
      obtain ⟨hcb, hcnd, hcu, hciff, hccl⟩ := BFS_spec st i hadj h hv
      have hMf : ∀ j, ((BFS st i).2.blk j).cleftN = (st.blk j).cleftN ∧
          ((BFS st i).2.blk j).crightN = (st.blk j).crightN ∧
          ((BFS st i).2.blk j).isFixed = (st.blk j).isFixed ∧
          ((BFS st i).2.blk j).left = (st.blk j).left ∧
          ((BFS st i).2.blk j).width = (st.blk j).width :=
        fun j => ⟨BFS_blkP (fun b => b.cleftN) (fun _ _ => rfl) st i j,
          BFS_blkP (fun b => b.crightN) (fun _ _ => rfl) st i j,
          BFS_blkP (fun b => b.isFixed) (fun _ _ => rfl) st i j,
          BFS_blkP (fun b => b.left) (fun _ _ => rfl) st i j,
          BFS_blkP (fun b => b.width) (fun _ _ => rfl) st i j⟩
      have hMn : ((BFS st i).2).n = st.n := BFS_n st i
      have hadjM : Adjacent ((BFS st i).2) :=
        Adjacent_transfer hMn (fun j => ⟨(hMf j).1, (hMf j).2.1⟩) hadj
      have hinvM : EdgeInv ((BFS st i).2) :=
        EdgeInv_transfer (fun j => ⟨(hMf j).2.2.2.1, (hMf j).2.2.2.2, (hMf j).1⟩) hinv
      have hU : ∀ x ∈ (BFS st i).1, ((BFS st i).2.blk x).isFixed = false := by
        intro x hx
        rw [(hMf x).2.2.1]
        cases hB : (st.blk x).isFixed with
        | false => rfl
        | true => exact absurd (hfv x (hcb x hx) hB) (by rw [hcu x hx]; simp)
      have hcl : ∀ x ∈ (BFS st i).1, ∀ v,
          (v ∈ ((BFS st i).2.blk x).cleftN ∨ v ∈ ((BFS st i).2.blk x).crightN) →
          ((BFS st i).2.blk v).isFixed = false → v ∈ (BFS st i).1 := by
        intro x hx v hvn hvf
        rw [(hMf x).1, (hMf x).2.1] at hvn
        rw [(hMf v).2.2.1] at hvf
        have hvvis : ((BFS st i).2.blk v).visited = true := hccl x hx v hvn
        rcases (hciff v).1 hvvis with hvis | hin
        · exfalso
          have hvlt : v < st.n := by
            rcases hvn with hvn | hvn
            · exact (hadj.1 x v hvn).2
            · exact (hadj.2.1 x v hvn).2
          have hxnb : x ∈ (st.blk v).cleftN ∨ x ∈ (st.blk v).crightN := by
            rcases hvn with hvn | hvn
            · exact Or.inr ((hadj.2.2 x v).1 hvn)
            · exact Or.inl ((hadj.2.2 v x).2 hvn)
          have hxvis := hnc v hvlt hvis hvf x hxnb
          exact absurd hxvis (by rw [hcu x hx]; simp)
        · exact hin
      have hinv1 : EdgeInv st1 := SolveLP_EdgeInv hs hadjM hU hcl hinvM
      have h1f : ∀ j, (st1.blk j).cleftN = (st.blk j).cleftN ∧
          (st1.blk j).crightN = (st.blk j).crightN ∧
          (st1.blk j).isFixed = (st.blk j).isFixed ∧
          (st1.blk j).visited = ((BFS st i).2.blk j).visited := by
        intro j
        refine ⟨?_, ?_, ?_, ?_⟩
        · rw [SolveLP_blkP (fun b => b.cleftN) (fun _ _ _ => rfl) hs j]
          exact (hMf j).1
        · rw [SolveLP_blkP (fun b => b.crightN) (fun _ _ _ => rfl) hs j]
          exact (hMf j).2.1
        · rw [SolveLP_blkP (fun b => b.isFixed) (fun _ _ _ => rfl) hs j]
          exact (hMf j).2.2.1
        · exact SolveLP_blkP (fun b => b.visited) (fun _ _ _ => rfl) hs j
      have h1n : st1.n = st.n := by rw [SolveLP_n hs]; exact hMn
      have hadj1 : Adjacent st1 :=
        Adjacent_transfer h1n (fun j => ⟨(h1f j).1, (h1f j).2.1⟩) hadj
      have hfv1 : FixVis st1 := by
        intro j hj hf
        rw [(h1f j).2.2.2]
        refine (hciff j).2 (Or.inl ?_)
        refine hfv j ?_ ?_
        · rw [h1n] at hj
          exact hj
        · rw [← (h1f j).2.2.1]
          exact hf
      have hnc1 : NbrClosed st1 := by
        intro j hj hvis hf v hvn
        rw [(h1f j).2.2.2] at hvis
        rw [(h1f j).2.2.1] at hf
        rw [(h1f j).1, (h1f j).2.1] at hvn
        rw [(h1f v).2.2.2]
        rw [h1n] at hj
        rcases (hciff j).1 hvis with hvis' | hin
        · exact (hciff v).2 (Or.inl (hnc j hj hvis' hf v hvn))
        · exact hccl j hin v hvn
      obtain ⟨hr1, hr2, hr3⟩ := ih hadj1 hinv1 hfv1 hnc1
      exact ⟨hr1, hr2, fun j => (hr3 j).trans (h1f j).1⟩

/-- The whole S6 refinement loop preserves the separation invariant. -/
theorem LPLoop_EdgeInv (o : Opts) :
    ∀ {k pfc : ℕ} {st st' : RState}, LPLoop o k pfc st st' →
      Adjacent st → EdgeInv st →
      (∀ j, j < st.n → (st.blk j).visited = (st.blk j).isFixed) →
      EdgeInv st' ∧ (∀ j, (st'.blk j).cleftN = (st.blk j).cleftN) := by
  intro k pfc st st' hl
  induction hl with
  | fuelout _ _ =>
      intro hadj hinv hvf
      exact ⟨hinv, fun j => rfl⟩
  | conv k pfc st stA hp hfc =>
      intro hadj hinv hvf
      have hfv : FixVis st := by
        intro j hj hf
        rw [hvf j hj, hf]
      have hnc : NbrClosed st := by
        intro j hj hvis hf
        rw [hvf j hj, hf] at hvis
        cases hvis
      obtain ⟨hA1, _, hA3⟩ := Pass_EdgeInv o hp hadj hinv hfv hnc
      have hTf : ∀ j, (((iterTail stA).2).blk j).left = (stA.blk j).left ∧
          (((iterTail stA).2).blk j).width = (stA.blk j).width ∧
          (((iterTail stA).2).blk j).cleftN = (stA.blk j).cleftN :=
        fun j => ⟨iterTail_blkP (fun b => b.left) (fun _ _ => rfl) (fun _ _ => rfl) stA j,
          iterTail_blkP (fun b => b.width) (fun _ _ => rfl) (fun _ _ => rfl) stA j,
          iterTail_blkP (fun b => b.cleftN) (fun _ _ => rfl) (fun _ _ => rfl) stA j⟩
      refine ⟨EdgeInv_transfer hTf hA1, ?_⟩
      intro j
      exact ((hTf j).2.2).trans (hA3 j)
  | cont k pfc st stA stF hp hfc hrest ih =>
      intro hadj hinv hvf
      have hfv : FixVis st := by
        intro j hj hf
        rw [hvf j hj, hf]
      have hnc : NbrClosed st := by
        intro j hj hvis hf
        rw [hvf j hj, hf] at hvis
        cases hvis
      obtain ⟨hA1, hA2, hA3⟩ := Pass_EdgeInv o hp hadj hinv hfv hnc
      have hTf : ∀ j, (((iterTail stA).2).blk j).left = (stA.blk j).left ∧
          (((iterTail stA).2).blk j).width = (stA.blk j).width ∧
          (((iterTail stA).2).blk j).cleftN = (stA.blk j).cleftN ∧
          (((iterTail stA).2).blk j).crightN = (stA.blk j).crightN :=
        fun j => ⟨iterTail_blkP (fun b => b.left) (fun _ _ => rfl) (fun _ _ => rfl) stA j,
          iterTail_blkP (fun b => b.width) (fun _ _ => rfl) (fun _ _ => rfl) stA j,
          iterTail_blkP (fun b => b.cleftN) (fun _ _ => rfl) (fun _ _ => rfl) stA j,
          iterTail_blkP (fun b => b.crightN) (fun _ _ => rfl) (fun _ _ => rfl) stA j⟩
      have hadjT : Adjacent ((iterTail stA).2) :=
        Adjacent_transfer (iterTail_n stA) (fun j => ⟨(hTf j).2.2.1, (hTf j).2.2.2⟩) hA2
      have hinvT : EdgeInv ((iterTail stA).2) :=
        EdgeInv_transfer (fun j => ⟨(hTf j).1, (hTf j).2.1, (hTf j).2.2.1⟩) hA1
      obtain ⟨hr1, hr2⟩ := ih hadjT hinvT (iterTail_VF stA)
      refine ⟨hr1, ?_⟩
      intro j
      exact (hr2 j).trans (((hTf j).2.2.1).trans (hA3 j))



theorem seedLoop_crightN (m fuel : ℕ) (st : RState) (stack : List ℕ) (j : ℕ) :
    ((seedLoop fuel st stack m).blk j).crightN = (st.blk j).crightN := by
  rcases seedLoop_blk m fuel st stack j with h' | ⟨_, _, h'⟩ <;> rw [h']

theorem seedRoots_adjfields : ∀ (rest : List ℕ) (st : RState) (j : ℕ),
    ((seedRoots st rest).blk j).cleftN = (st.blk j).cleftN ∧
    ((seedRoots st rest).blk j).crightN = (st.blk j).crightN := by
  intro rest
  induction rest with
  | nil => intro st j; exact ⟨rfl, rfl⟩
  | cons r t ih =>
      intro st j
      rw [seedRoots_cons]
      split
      · exact ih st j
      · refine ⟨?_, ?_⟩
        · rw [(ih _ j).1, seedLoop_cleftN]
        · rw [(ih _ j).2, seedLoop_crightN]

theorem seedDfs_adjfields (o : Opts) (inp : Input) (ord ordD : List ℕ) (j : ℕ) :
    ((seedDfs o inp ord ordD).blk j).cleftN = ((preSeed o inp ord).blk j).cleftN ∧
    ((seedDfs o inp ord ordD).blk j).crightN = ((preSeed o inp ord).blk j).crightN := by
  have h1 : ∀ (st : RState) (j : ℕ),
      ((clearVisited st).blk j).cleftN = (st.blk j).cleftN ∧
      ((clearVisited st).blk j).crightN = (st.blk j).crightN := by
    intro st j
    unfold clearVisited
    dsimp only
    split <;> exact ⟨rfl, rfl⟩
  have h2 : ∀ (st : RState) (j : ℕ),
      ((applyWidths st).blk j).cleftN = (st.blk j).cleftN ∧
      ((applyWidths st).blk j).crightN = (st.blk j).crightN := by
    intro st j
    unfold applyWidths
    dsimp only
    split <;> exact ⟨rfl, rfl⟩
  show ((clearVisited (applyWidths (seedRoots (preSeed o inp ord) ordD))).blk j).cleftN
      = _ ∧
    ((clearVisited (applyWidths (seedRoots (preSeed o inp ord) ordD))).blk j).crightN
      = _
  rw [(h1 _ j).1, (h1 _ j).2, (h2 _ j).1, (h2 _ j).2,
    (seedRoots_adjfields ordD _ j).1, (seedRoots_adjfields ordD _ j).2]
  exact ⟨rfl, rfl⟩

theorem seedDfs_n (o : Opts) (inp : Input) (ord ordD : List ℕ) :
    (seedDfs o inp ord ordD).n = (preSeed o inp ord).n := by
  show (clearVisited (applyWidths (seedRoots (preSeed o inp ord) ordD))).n = _
  show (seedRoots (preSeed o inp ord) ordD).n = _
  exact seedRoots_n ordD _

theorem seedPlain_adjfields (o : Opts) (inp : Input) (ord : List ℕ) (j : ℕ) :
    ((seedPlain o inp ord).blk j).cleftN = ((preSeed o inp ord).blk j).cleftN ∧
    ((seedPlain o inp ord).blk j).crightN = ((preSeed o inp ord).blk j).crightN := by
  show ((computeInitialWidth (preSeed o inp ord) (afterS1 o inp ord).2).blk j).cleftN
      = _ ∧
    ((computeInitialWidth (preSeed o inp ord) (afterS1 o inp ord).2).blk j).crightN
      = _
  unfold computeInitialWidth
  dsimp only
  split <;> exact ⟨rfl, rfl⟩

theorem seedPlain_n (o : Opts) (inp : Input) (ord : List ℕ) :
    (seedPlain o inp ord).n = (preSeed o inp ord).n := rfl

theorem preLoopOf_blkP {α} (P : Blk → α)
    (hV : ∀ b (v : Bool), P { b with visited := v } = P b)
    (hF : ∀ b (f : Bool), P { b with isFixed := f } = P b)
    (st : RState) (j : ℕ) :
    P ((((preLoopOf st).2)).blk j) = P (st.blk j) :=
  calc P ((((preLoopOf st).2)).blk j)
      = P ((detectInitialAll st).blk j) := setVisitedFixed_blkP P hV _ j
    _ = P (st.blk j) := detectInitialLoop_blkP P hV hF _ st j

/-- The stage-S4 seed satisfies the edge-separation invariant: each
`cleftN` edge joins a strictly shallower block (with a no-smaller path
depth) to a deeper one. -/
theorem seedDfs_EdgeInv (o : Opts) (inp : Input) (ord ordD : List ℕ)
    (htol : o.isTolerance = 0) (hdtol : 0 ≤ o.dfsTolerance) (hv : ValidInput inp)
    (hord : IsStartOrder (initState inp) ord)
    (hordD : IsDepthOrder (preSeed o inp ord) ordD) :
    EdgeInv (seedDfs o inp ord ordD) := by
  constructor
  · intro j v hvm
    rw [(seedDfs_adjfields o inp ord ordD j).1] at hvm
    have hj := ((Adjacent_preSeed o inp ord hord).1 j v hvm).1
    have hvn := ((Adjacent_preSeed o inp ord hord).1 j v hvm).2
    obtain ⟨_, hpj1, hmono, hlj, _, _, _⟩ :=
      seedDfs_spec o inp ord ordD hord hordD j hj
    obtain ⟨_, _, _, hlv, hwv, _, _⟩ :=
      seedDfs_spec o inp ord ordD hord hordD v hvn
    have hple := hmono v hvm
    have hvleft : v ∈ ((preSeed o inp ord).blk j).leftN :=
      (preSeed_adj o inp ord hord).1 j v hvm
    have hdlt := leftN_depth_lt o inp ord htol hdtol hv hord hvleft
    rw [hlj, hlv, hwv, preSeed_depth o inp ord j, preSeed_depth o inp ord v]
    exact seed_sep _ _ _ _ (by omega) hple (by omega)
  · intro j
    by_cases hj : j < (preSeed o inp ord).n
    · obtain ⟨_, _, _, _, hwj, _, _⟩ := seedDfs_spec o inp ord ordD hord hordD j hj
      rw [hwj]
      exact div_nonneg zero_le_one (Nat.cast_nonneg _)
    · rw [seedDfs_out o inp ord ordD hord hordD hj, (preSeed_lw0 o inp ord j).2]

/-- The `applyDFS`-off seed satisfies the edge-separation invariant. -/
theorem seedPlain_EdgeInv (o : Opts) (inp : Input) (ord : List ℕ)
    (htol : o.isTolerance = 0) (hdtol : 0 ≤ o.dfsTolerance) (hv : ValidInput inp)
    (hord : IsStartOrder (initState inp) ord)
    (htot : 1 ≤ (afterS1 o inp ord).2) :
    EdgeInv (seedPlain o inp ord) := by
  constructor
  · intro j v hvm
    rw [(seedPlain_adjfields o inp ord j).1] at hvm
    have hj := ((Adjacent_preSeed o inp ord hord).1 j v hvm).1
    have hvn := ((Adjacent_preSeed o inp ord hord).1 j v hvm).2
    have hvleft : v ∈ ((preSeed o inp ord).blk j).leftN :=
      (preSeed_adj o inp ord hord).1 j v hvm
    have hdlt := leftN_depth_lt o inp ord htol hdtol hv hord hvleft
    show ((computeInitialWidth (preSeed o inp ord) (afterS1 o inp ord).2).blk v).left
        + ((computeInitialWidth (preSeed o inp ord) (afterS1 o inp ord).2).blk v).width
      ≤ ((computeInitialWidth (preSeed o inp ord) (afterS1 o inp ord).2).blk j).left
    rw [(computeInitialWidth_blk _ _ hvn).1, (computeInitialWidth_blk _ _ hvn).2,
      (computeInitialWidth_blk _ _ hj).1,
      preSeed_depth o inp ord j, preSeed_depth o inp ord v]
    exact seed_sep _ _ _ _ (by omega) (le_refl _) htot
  · intro j
    by_cases hj : j < (preSeed o inp ord).n
    · show (0:ℚ) ≤
        ((computeInitialWidth (preSeed o inp ord) (afterS1 o inp ord).2).blk j).width
      rw [(computeInitialWidth_blk _ _ hj).2]
      exact div_nonneg zero_le_one (Nat.cast_nonneg _)
    · show (0:ℚ) ≤
        ((computeInitialWidth (preSeed o inp ord) (afterS1 o inp ord).2).blk j).width
      unfold computeInitialWidth
      dsimp only
      rw [if_neg hj, (preSeed_lw0 o inp ord j).2]

/-- Chaining the per-edge separation along a `cleftN` path. -/
theorem CPath_sep {pre stF : RState}
    (hcl : ∀ j, (stF.blk j).cleftN = (pre.blk j).cleftN)
    (hinv : EdgeInv stF) {b a : ℕ} (hp : CPath pre b a) :
    (stF.blk a).left + (stF.blk a).width ≤ (stF.blk b).left := by
  have main : ∀ x y, CPath pre x y →
      (stF.blk y).left + (stF.blk y).width ≤ (stF.blk x).left := by
    intro x y hxy
    induction hxy with
    | base u hm =>
        refine hinv.1 x u ?_
        rw [hcl x]
        exact hm
    | step w u hpw hm ih =>
        have h1 : (stF.blk u).left + (stF.blk u).width ≤ (stF.blk w).left := by
          refine hinv.1 w u ?_
          rw [hcl w]
          exact hm
        have h2 := hinv.2 w
        linarith
  exact main b a hp


/-- C1 (amended): with `isTolerance = 0` and `dfsTolerance ≥ 0`, on every
pipeline path the horizontal intervals of every conflicting pair of
distinct blocks do not overlap (up to `DOUBLE_EPS`): conflicting pairs
receive distinct S1 depths and are linked by the S2 scan, the seeded
layouts separate each `cleftN` edge, every LP solve re-establishes that
per-edge separation (its rows bound each block by its same-component
`cleftN` neighbors and by `maxLeftFixed`/`minRightFixed` against the fixed
ones), and the MILP rows force one side of each scanned pair. Without the
tolerance restriction the claim is false: with `isTolerance > dfsTolerance`
a conflicting pair can share a room, and the `total ≤ 1` short-circuit
then assigns both blocks the full width, so the original unconditional
claim does not hold. -/
theorem C1_amended (o : Opts) (inp : Input) (st : RState)
    (hv : ValidInput inp) (htol : o.isTolerance = 0)
    (hdtol : 0 ≤ o.dfsTolerance)
    (hc : ComputeRel o inp st) :
    ∀ a, a < inp.length → ∀ b, b < inp.length → a ≠ b →
      Conflict o.dfsTolerance ((initState inp).blk a) ((initState inp).blk b) →
      rmin ((st.blk a).left + (st.blk a).width) ((st.blk b).left + (st.blk b).width)
        ≤ rmax (st.blk a).left (st.blk b).left + DOUBLE_EPS := by
  intro a haN b hbN hne hcf
  cases hc with
  | milp ord st2 hord hm hs =>
      have hamem : a ∈ ord := hord.1.mem_iff.2 (List.mem_range.2 haN)
      have hbmem : b ∈ ord := hord.1.mem_iff.2 (List.mem_range.2 hbN)
      have hn : ((afterS1 o inp ord).1).n = inp.length :=
        stageS1_n o (initState inp) ord
      have haM : a < ((afterS1 o inp ord).1).n := by rw [hn]; exact haN
      have hbM : b < ((afterS1 o inp ord).1).n := by rw [hn]; exact hbN
      cases hs with
      | success l w y hf =>
          have hsep : l a + w a ≤ l b ∨ l b + w b ≤ l a := by
            rcases conflict_milpPair o inp ord hord hamem hbmem hne hcf with hp | hp
            · obtain ⟨hy, h1, h2⟩ := hf.1 (a, b) hp
              dsimp only at hy h1 h2
              rcases hy with hy | hy <;> rw [hy] at h1 h2
              · exact Or.inl (by linarith)
              · exact Or.inr (by linarith)
            · obtain ⟨hy, h1, h2⟩ := hf.1 (b, a) hp
              dsimp only at hy h1 h2
              rcases hy with hy | hy <;> rw [hy] at h1 h2
              · exact Or.inr (by linarith)
              · exact Or.inl (by linarith)
          rw [(writebackM_blk (afterS1 o inp ord).1 l w haM).1,
            (writebackM_blk (afterS1 o inp ord).1 l w haM).2,
            (writebackM_blk (afterS1 o inp ord).1 l w hbM).1,
            (writebackM_blk (afterS1 o inp ord).1 l w hbM).2]
          exact sep_nonoverlap hsep
      | failure hinf =>
          rw [(afterS1_lw0 o inp ord a).1, (afterS1_lw0 o inp ord a).2,
            (afterS1_lw0 o inp ord b).1, (afterS1_lw0 o inp ord b).2]
          exact sep_nonoverlap (Or.inl (by norm_num))
  | short ord hord hm ht =>
      exfalso
      have hamem : a ∈ ord := hord.1.mem_iff.2 (List.mem_range.2 haN)
      have hbmem : b ∈ ord := hord.1.mem_iff.2 (List.mem_range.2 hbN)
      have hdne := conflict_depth_ne o inp ord htol hv hord hdtol hamem hbmem hne hcf
      obtain ⟨_, hdlt⟩ := stageS1_depth_lt o (initState inp) ord
        (fun i => rfl) (List.ne_nil_of_mem hamem)
      have hda := hdlt a
      have hdb := hdlt b
      have ht' : (stageS1 o (initState inp) ord).2 ≤ 1 := ht
      have hdne' : ((stageS1 o (initState inp) ord).1.blk a).depth
          ≠ ((stageS1 o (initState inp) ord).1.blk b).depth := hdne
      omega
  | lpDfs ord ordD st2 hord hm ht hadfs hordD hl =>
      have hamem : a ∈ ord := hord.1.mem_iff.2 (List.mem_range.2 haN)
      have hbmem : b ∈ ord := hord.1.mem_iff.2 (List.mem_range.2 hbN)
      have hseedInv : EdgeInv (seedDfs o inp ord ordD) :=
        seedDfs_EdgeInv o inp ord ordD htol hdtol hv hord hordD
      have hseedAdj : Adjacent (seedDfs o inp ord ordD) :=
        Adjacent_transfer (seedDfs_n o inp ord ordD)
          (seedDfs_adjfields o inp ord ordD) (Adjacent_preSeed o inp ord hord)
      have hEf : ∀ j,
          ((((preLoopOf (seedDfs o inp ord ordD)).2)).blk j).left
            = ((seedDfs o inp ord ordD).blk j).left ∧
          ((((preLoopOf (seedDfs o inp ord ordD)).2)).blk j).width
            = ((seedDfs o inp ord ordD).blk j).width ∧
          ((((preLoopOf (seedDfs o inp ord ordD)).2)).blk j).cleftN
            = ((seedDfs o inp ord ordD).blk j).cleftN :=
        fun j => ⟨(preLoopOf_lw _ j).1, (preLoopOf_lw _ j).2,
          preLoopOf_blkP (fun b => b.cleftN) (fun _ _ => rfl) (fun _ _ => rfl) _ j⟩
      have hEAdj : Adjacent (((preLoopOf (seedDfs o inp ord ordD)).2)) :=
        Adjacent_transfer (preLoopOf_n _)
          (fun j => ⟨(hEf j).2.2,
            preLoopOf_blkP (fun b => b.crightN) (fun _ _ => rfl) (fun _ _ => rfl) _ j⟩)
          hseedAdj
      have hEInv : EdgeInv (((preLoopOf (seedDfs o inp ord ordD)).2)) :=
        EdgeInv_transfer hEf hseedInv
      obtain ⟨hFInv, hFcl⟩ := LPLoop_EdgeInv o hl hEAdj hEInv (preLoopOf_VF _)
      have hclF : ∀ j, (st.blk j).cleftN = ((preSeed o inp ord).blk j).cleftN := by
        intro j
        rw [hFcl j, (hEf j).2.2]
        exact (seedDfs_adjfields o inp ord ordD j).1
      have hdne := conflict_depth_ne o inp ord htol hv hord hdtol hamem hbmem hne hcf
      rcases Nat.lt_trichotomy ((((afterS1 o inp ord).1).blk a).depth)
          ((((afterS1 o inp ord).1).blk b).depth) with hlt | heq | hgt
      · -- a shallower, b deeper: a is reachable from b along cleftN edges
        have hmem := conflict_leftN o inp ord hord hbmem hamem hne.symm hcf.symm hlt
        have hpath2 := (preSeed_adj o inp ord hord).2 b a hmem
        exact sep_nonoverlap (Or.inl (CPath_sep hclF hFInv hpath2))
      · exact absurd heq hdne
      · have hmem := conflict_leftN o inp ord hord hamem hbmem hne hcf hgt
        have hpath2 := (preSeed_adj o inp ord hord).2 a b hmem
        exact sep_nonoverlap (Or.inr (CPath_sep hclF hFInv hpath2))
  | lpPlain ord st2 hord hm ht hadfs hl =>
      have hamem : a ∈ ord := hord.1.mem_iff.2 (List.mem_range.2 haN)
      have hbmem : b ∈ ord := hord.1.mem_iff.2 (List.mem_range.2 hbN)
      have ht' : 1 ≤ (afterS1 o inp ord).2 := le_trans (by omega) ht
      have hseedInv : EdgeInv (seedPlain o inp ord) :=
        seedPlain_EdgeInv o inp ord htol hdtol hv hord ht'
      have hseedAdj : Adjacent (seedPlain o inp ord) :=
        Adjacent_transfer (seedPlain_n o inp ord)
          (seedPlain_adjfields o inp ord) (Adjacent_preSeed o inp ord hord)
      have hEf : ∀ j,
          ((((preLoopOf (seedPlain o inp ord)).2)).blk j).left
            = ((seedPlain o inp ord).blk j).left ∧
          ((((preLoopOf (seedPlain o inp ord)).2)).blk j).width
            = ((seedPlain o inp ord).blk j).width ∧
          ((((preLoopOf (seedPlain o inp ord)).2)).blk j).cleftN
            = ((seedPlain o inp ord).blk j).cleftN :=
        fun j => ⟨(preLoopOf_lw _ j).1, (preLoopOf_lw _ j).2,
          preLoopOf_blkP (fun b => b.cleftN) (fun _ _ => rfl) (fun _ _ => rfl) _ j⟩
      have hEAdj : Adjacent (((preLoopOf (seedPlain o inp ord)).2)) :=
        Adjacent_transfer (preLoopOf_n _)
          (fun j => ⟨(hEf j).2.2,
            preLoopOf_blkP (fun b => b.crightN) (fun _ _ => rfl) (fun _ _ => rfl) _ j⟩)
          hseedAdj
      have hEInv : EdgeInv (((preLoopOf (seedPlain o inp ord)).2)) :=
        EdgeInv_transfer hEf hseedInv
      obtain ⟨hFInv, hFcl⟩ := LPLoop_EdgeInv o hl hEAdj hEInv (preLoopOf_VF _)
      have hclF : ∀ j, (st.blk j).cleftN = ((preSeed o inp ord).blk j).cleftN := by
        intro j
        rw [hFcl j, (hEf j).2.2]
        exact (seedPlain_adjfields o inp ord j).1
      have hdne := conflict_depth_ne o inp ord htol hv hord hdtol hamem hbmem hne hcf
      rcases Nat.lt_trichotomy ((((afterS1 o inp ord).1).blk a).depth)
          ((((afterS1 o inp ord).1).blk b).depth) with hlt | heq | hgt
      · have hmem := conflict_leftN o inp ord hord hbmem hamem hne.symm hcf.symm hlt
        have hpath2 := (preSeed_adj o inp ord hord).2 b a hmem
        exact sep_nonoverlap (Or.inl (CPath_sep hclF hFInv hpath2))
      · exact absurd heq hdne
      · have hmem := conflict_leftN o inp ord hord hamem hbmem hne hcf hgt
        have hpath2 := (preSeed_adj o inp ord hord).2 a b hmem
        exact sep_nonoverlap (Or.inr (CPath_sep hclF hFInv hpath2))

/-- Options of the C1 witness: all defaults except `LPIters = 0`. -/
def oC1W : Opts := ⟨0, 1, true, 0, 0, 1, false⟩

/-- Input of the C1 witness: two overlapping blocks. -/
def inpC1W : Input := [((0:ℤ),(100:ℤ)), ((10:ℤ),(110:ℤ))]

/-- Final state of the C1 witness run (seeded layout, `LPIters = 0`). -/
def stC1W : RState := (preLoopOf (seedDfs oC1W inpC1W [0, 1] [1, 0])).2

theorem C1_witness :
    ValidInput inpC1W ∧ oC1W.isTolerance = 0 ∧ (0:ℤ) ≤ oC1W.dfsTolerance ∧
    ComputeRel oC1W inpC1W stC1W ∧
    ((0:ℕ) < inpC1W.length ∧ (1:ℕ) < inpC1W.length ∧ (0:ℕ) ≠ 1 ∧
      Conflict oC1W.dfsTolerance ((initState inpC1W).blk 0) ((initState inpC1W).blk 1)) ∧
    rmin ((stC1W.blk 0).left + (stC1W.blk 0).width)
        ((stC1W.blk 1).left + (stC1W.blk 1).width)
      ≤ rmax (stC1W.blk 0).left (stC1W.blk 1).left + DOUBLE_EPS := by
  have hcr : ComputeRel oC1W inpC1W stC1W :=
    ComputeRel.lpDfs [0, 1] [1, 0] stC1W (by decide) rfl (by decide) rfl
      (by decide) (LPLoop.fuelout _ _)
  refine ⟨by decide, rfl, by decide, hcr,
    ⟨by decide, by decide, by decide, by decide⟩, ?_⟩
  exact C1_amended oC1W inpC1W stC1W (by decide) rfl (by decide) hcr
    0 (by decide) 1 (by decide) (by decide) (by decide)

end Renderer
